import Mathlib

/-!
# Student Result Analyzer (`src/project.c`): a shallow embedding

The C program keeps a file-scope array `students[MAX_STUDENTS]` and a counter
`student_count`.  Here the two globals are the fields of `Store`, every
operation is a pure function on `Store`, the values typed at the prompts are
parameters of the operation, and the message an operation prints is returned
as a `Signal`.

`int` values are `Int` (no arithmetic in the modelled code can overflow: the
only sum is of five marks already clamped to `[0,100]`).  `float` values are
`CFloat`: an IEEE-754 binary32 datum seen as NaN, an infinity or the rational
it denotes, with `f32_round` the round-to-nearest-even of a real result;
`double` values are the same kind of datum with `f64_round`, every double
operation being rounded once.

The C library is not part of the program: `qsort` is a parameter of
`sort_by_percentage`, constrained where needed by the contract the C standard
gives it, and the data file of `fwrite`/`fread` is an `int` followed by a
sequence of records.
-/

namespace StudentAnalyzer

/-! ## Constants -/

def MAX_STUDENTS : Nat := 200
def SUBJECTS : Nat := 5
def BAR_WIDTH : Nat := 40

/-! ## binary32 values -/

/-- A C `float`: NaN, minus infinity, a finite value, plus infinity.
The two zeros are identified (they compare equal in C). -/
inductive CFloat where
  | nan : CFloat
  | ninf : CFloat
  | fin (q : ℚ) : CFloat
  | pinf : CFloat
  deriving DecidableEq

/-- Round to the nearest integer, ties to the even one. -/
def round_half_even (x : ℚ) : ℤ :=
  let f := ⌊x⌋
  let r := x - f
  if r < 1 / 2 then f
  else if 1 / 2 < r then f + 1
  else if f % 2 = 0 then f else f + 1

/-- The binary32 exponent of a nonzero rational: `⌊log₂ |q|⌋`, not below the
smallest normal exponent `-126` (below it the format is subnormal). -/
def f32_exponent (q : ℚ) : ℤ := max (Int.log 2 |q|) (-126)

/-- The spacing of binary32 values around `q` (24 significant bits). -/
def f32_ulp (q : ℚ) : ℚ := (2 : ℚ) ^ (f32_exponent q - 23)

/-- Round-to-nearest-even of the real number `q` into binary32, overflowing to
an infinity from `2^128` on. -/
def f32_round (q : ℚ) : CFloat :=
  if q = 0 then CFloat.fin 0
  else
    let r : ℚ := (round_half_even (q / f32_ulp q) : ℚ) * f32_ulp q
    if (2 : ℚ) ^ 128 ≤ r then CFloat.pinf
    else if r ≤ -(2 : ℚ) ^ 128 then CFloat.ninf
    else CFloat.fin r

/-- The conversion `(float)n` of an `int`. -/
def float_of_int (n : Int) : CFloat := f32_round (n : ℚ)

/-- Float division `x / d` by a positive finite divisor `d` (in the program
the divisor is the constant `SUBJECTS`). -/
def CFloat.div_pos (x : CFloat) (d : ℚ) : CFloat :=
  match x with
  | CFloat.nan => CFloat.nan
  | CFloat.ninf => CFloat.ninf
  | CFloat.pinf => CFloat.pinf
  | CFloat.fin q => f32_round (q / d)

/-- The C comparison `x >= y` on floats: false as soon as one side is NaN. -/
def CFloat.ge (x y : CFloat) : Bool :=
  match x, y with
  | CFloat.nan, _ => false
  | _, CFloat.nan => false
  | _, CFloat.ninf => true
  | CFloat.pinf, _ => true
  | CFloat.ninf, _ => false
  | CFloat.fin _, CFloat.pinf => false
  | CFloat.fin a, CFloat.fin b => decide (b ≤ a)

/-- The C comparison `x < y` on floats: false as soon as one side is NaN. -/
def CFloat.lt (x y : CFloat) : Bool :=
  match x, y with
  | CFloat.nan, _ => false
  | _, CFloat.nan => false
  | CFloat.pinf, _ => false
  | _, CFloat.ninf => false
  | CFloat.ninf, _ => true
  | CFloat.fin _, CFloat.pinf => true
  | CFloat.fin a, CFloat.fin b => decide (a < b)

/-- The C comparison `x > y` on floats. -/
def CFloat.gt (x y : CFloat) : Bool := CFloat.lt y x

/-! ## Records -/

/-- The C `struct Student`. `marks` stands for `int marks[SUBJECTS]`. -/
structure Student where
  roll : Int
  name : String
  marks : List Int
  total : Int
  percentage : CFloat
  grade : Char
  deriving DecidableEq

/-- A zero-initialised `Student`, as in the file-scope array at start-up. -/
def Student.zero : Student :=
  { roll := 0, name := "", marks := List.replicate SUBJECTS 0, total := 0,
    percentage := CFloat.fin 0, grade := Char.ofNat 0 }

instance : Inhabited Student := ⟨Student.zero⟩

/-! ## Result calculations -/

/-- Source `compute_grade`. The literals `85.0f`, `70.0f`, `55.0f`, `40.0f`
are exactly representable. -/
def compute_grade (perc : CFloat) : Char :=
  if CFloat.ge perc (CFloat.fin 85) then 'A'
  else if CFloat.ge perc (CFloat.fin 70) then 'B'
  else if CFloat.ge perc (CFloat.fin 55) then 'C'
  else if CFloat.ge perc (CFloat.fin 40) then 'D'
  else 'F'

/-- One iteration of the loop of `calculate_result` at subject `i`, on the
pair (marks array, running `tot`). -/
def calc_step (acc : List Int × Int) (i : Nat) : List Int × Int :=
  let marks0 := acc.1
  let marks1 := if marks0.getD i 0 < 0 then marks0.set i 0 else marks0
  let marks2 := if marks1.getD i 0 > 100 then marks1.set i 100 else marks1
  (marks2, acc.2 + marks2.getD i 0)

/-- The loop `for (i = 0; i < SUBJECTS; ++i)` of `calculate_result`. -/
def calc_loop (marks : List Int) : List Int × Int :=
  (List.range SUBJECTS).foldl calc_step (marks, 0)

/-- Source `calculate_result`. -/
def calculate_result (s : Student) : Student :=
  let r := calc_loop s.marks
  let perc := CFloat.div_pos (float_of_int r.2) (SUBJECTS : ℚ)
  { s with marks := r.1, total := r.2, percentage := perc, grade := compute_grade perc }

/-- The clamp as the specification words it: `max(0, min(100, mark))`. -/
def clamp_mark (m : Int) : Int := max 0 (min 100 m)

/-! ## The store -/

/-- The two globals: the array `students[MAX_STUDENTS]` and `student_count`.
Slots at or beyond `student_count` hold whatever was left there. -/
structure Store where
  students : List Student
  student_count : Int
  deriving DecidableEq

/-- The store at program start with no data file: a zeroed array, count 0. -/
def Store.empty : Store :=
  { students := List.replicate MAX_STUDENTS Student.zero, student_count := 0 }

/-- The array has its declared size and the count is within it. Outside this
the C code indexes out of bounds, which the model does not describe. -/
def Store.wf (st : Store) : Prop :=
  st.students.length = MAX_STUDENTS ∧ 0 ≤ st.student_count ∧
    st.student_count ≤ (MAX_STUDENTS : Int)

/-- The record sequence of the store: the first `student_count` slots. -/
def Store.records (st : Store) : List Student :=
  st.students.take st.student_count.toNat

/-- Some record of the store carries the roll. -/
def Store.has_roll (st : Store) (roll : Int) : Prop :=
  ∃ s ∈ st.records, s.roll = roll

/-- The message an operation prints, as the signal it gives its caller. -/
inductive Signal where
  | list_full : Signal
  | roll_exists : Signal
  | added : Signal
  | not_found : Signal
  | updated : Signal
  | deleted : Signal
  | not_enough_to_sort : Signal
  | sorted : Signal
  | demo_loaded : Signal
  deriving DecidableEq

/-- The loop of `find_index_by_roll` standing at index `i` with `n` slots
left before `student_count`. -/
def find_loop (students : List Student) (roll : Int) : Nat → Nat → Int
  | 0, _ => -1
  | n + 1, i =>
    if (students.getD i default).roll = roll then (i : Int)
    else find_loop students roll n (i + 1)

/-- Source `find_index_by_roll`. -/
def find_index_by_roll (st : Store) (roll : Int) : Int :=
  find_loop st.students roll st.student_count.toNat 0

/-- Source `add_student`; `roll`, `name`, `marks` are the values read at the
prompts (the roll is only read once the capacity check has passed). -/
def add_student (st : Store) (roll : Int) (name : String) (marks : List Int) :
    Store × Signal :=
  if st.student_count ≥ (MAX_STUDENTS : Int) then (st, Signal.list_full)
  else if find_index_by_roll st roll ≠ -1 then (st, Signal.roll_exists)
  else
    let s : Student :=
      calculate_result
        { roll := roll, name := name, marks := marks, total := 0,
          percentage := CFloat.fin 0, grade := Char.ofNat 0 }
    ({ students := st.students.set st.student_count.toNat s,
       student_count := st.student_count + 1 }, Signal.added)

/-- One iteration of the loop of `modify_marks`: `x` is the value read for
subject `i`. -/
def modify_step (xs : List Int) (marks : List Int) (i : Nat) : List Int :=
  let x := xs.getD i 0
  if x ≥ 0 ∧ x ≤ 100 then marks.set i x else marks

/-- The loop `for (i = 0; i < SUBJECTS; ++i)` of `modify_marks`. -/
def modify_loop (xs : List Int) (marks : List Int) : List Int :=
  (List.range SUBJECTS).foldl (modify_step xs) marks

/-- Source `modify_marks`; `xs` are the five values read at the prompts. -/
def modify_marks (st : Store) (roll : Int) (xs : List Int) : Store × Signal :=
  let idx := find_index_by_roll st roll
  if idx = -1 then (st, Signal.not_found)
  else
    let s := st.students.getD idx.toNat default
    let s1 : Student := { s with marks := modify_loop xs s.marks }
    ({ st with students := st.students.set idx.toNat (calculate_result s1) },
      Signal.updated)

/-- The shift loop of `delete_student` standing at index `i` with `n`
iterations left before `student_count - 1`. -/
def shift_loop (students : List Student) : Nat → Nat → List Student
  | 0, _ => students
  | n + 1, i => shift_loop (students.set i (students.getD (i + 1) default)) n (i + 1)

/-- Source `delete_student`. -/
def delete_student (st : Store) (roll : Int) : Store × Signal :=
  let idx := find_index_by_roll st roll
  if idx = -1 then (st, Signal.not_found)
  else
    ({ students := shift_loop st.students (st.student_count - 1 - idx).toNat idx.toNat,
       student_count := st.student_count - 1 }, Signal.deleted)

/-- Source `cmp_percentage_desc`. -/
def cmp_percentage_desc (sa sb : Student) : Int :=
  if CFloat.lt sa.percentage sb.percentage then 1
  else if CFloat.gt sa.percentage sb.percentage then -1
  else 0

/-- Source `sort_by_percentage`. The C library's `qsort` is a parameter: it
receives the first `student_count` slots and the comparator and returns their
new contents; the slots beyond are not passed to it. -/
def sort_by_percentage
    (qsort : List Student → (Student → Student → Int) → List Student)
    (st : Store) : Store × Signal :=
  if st.student_count ≤ 1 then (st, Signal.not_enough_to_sort)
  else
    let n := st.student_count.toNat
    let sorted_part := qsort (st.students.take n) cmp_percentage_desc
    ({ st with students := sorted_part ++ st.students.drop n }, Signal.sorted)

/-- The five records `s1 .. s5` of `load_demo_data`, as initialised there. -/
def demo_students : List Student :=
  [ { roll := 1, name := "Ravi Kumar", marks := [88, 76, 92, 85, 79], total := 0,
      percentage := CFloat.fin 0, grade := 'A' },
    { roll := 2, name := "Priya Sharma", marks := [78, 81, 69, 74, 80], total := 0,
      percentage := CFloat.fin 0, grade := 'B' },
    { roll := 3, name := "Amit Roy", marks := [55, 61, 49, 58, 60], total := 0,
      percentage := CFloat.fin 0, grade := 'C' },
    { roll := 4, name := "Sneha Gupta", marks := [92, 95, 89, 94, 90], total := 0,
      percentage := CFloat.fin 0, grade := 'A' },
    { roll := 5, name := "Karan Patel", marks := [40, 35, 50, 45, 38], total := 0,
      percentage := CFloat.fin 0, grade := 'D' } ]

/-- The loop of `load_demo_data` over the remaining fixture records: it stops
as soon as `student_count < MAX_STUDENTS` fails. -/
def demo_loop (st : Store) : List Student → Store
  | [] => st
  | s :: rest =>
    if st.student_count < (MAX_STUDENTS : Int) then
      demo_loop
        { students := st.students.set st.student_count.toNat (calculate_result s),
          student_count := st.student_count + 1 } rest
    else st

/-- Source `load_demo_data`. -/
def load_demo_data (st : Store) : Store × Signal :=
  (demo_loop st demo_students, Signal.demo_loaded)

/-- A menu action on the store together with the values typed for it. -/
inductive Op where
  | add (roll : Int) (name : String) (marks : List Int) : Op
  | modify (roll : Int) (xs : List Int) : Op
  | delete (roll : Int) : Op
  | sort : Op
  | load_demo : Op

/-- The store after one menu action. -/
def apply_op (qsort : List Student → (Student → Student → Int) → List Student)
    (st : Store) : Op → Store
  | Op.add roll name marks => (add_student st roll name marks).1
  | Op.modify roll xs => (modify_marks st roll xs).1
  | Op.delete roll => (delete_student st roll).1
  | Op.sort => (sort_by_percentage qsort st).1
  | Op.load_demo => (load_demo_data st).1

/-- The store after a sequence of menu actions. -/
def run_ops (qsort : List Student → (Student → Student → Int) → List Student)
    (st : Store) (ops : List Op) : Store :=
  ops.foldl (apply_op qsort) st

/-- The rule of `modify_marks` for one subject as the specification words
it: a supplied value in `[0,100]` replaces the mark, any other value keeps
the existing mark. -/
def keep_or_replace (old x : Int) : Int :=
  if 0 ≤ x ∧ x ≤ 100 then x else old

/-! ## Example stores -/

/-- The store after loading the demo fixture into the empty store. -/
def demo_store : Store := (load_demo_data Store.empty).1

/-- A store with all `MAX_STUDENTS` slots in use, rolls 1 to 200. -/
def full_store : Store :=
  { students := (List.range MAX_STUDENTS).map fun i =>
      calculate_result
        { roll := (i : Int) + 1, name := "", marks := [50, 60, 70, 80, 90], total := 0,
          percentage := CFloat.fin 0, grade := Char.ofNat 0 },
    student_count := 200 }

instance (st : Store) (roll : Int) : Decidable (st.has_roll roll) := by
  unfold Store.has_roll
  infer_instance

instance (st : Store) : Decidable st.wf := by
  unfold Store.wf
  infer_instance

/-! ## The library sort -/

/-- What the C standard asks of the comparator handed to `qsort`, on the
elements of the array: swapping the arguments flips the sign of the result,
and "not after" is transitive. -/
def cmp_consistent (cmp : Student → Student → Int) (l : List Student) : Prop :=
  (∀ a ∈ l, ∀ b ∈ l, (cmp a b < 0 ↔ 0 < cmp b a) ∧ (cmp a b = 0 ↔ cmp b a = 0)) ∧
  (∀ a ∈ l, ∀ b ∈ l, ∀ c ∈ l, cmp a b ≤ 0 → cmp b c ≤ 0 → cmp a c ≤ 0)

/-- The contract the C standard gives `qsort`: with a consistent comparator
the array afterwards holds the same elements, in ascending order of the
comparator. -/
def qsort_contract
    (qsort : List Student → (Student → Student → Int) → List Student) : Prop :=
  ∀ (l : List Student) (cmp : Student → Student → Int), cmp_consistent cmp l →
    List.Perm (qsort l cmp) l ∧ List.Pairwise (fun a b => cmp a b ≤ 0) (qsort l cmp)

/-- Insertion of `a` before the first element it is not after. -/
def ordered_insert (cmp : Student → Student → Int) (a : Student) :
    List Student → List Student
  | [] => [a]
  | b :: l => if cmp a b ≤ 0 then a :: b :: l else b :: ordered_insert cmp a l

/-- Insertion sort, one implementation that meets `qsort_contract`. -/
def insertion_sort (l : List Student) (cmp : Student → Student → Int) : List Student :=
  l.foldr (ordered_insert cmp) []

/-- Records in non-increasing order of percentage: each adjacent pair
satisfies the C comparison `r[i].percentage >= r[i+1].percentage`. -/
def sorted_desc (l : List Student) : Prop :=
  ∀ (i : Nat) (a b : Student), l[i]? = some a → l[i + 1]? = some b →
    CFloat.ge a.percentage b.percentage = true

/-- A record with a NaN percentage (as a data file can hold). -/
def nan_record : Student :=
  { roll := 1, name := "a", marks := [0, 0, 0, 0, 0], total := 0,
    percentage := CFloat.nan, grade := 'F' }

/-- A record with percentage 1.0. -/
def one_record : Student :=
  { roll := 2, name := "b", marks := [1, 1, 1, 1, 1], total := 5,
    percentage := CFloat.fin 1, grade := 'F' }

/-- A store of two records, the first with a NaN percentage. -/
def nan_store : Store :=
  { students := (Store.empty.students.set 0 nan_record).set 1 one_record,
    student_count := 2 }

/-- A store of two records with derived fields as `calculate_result` leaves
them (totals 5 and 10, percentages 1.0 and 2.0). -/
def two_store : Store :=
  { students :=
      (Store.empty.students.set 0
        { roll := 1, name := "a", marks := [3, 2, 0, 0, 0], total := 5,
          percentage := CFloat.fin 1, grade := 'F' }).set 1
        { roll := 2, name := "b", marks := [4, 1, 5, 0, 0], total := 10,
          percentage := CFloat.fin 2, grade := 'F' },
    student_count := 2 }

/-- A store of eighteen records: sixteen of grade A (rolls 1 to 16), one of
grade B and one whose grade letter is none of A, B, C, D, F, as a data file can
supply. -/
def graded_store : Store :=
  { students :=
      ((List.range 16).map fun i =>
        ({ roll := (i : Int) + 1, name := "a", marks := [90, 90, 90, 90, 90], total := 450,
           percentage := CFloat.fin 90, grade := 'A' } : Student))
      ++ [{ roll := 17, name := "b", marks := [70, 70, 70, 70, 70], total := 350,
            percentage := CFloat.fin 70, grade := 'B' },
          { roll := 18, name := "x", marks := [0, 0, 0, 0, 0], total := 0,
            percentage := CFloat.fin 0, grade := 'X' }]
      ++ List.replicate 182 Student.zero,
    student_count := 18 }

/-! ## binary64 values -/

/-- A C `double`: the same kinds of datum as a `float`, the finite ones being
binary64 values. -/
abbrev CDouble := CFloat

/-- The binary64 exponent of a nonzero rational: `⌊log₂ |q|⌋`, not below the
smallest normal exponent `-1022`. -/
def f64_exponent (q : ℚ) : ℤ := max (Int.log 2 |q|) (-1022)

/-- The spacing of binary64 values around `q` (53 significant bits). -/
def f64_ulp (q : ℚ) : ℚ := (2 : ℚ) ^ (f64_exponent q - 52)

/-- Round-to-nearest-even of the real number `q` into binary64, overflowing to
an infinity from `2^1024` on. -/
def f64_round (q : ℚ) : CDouble :=
  if q = 0 then CFloat.fin 0
  else
    let r : ℚ := (round_half_even (q / f64_ulp q) : ℚ) * f64_ulp q
    if (2 : ℚ) ^ 1024 ≤ r then CFloat.pinf
    else if r ≤ -(2 : ℚ) ^ 1024 then CFloat.ninf
    else CFloat.fin r

/-- The conversion `(double)n` of an `int`. -/
def double_of_int (n : Int) : CDouble := f64_round (n : ℚ)

/-- The sign of a float datum as -1, 0 or 1 (0 for NaN and for zero). -/
def CFloat.sign (x : CFloat) : Int :=
  match x with
  | CFloat.nan => 0
  | CFloat.ninf => -1
  | CFloat.pinf => 1
  | CFloat.fin q => if 0 < q then 1 else if q < 0 then -1 else 0

/-- The infinity of the given sign (plus for a sign that is not negative). -/
def CFloat.inf_of_sign (s : Int) : CFloat :=
  if s < 0 then CFloat.ninf else CFloat.pinf

/-- Double addition `x + y`. -/
def double_add (x y : CDouble) : CDouble :=
  match x, y with
  | CFloat.nan, _ => CFloat.nan
  | _, CFloat.nan => CFloat.nan
  | CFloat.pinf, CFloat.ninf => CFloat.nan
  | CFloat.ninf, CFloat.pinf => CFloat.nan
  | CFloat.pinf, _ => CFloat.pinf
  | _, CFloat.pinf => CFloat.pinf
  | CFloat.ninf, _ => CFloat.ninf
  | _, CFloat.ninf => CFloat.ninf
  | CFloat.fin a, CFloat.fin b => f64_round (a + b)

/-- Double multiplication `x * y`. -/
def double_mul (x y : CDouble) : CDouble :=
  match x, y with
  | CFloat.nan, _ => CFloat.nan
  | _, CFloat.nan => CFloat.nan
  | CFloat.fin a, CFloat.fin b => f64_round (a * b)
  | x, y =>
    if CFloat.sign x = 0 ∨ CFloat.sign y = 0 then CFloat.nan
    else CFloat.inf_of_sign (CFloat.sign x * CFloat.sign y)

/-- Double division `x / y`; a zero divisor is taken as `+0`, the two zeros
being identified. -/
def double_div (x y : CDouble) : CDouble :=
  match x, y with
  | CFloat.nan, _ => CFloat.nan
  | _, CFloat.nan => CFloat.nan
  | CFloat.fin a, CFloat.fin b =>
    if b = 0 then (if a = 0 then CFloat.nan else CFloat.inf_of_sign (CFloat.sign x))
    else f64_round (a / b)
  | CFloat.fin _, _ => CFloat.fin 0
  | x, CFloat.fin b => CFloat.inf_of_sign (CFloat.sign x * (if b < 0 then -1 else 1))
  | _, _ => CFloat.nan

/-- The conversion `(int)x` of a double: truncation toward zero. For NaN, an
infinity or a value outside `int` the C behaviour is undefined; the model
gives 0 for the first two and the truncation for the last. -/
def int_of_double (x : CDouble) : Int :=
  match x with
  | CFloat.fin q => if 0 ≤ q then ⌊q⌋ else ⌈q⌉
  | _ => 0

/-! ## ASCII graphs and class analysis -/

/-- The scaled length computed by `draw_bar` and by the grade histogram:
`(int)((double)value / max_value * BAR_WIDTH + 0.5)`. -/
def bar_scale (value max_value : Int) : Int :=
  int_of_double
    (double_add
      (double_mul (double_div (double_of_int value) (double_of_int max_value))
        (double_of_int (BAR_WIDTH : Int)))
      (CFloat.fin (1 / 2)))

/-- The local `filled` of source `draw_bar`: the scaled length clamped to
`[0, BAR_WIDTH]`. -/
def draw_bar_filled (value max_value : Int) : Int :=
  let filled := bar_scale value max_value
  let filled := if filled < 0 then 0 else filled
  if filled > (BAR_WIDTH : Int) then (BAR_WIDTH : Int) else filled

/-- Source `draw_bar`: the characters it prints. -/
def draw_bar (value max_value : Int) : List Char :=
  List.replicate (draw_bar_filled value max_value).toNat '|' ++
    List.replicate (BAR_WIDTH - (draw_bar_filled value max_value).toNat) ' '

/-- The inner loop `for (j = 0; j < SUBJECTS; ++j) subj_sum[j] += marks[j]`
of `class_analysis` for one student. -/
def subj_step (subj_sum : List CDouble) (s : Student) : List CDouble :=
  (List.range SUBJECTS).foldl
    (fun acc j =>
      acc.set j (double_add (acc.getD j (CFloat.fin 0)) (double_of_int (s.marks.getD j 0))))
    subj_sum

/-- The array `subj_sum` of `class_analysis` after its double loop. -/
def subj_sums (st : Store) : List CDouble :=
  (List.range st.student_count.toNat).foldl
    (fun acc i => subj_step acc (st.students.getD i default))
    (List.replicate SUBJECTS (CFloat.fin 0))

/-- The `switch` on the grade in `class_analysis`: the index of the bucket,
with `default:` going to the last one. -/
def grade_bucket (g : Char) : Nat :=
  if g = 'A' then 0 else if g = 'B' then 1 else if g = 'C' then 2
  else if g = 'D' then 3 else 4

/-- One iteration of the grade-counting loop of `class_analysis`. -/
def grades_step (grades_count : List Int) (s : Student) : List Int :=
  grades_count.set (grade_bucket s.grade) (grades_count.getD (grade_bucket s.grade) 0 + 1)

/-- The array `grades_count` of `class_analysis` after its loop. -/
def grades_counts (st : Store) : List Int :=
  (List.range st.student_count.toNat).foldl
    (fun acc i => grades_step acc (st.students.getD i default))
    (List.replicate 5 0)

/-- The variable `max_grade_count` of `class_analysis`: starts at 1, raised to
every larger bucket count. -/
def max_grade_count (grades_count : List Int) : Int :=
  (List.range 5).foldl
    (fun m i => if grades_count.getD i 0 > m then grades_count.getD i 0 else m) 1

/-- The variable `grand_total` of `class_analysis` after its loop. -/
def grand_total (st : Store) : CDouble :=
  (List.range st.student_count.toNat).foldl
    (fun acc i => double_add acc (double_of_int (st.students.getD i default).total))
    (CFloat.fin 0)

/-- What `class_analysis` computes and prints. -/
structure Analysis where
  subject_avg : List CDouble
  subject_bar : List Int
  grades_count : List Int
  grade_bar : List Int
  class_avg : CDouble

/-- Source `class_analysis`: `none` stands for the early return on an empty
store ("No students for analysis."). The locals `max_avg` and `grand_max`,
which are computed and never used, are left out. -/
def class_analysis (st : Store) : Option Analysis :=
  if st.student_count = 0 then none
  else
    let n := double_of_int st.student_count
    let avgs := (List.range SUBJECTS).map fun j => double_div ((subj_sums st).getD j (CFloat.fin 0)) n
    let gc := grades_counts st
    let m := max_grade_count gc
    some
      { subject_avg := avgs,
        subject_bar := avgs.map fun avg =>
          draw_bar_filled (int_of_double (double_add avg (CFloat.fin (1 / 2)))) 100,
        grades_count := gc,
        grade_bar := (List.range 5).map fun i => bar_scale (gc.getD i 0) m,
        class_avg :=
          double_div (double_div (grand_total st) n) (double_of_int (SUBJECTS : Int)) }

/-! ## Predicates on records -/

/-- The record has 5 marks, all in `[0,100]`. -/
def Student.marks_ok (s : Student) : Prop :=
  s.marks.length = SUBJECTS ∧ ∀ m ∈ s.marks, 0 ≤ m ∧ m ≤ 100

/-- The derived fields agree with the marks: 5 marks in `[0,100]`, `total`
their sum, `percentage` the float quotient `(float)total / SUBJECTS`, `grade`
the grade of that percentage. -/
def Student.consistent (s : Student) : Prop :=
  s.marks_ok ∧ s.total = s.marks.sum ∧
    s.percentage = CFloat.div_pos (float_of_int s.total) (SUBJECTS : ℚ) ∧
    s.grade = compute_grade s.percentage

/-- The sum of the marks of subject `j` over a list of records. -/
def col_sum (l : List Student) (j : Nat) : Int :=
  (l.map fun s => s.marks.getD j 0).sum

/-- The number of records whose grade falls in bucket `b`. -/
def bucket_count (l : List Student) (b : Nat) : Int :=
  ((l.filter fun s => grade_bucket s.grade = b).length : Int)

instance (s : Student) : Decidable s.marks_ok := by
  unfold Student.marks_ok
  infer_instance

/-- The values typed for a menu action fit the program's arrays: an add
supplies exactly `SUBJECTS` marks. -/
def Op.valid : Op → Prop
  | Op.add _ _ marks => marks.length = SUBJECTS
  | _ => True

/-- The invariant of the store: the array has its size, the count is within
it, and every record has derived fields consistent with its marks. -/
def Store.inv (st : Store) : Prop :=
  st.wf ∧ ∀ s ∈ st.records, s.consistent

instance (op : Op) : Decidable op.valid := by
  cases op <;> unfold Op.valid <;> infer_instance

/-- The number of records with the given grade letter. -/
def grade_count (l : List Student) (g : Char) : Int :=
  ((l.filter fun s => s.grade = g).length : Int)

/-- The number of records whose grade is none of A, B, C, D. -/
def other_grade_count (l : List Student) : Int :=
  ((l.filter fun s => s.grade ≠ 'A' ∧ s.grade ≠ 'B' ∧ s.grade ≠ 'C' ∧ s.grade ≠ 'D').length : Int)

/-- Standard rounding of a rational to the nearest integer, halves up: the
`round` of the specification's `round(value / denominator * BAR_WIDTH)`. -/
def round_half_up (x : ℚ) : ℤ := ⌊x + 1 / 2⌋

/-! ## The demo fixture as sequential adds -/

/-- Five sequential `add_student` calls with the rolls, names and marks of the
demo fixture, as the specification describes loading it. -/
def demo_adds (st : Store) : Store :=
  demo_students.foldl (fun acc s => (add_student acc s.roll s.name s.marks).1) st

/-! ## The end-to-end scenario -/

/-- The scenario store after `add` of roll 1 to the empty store. -/
def scenario_added : Store × Signal :=
  add_student Store.empty 1 "Asha" [88, 76, 92, 85, 79]

/-- The scenario store after `modify` of roll 1 with `[-1,-1,-1,-1,95]`. -/
def scenario_modified : Store × Signal :=
  modify_marks scenario_added.1 1 [-1, -1, -1, -1, 95]

/-- The scenario store after `delete` of roll 1. -/
def scenario_deleted : Store × Signal :=
  delete_student scenario_modified.1 1

/-- The record the scenario expects after the add. -/
def scenario_record_1 : Student :=
  { roll := 1, name := "Asha", marks := [88, 76, 92, 85, 79], total := 420,
    percentage := CFloat.fin 84, grade := 'B' }

/-- The record the scenario expects after the modify; its percentage is the
float nearest to 87.2. -/
def scenario_record_2 : Student :=
  { roll := 1, name := "Asha", marks := [88, 76, 92, 85, 95], total := 436,
    percentage := f32_round (872 / 10), grade := 'A' }

/-! ## File I/O -/

/-- The contents of the data file: the `int` written first and the `Student`
structures that follow it. The bytes of a structure are not modelled: a
structure written by `fwrite` is read back by `fread` as the same record. A
file too short to hold the `int` is not modelled. -/
structure DataFile where
  count : Int
  records : List Student
  deriving DecidableEq

/-- The messages of `save_to_file` and `load_from_file`. -/
inductive FileSignal where
  | open_failed : FileSignal
  | saved : FileSignal
  | no_file : FileSignal
  | loaded : FileSignal
  deriving DecidableEq

/-- The conversion of an `int` to the `size_t` item count of `fwrite` and
`fread` (64 bits): a negative count wraps to a huge one. -/
def size_t_of_int (n : Int) : Nat :=
  if 0 ≤ n then n.toNat else 2 ^ 64 - n.natAbs

/-- Source `save_to_file`: `disk` is the file before the call (if any) and
`can_open` tells whether `fopen(DATAFILE, "wb")` succeeds; the result is the
file afterwards. -/
def save_to_file (st : Store) (disk : Option DataFile) (can_open : Bool) :
    Option DataFile × FileSignal :=
  if can_open = false then (disk, FileSignal.open_failed)
  else
    (some { count := st.student_count,
            records := st.students.take (size_t_of_int st.student_count) },
      FileSignal.saved)

/-- Source `load_from_file`: without a file the count is reset; otherwise the
count is read, reset to 0 when above `MAX_STUDENTS`, and `fread` copies as many
records as asked for and available to the start of the array, the other slots
keeping their contents. (Items `fread` would write beyond the array are outside
the model.) -/
def load_from_file (st : Store) (disk : Option DataFile) : Store × FileSignal :=
  match disk with
  | none => ({ st with student_count := 0 }, FileSignal.no_file)
  | some f =>
    let count : Int := if f.count > (MAX_STUDENTS : Int) then 0 else f.count
    let k := min (size_t_of_int count) f.records.length
    ({ students := f.records.take k ++ st.students.drop k, student_count := count },
      FileSignal.loaded)

/-- The menu action is the loading of the demo fixture. -/
def Op.is_load_demo : Op → Prop
  | Op.load_demo => True
  | _ => False

/-- The rolls of the records of the store, in order. -/
def Store.rolls (st : Store) : List Int := st.records.map Student.roll

/-! ## Facts about binary32 rounding -/

theorem round_half_even_intCast (k : ℤ) : round_half_even (k : ℚ) = k := by
  simp [round_half_even]

theorem round_half_even_err (x : ℚ) : |(round_half_even x : ℚ) - x| ≤ 1 / 2 := by
  have h1 : (⌊x⌋ : ℚ) ≤ x := Int.floor_le x
  have h2 : x < (⌊x⌋ : ℚ) + 1 := Int.lt_floor_add_one x
  unfold round_half_even
  simp only []
  split_ifs with ha hb hc
  · rw [abs_le]; constructor <;> linarith
  · rw [abs_le]; push_cast; constructor <;> linarith
  · rw [abs_le]; constructor <;> linarith
  · rw [abs_le]; push_cast; constructor <;> linarith

theorem f32_exponent_le (q : ℚ) (e : ℤ) (hq : 0 < |q|) (he : -126 ≤ e)
    (h : |q| < (2 : ℚ) ^ (e + 1)) : f32_exponent q ≤ e := by
  unfold f32_exponent
  apply max_le _ he
  have h2 : |q| < ((2 : ℕ) : ℚ) ^ (e + 1) := by exact_mod_cast h
  have := (Int.lt_zpow_iff_log_lt (by norm_num : 1 < 2) hq).1 h2
  omega

theorem f32_exponent_ge (q : ℚ) (e : ℤ) (hq : 0 < |q|)
    (h : (2 : ℚ) ^ e ≤ |q|) : e ≤ f32_exponent q := by
  unfold f32_exponent
  apply le_max_of_le_left
  have h2 : ((2 : ℕ) : ℚ) ^ e ≤ |q| := by exact_mod_cast h
  exact (Int.zpow_le_iff_le_log (by norm_num : 1 < 2) hq).1 h2

theorem f32_ulp_pos (q : ℚ) : 0 < f32_ulp q := by
  unfold f32_ulp; positivity

/-- A rational that is a whole number of ulps, below the overflow threshold,
is a binary32 value: rounding returns it. -/
theorem f32_round_exact (q : ℚ) (k : ℤ) (hk : q / f32_ulp q = (k : ℚ))
    (hlt : |q| < (2 : ℚ) ^ 128) : f32_round q = CFloat.fin q := by
  have hu := f32_ulp_pos q
  have hr : (round_half_even (q / f32_ulp q) : ℚ) * f32_ulp q = q := by
    rw [hk, round_half_even_intCast, ← hk]
    field_simp
  have hb := abs_lt.1 hlt
  unfold f32_round
  by_cases h0 : q = 0
  · simp [h0]
  · simp only [h0, if_false, hr]
    rw [if_neg (by linarith [hb.2]), if_neg (by linarith [hb.1])]

/-- The conversion `(float)n` is exact for `|n| < 2^24`. -/
theorem float_of_int_exact (n : ℤ) (h : |n| < 2 ^ 24) :
    float_of_int n = CFloat.fin (n : ℚ) := by
  unfold float_of_int
  by_cases h0 : n = 0
  · simp [h0, f32_round]
  have hq : 0 < |(n : ℚ)| := abs_pos.2 (by exact_mod_cast h0)
  have h1 : (1 : ℚ) ≤ |(n : ℚ)| := by
    have : (1 : ℤ) ≤ |n| := Int.one_le_abs h0
    exact_mod_cast this
  have hlt : |(n : ℚ)| < (2 : ℚ) ^ (24 : ℤ) := by
    have h2 : ((|n| : ℤ) : ℚ) < ((2 ^ 24 : ℤ) : ℚ) := by exact_mod_cast h
    rw [Int.cast_abs] at h2
    norm_num at h2 ⊢
    exact h2
  have he0 : (0 : ℤ) ≤ f32_exponent (n : ℚ) :=
    f32_exponent_ge _ 0 hq (by simpa using h1)
  have he1 : f32_exponent (n : ℚ) ≤ 23 :=
    f32_exponent_le _ 23 hq (by norm_num) (by simpa using hlt)
  obtain ⟨k, hk⟩ : ∃ k : ℕ, f32_exponent (n : ℚ) - 23 = -(k : ℤ) :=
    ⟨(23 - f32_exponent (n : ℚ)).toNat, by omega⟩
  apply f32_round_exact _ (n * 2 ^ k)
  · unfold f32_ulp
    rw [hk, zpow_neg, zpow_natCast]
    push_cast
    field_simp
  · calc |(n : ℚ)| < (2 : ℚ) ^ (24 : ℤ) := hlt
      _ ≤ (2 : ℚ) ^ 128 := by norm_num

/-- Below 128 the binary32 spacing is at most `2^-17`, so rounding a positive
real below 128 moves it by at most `2^-18`. -/
theorem f32_round_near (q : ℚ) (h0 : 0 < q) (h : q < 128) :
    ∃ r : ℚ, f32_round q = CFloat.fin r ∧ |r - q| ≤ 1 / 2 ^ 18 := by
  have hq : 0 < |q| := abs_pos.2 (ne_of_gt h0)
  have he : f32_exponent q ≤ 6 :=
    f32_exponent_le q 6 hq (by norm_num) (by rw [abs_of_pos h0]; norm_num; exact h)
  have hu := f32_ulp_pos q
  have hule : f32_ulp q ≤ 1 / 2 ^ 17 := by
    unfold f32_ulp
    calc (2 : ℚ) ^ (f32_exponent q - 23) ≤ (2 : ℚ) ^ (-17 : ℤ) :=
          zpow_le_zpow_right₀ (by norm_num) (by omega)
      _ = 1 / 2 ^ 17 := by norm_num
  have herr := round_half_even_err (q / f32_ulp q)
  have hd : |(round_half_even (q / f32_ulp q) : ℚ) * f32_ulp q - q| ≤ 1 / 2 ^ 18 := by
    have e1 : (round_half_even (q / f32_ulp q) : ℚ) * f32_ulp q - q
        = ((round_half_even (q / f32_ulp q) : ℚ) - q / f32_ulp q) * f32_ulp q := by
      field_simp
    rw [e1, abs_mul, abs_of_pos hu]
    calc |(round_half_even (q / f32_ulp q) : ℚ) - q / f32_ulp q| * f32_ulp q
        ≤ 1 / 2 * (1 / 2 ^ 17) := mul_le_mul herr hule hu.le (by norm_num)
      _ = 1 / 2 ^ 18 := by norm_num
  refine ⟨(round_half_even (q / f32_ulp q) : ℚ) * f32_ulp q, ?_, hd⟩
  have hb := abs_le.1 hd
  unfold f32_round
  simp only [ne_of_gt h0, if_false]
  rw [if_neg, if_neg]
  · have : (0 : ℚ) < 2 ^ 128 := by positivity
    norm_num at hb ⊢
    linarith [hb.1]
  · have : (129 : ℚ) ≤ 2 ^ 128 := by norm_num
    norm_num at hb ⊢
    linarith [hb.2]

/-! ## Facts about `calculate_result` -/

theorem clamp_mark_bounds (m : Int) : 0 ≤ clamp_mark m ∧ clamp_mark m ≤ 100 := by
  unfold clamp_mark; omega

theorem list_length_five {α : Type} (l : List α) (h : l.length = 5) :
    ∃ a b c d e, l = [a, b, c, d, e] := by
  match l, h with
  | [a, b, c, d, e], _ => exact ⟨a, b, c, d, e, rfl⟩

theorem getD_set_self (l : List Int) (i : Nat) (v : Int) (hi : i < l.length) :
    (l.set i v).getD i 0 = v := by
  simp [List.getD_eq_getElem?_getD, hi]

theorem set_getD_self (l : List Int) (i : Nat) : l.set i (l.getD i 0) = l := by
  by_cases hi : i < l.length
  · apply List.ext_getElem (by simp)
    intro n h1 h2
    by_cases hn : i = n
    · subst hn
      simp [List.getD_eq_getElem?_getD, hi]
    · simp [List.getElem_set_ne hn]
  · exact List.set_eq_of_length_le (by omega)

theorem calc_step_eq (l : List Int) (t : Int) (i : Nat) (hi : i < l.length) :
    calc_step (l, t) i = (l.set i (clamp_mark (l.getD i 0)), t + clamp_mark (l.getD i 0)) := by
  unfold calc_step clamp_mark
  simp only []
  by_cases h1 : l.getD i 0 < 0
  · have e : max 0 (min 100 (l.getD i 0)) = 0 := by omega
    rw [if_pos h1, getD_set_self l i 0 hi, if_neg (by omega), e, getD_set_self l i 0 hi]
  · rw [if_neg h1]
    by_cases h2 : l.getD i 0 > 100
    · have e : max 0 (min 100 (l.getD i 0)) = 100 := by omega
      rw [if_pos h2, getD_set_self l i 100 hi, e]
    · have e : max 0 (min 100 (l.getD i 0)) = l.getD i 0 := by omega
      rw [if_neg h2, e, set_getD_self]

theorem calc_loop_eq (marks : List Int) (h : marks.length = SUBJECTS) :
    calc_loop marks = (marks.map clamp_mark, (marks.map clamp_mark).sum) := by
  obtain ⟨a, b, c, d, e, rfl⟩ := list_length_five marks h
  have hr : List.range SUBJECTS = [0, 1, 2, 3, 4] := rfl
  unfold calc_loop
  rw [hr]
  simp only [List.foldl_cons, List.foldl_nil]
  rw [calc_step_eq _ _ 0 (by simp)]
  simp only [List.set_cons_zero, List.getD_cons_zero]
  rw [calc_step_eq _ _ 1 (by simp)]
  simp only [List.set_cons_succ, List.set_cons_zero, List.getD_cons_succ, List.getD_cons_zero]
  rw [calc_step_eq _ _ 2 (by simp)]
  simp only [List.set_cons_succ, List.set_cons_zero, List.getD_cons_succ, List.getD_cons_zero]
  rw [calc_step_eq _ _ 3 (by simp)]
  simp only [List.set_cons_succ, List.set_cons_zero, List.getD_cons_succ, List.getD_cons_zero]
  rw [calc_step_eq _ _ 4 (by simp)]
  simp only [List.set_cons_succ, List.set_cons_zero, List.getD_cons_succ, List.getD_cons_zero]
  simp only [List.map_cons, List.map_nil, List.sum_cons, List.sum_nil]
  congr 1
  ring

theorem clamped_sum_bounds (marks : List Int) :
    0 ≤ (marks.map clamp_mark).sum ∧ (marks.map clamp_mark).sum ≤ 100 * marks.length := by
  induction marks with
  | nil => simp
  | cons m ms ih =>
    have := clamp_mark_bounds m
    simp only [List.map_cons, List.sum_cons, List.length_cons]
    push_cast
    omega

theorem compute_grade_fin (p : ℚ) :
    compute_grade (CFloat.fin p) =
      if 85 ≤ p then 'A' else if 70 ≤ p then 'B' else if 55 ≤ p then 'C'
      else if 40 ≤ p then 'D' else 'F' := by
  simp [compute_grade, CFloat.ge]

theorem grade_of_fin_iff (q : ℚ) :
    (compute_grade (CFloat.fin q) = 'A' ↔ 85 ≤ q) ∧
    (compute_grade (CFloat.fin q) = 'B' ↔ 70 ≤ q ∧ q < 85) ∧
    (compute_grade (CFloat.fin q) = 'C' ↔ 55 ≤ q ∧ q < 70) ∧
    (compute_grade (CFloat.fin q) = 'D' ↔ 40 ≤ q ∧ q < 55) ∧
    (compute_grade (CFloat.fin q) = 'F' ↔ q < 40) := by
  rw [compute_grade_fin]
  split_ifs with a b c d
  all_goals (refine ⟨?_, ?_, ?_, ?_, ?_⟩ <;> constructor <;> intro hh)
  all_goals first
    | rfl
    | exact absurd hh (by decide)
    | (exfalso; linarith [hh.1, hh.2])
    | (exfalso; linarith)
    | (constructor <;> linarith)
    | linarith

/-- The float quotient of an integer total in `[0,500]` by 5: a finite value
within `2^-18` of the exact quotient, in `[0,100]`, and on the same side of
every integer threshold as the exact quotient. -/
theorem f32_round_fifth (t : ℤ) (h0 : 0 ≤ t) (h1 : t ≤ 500) :
    ∃ p : ℚ, f32_round ((t : ℚ) / 5) = CFloat.fin p ∧ |p - (t : ℚ) / 5| ≤ 1 / 2 ^ 18 ∧
      0 ≤ p ∧ p ≤ 100 ∧ ∀ c : ℤ, ((c : ℚ) ≤ p ↔ 5 * c ≤ t) := by
  by_cases hm : t % 5 = 0
  · obtain ⟨k, rfl⟩ : ∃ k, t = 5 * k := ⟨t / 5, by omega⟩
    have hk : ((5 * k : ℤ) : ℚ) / 5 = (k : ℚ) := by push_cast; field_simp
    have hex : f32_round (k : ℚ) = CFloat.fin (k : ℚ) :=
      float_of_int_exact k (by rw [abs_lt]; constructor <;> omega)
    refine ⟨(k : ℚ), by rw [hk, hex], by rw [hk]; simp, ?_, ?_, ?_⟩
    · exact_mod_cast (by omega : (0 : ℤ) ≤ k)
    · exact_mod_cast (by omega : k ≤ (100 : ℤ))
    · intro c
      rw [Int.cast_le]
      omega
  · have ht0 : (1 : ℚ) ≤ (t : ℚ) := by exact_mod_cast (by omega : (1 : ℤ) ≤ t)
    have ht1 : (t : ℚ) ≤ 499 := by exact_mod_cast (by omega : t ≤ (499 : ℤ))
    obtain ⟨p, hp, herr⟩ := f32_round_near ((t : ℚ) / 5) (by positivity)
      (by rw [div_lt_iff₀ (by norm_num)]; linarith)
    have hb := abs_le.1 herr
    have hs : (1 : ℚ) / 2 ^ 18 < 1 / 5 := by norm_num
    refine ⟨p, hp, herr, ?_, ?_, ?_⟩
    · have : (1 : ℚ) / 5 ≤ (t : ℚ) / 5 := by linarith
      linarith [hb.1]
    · have : (t : ℚ) / 5 ≤ 499 / 5 := by linarith
      linarith [hb.2]
    · intro c
      constructor
      · intro hc
        by_contra hlt
        have h5 : (t : ℚ) + 1 ≤ 5 * (c : ℚ) := by exact_mod_cast (by omega : t + 1 ≤ 5 * c)
        linarith [hb.2]
      · intro hc
        have h5 : 5 * (c : ℚ) + 1 ≤ (t : ℚ) := by exact_mod_cast (by omega : 5 * c + 1 ≤ t)
        linarith [hb.1]

/-- The percentage `calculate_result` stores for a running total in `[0,500]`. -/
theorem percentage_of_total (t : ℤ) (h0 : 0 ≤ t) (h1 : t ≤ 500) :
    CFloat.div_pos (float_of_int t) (SUBJECTS : ℚ) = f32_round ((t : ℚ) / 5) := by
  rw [float_of_int_exact t (by rw [abs_lt]; constructor <;> omega)]
  simp [CFloat.div_pos, SUBJECTS]

/-! ## Facts about `find_index_by_roll` -/

/-- The scan from `i` over `n` slots either fails, no scanned slot carrying
the roll, or returns the first scanned index that carries it. -/
theorem find_loop_spec (l : List Student) (roll : Int) (n i : Nat) :
    (find_loop l roll n i = -1 ∧
      ∀ j, i ≤ j → j < i + n → (l.getD j default).roll ≠ roll) ∨
    (∃ k : Nat, find_loop l roll n i = (k : Int) ∧ i ≤ k ∧ k < i + n ∧
      (l.getD k default).roll = roll ∧
      ∀ j, i ≤ j → j < k → (l.getD j default).roll ≠ roll) := by
  induction n generalizing i with
  | zero =>
    left
    exact ⟨rfl, fun j h1 h2 => by omega⟩
  | succ n ih =>
    unfold find_loop
    by_cases h : (l.getD i default).roll = roll
    · right
      rw [if_pos h]
      exact ⟨i, rfl, le_refl i, by omega, h, fun j h1 h2 => by omega⟩
    · rw [if_neg h]
      rcases ih (i + 1) with ⟨he, hall⟩ | ⟨k, he, hk1, hk2, hk3, hall⟩
      · left
        refine ⟨he, fun j h1 h2 => ?_⟩
        by_cases hj : j = i
        · rw [hj]; exact h
        · exact hall j (by omega) (by omega)
      · right
        refine ⟨k, he, by omega, by omega, hk3, fun j h1 h2 => ?_⟩
        by_cases hj : j = i
        · rw [hj]; exact h
        · exact hall j (by omega) h2

theorem has_roll_iff (st : Store) (roll : Int) :
    st.has_roll roll ↔ ∃ k : Nat, k < st.student_count.toNat ∧
      ∃ s, st.students[k]? = some s ∧ s.roll = roll := by
  unfold Store.has_roll Store.records
  constructor
  · rintro ⟨s, hs, hr⟩
    obtain ⟨k, hk⟩ := List.mem_iff_getElem?.1 hs
    rw [List.getElem?_take] at hk
    by_cases hlt : k < st.student_count.toNat
    · rw [if_pos hlt] at hk
      exact ⟨k, hlt, s, hk, hr⟩
    · rw [if_neg hlt] at hk
      exact absurd hk (by simp)
  · rintro ⟨k, hlt, s, hk, hr⟩
    refine ⟨s, List.mem_iff_getElem?.2 ⟨k, ?_⟩, hr⟩
    rw [List.getElem?_take, if_pos hlt]
    exact hk

theorem getD_of_getElem? (l : List Student) (k : Nat) (s : Student)
    (h : l[k]? = some s) : l.getD k default = s := by
  simp [List.getD_eq_getElem?_getD, h]

/-- A roll present in the store is found, at the first slot that carries it. -/
theorem find_index_of_has_roll (st : Store) (roll : Int) (h : st.has_roll roll) :
    ∃ (k : Nat) (s : Student), find_index_by_roll st roll = (k : Int) ∧
      k < st.student_count.toNat ∧ st.students[k]? = some s ∧ s.roll = roll ∧
      ∀ j, j < k → ∀ s2, st.students[j]? = some s2 → s2.roll ≠ roll := by
  obtain ⟨k1, hk1, s1, hs1, hr1⟩ := (has_roll_iff st roll).1 h
  unfold find_index_by_roll
  rcases find_loop_spec st.students roll st.student_count.toNat 0 with
    ⟨_, hall⟩ | ⟨k, he, _, hk2, hk3, hall⟩
  · exact absurd (by rw [getD_of_getElem? _ _ _ hs1]; exact hr1) (hall k1 (by omega) (by omega))
  · have hkk : k ≤ k1 := by
      by_contra hc
      exact hall k1 (by omega) (by omega) (by rw [getD_of_getElem? _ _ _ hs1]; exact hr1)
    have hlen : k1 < st.students.length := by
      by_contra hc
      rw [List.getElem?_eq_none (by omega)] at hs1
      exact absurd hs1 (by simp)
    have hkl : k < st.students.length := by omega
    refine ⟨k, st.students[k], he, by omega, List.getElem?_eq_getElem hkl, ?_, ?_⟩
    · rw [← List.getD_eq_getElem st.students default hkl]; exact hk3
    · intro j hj s2 hs2
      have := hall j (by omega) hj
      rwa [getD_of_getElem? _ _ _ hs2] at this

/-- A roll absent from the store is not found (the scan stays inside the
array). -/
theorem find_index_of_not_has_roll (st : Store) (roll : Int)
    (hle : st.student_count.toNat ≤ st.students.length) (h : ¬ st.has_roll roll) :
    find_index_by_roll st roll = -1 := by
  unfold find_index_by_roll
  rcases find_loop_spec st.students roll st.student_count.toNat 0 with
    ⟨he, _⟩ | ⟨k, _, _, hk2, hk3, _⟩
  · exact he
  · exfalso
    apply h
    have hkl : k < st.students.length := by omega
    refine (has_roll_iff st roll).2 ⟨k, by omega, st.students[k],
      List.getElem?_eq_getElem hkl, ?_⟩
    rw [← List.getD_eq_getElem st.students default hkl]; exact hk3

theorem wf_count_le (st : Store) (h : st.wf) :
    st.student_count.toNat ≤ st.students.length := by
  obtain ⟨h1, h2, h3⟩ := h
  rw [h1]
  omega

set_option maxRecDepth 8000 in
theorem demo_store_wf : demo_store.wf := by decide

/-! ## Facts about appending a record -/

theorem take_succ_set (l : List Student) (n : Nat) (s : Student) (h : n < l.length) :
    (l.set n s).take (n + 1) = l.take n ++ [s] := by
  apply List.ext_getElem?
  intro j
  rw [List.getElem?_take, List.getElem?_append, List.getElem?_set]
  by_cases h1 : j < n
  · have hl : j < (List.take n l).length := by rw [List.length_take]; omega
    rw [if_pos (by omega), if_neg (by omega), if_pos hl, List.getElem?_take, if_pos h1]
  · have hl : ¬ j < (List.take n l).length := by rw [List.length_take]; omega
    have hlen : (List.take n l).length = n := by rw [List.length_take]; omega
    rw [if_neg hl, hlen]
    by_cases h2 : j = n
    · subst h2
      simp [h]
    · rw [if_neg (by omega), List.getElem?_eq_none (by simp; omega)]

/-! ## Facts about the count -/

theorem find_index_count_pos (st : Store) (roll : Int)
    (h : find_index_by_roll st roll ≠ -1) : 1 ≤ st.student_count := by
  unfold find_index_by_roll at h
  rcases find_loop_spec st.students roll st.student_count.toNat 0 with
    ⟨he, _⟩ | ⟨k, _, _, hk2, _, _⟩
  · exact absurd he h
  · omega

theorem demo_loop_count (l : List Student) (st : Store) (h0 : 0 ≤ st.student_count)
    (h1 : st.student_count ≤ (MAX_STUDENTS : Int)) :
    0 ≤ (demo_loop st l).student_count ∧
      (demo_loop st l).student_count ≤ (MAX_STUDENTS : Int) := by
  induction l generalizing st with
  | nil => exact ⟨h0, h1⟩
  | cons s rest ih =>
    unfold demo_loop
    by_cases hc : st.student_count < (MAX_STUDENTS : Int)
    · rw [if_pos hc]
      exact ih _ (by simp only []; omega) (by simp only []; omega)
    · rw [if_neg hc]
      exact ⟨h0, h1⟩

/-! ## Facts about the shift loop of `delete_student` -/

theorem shift_loop_length (n : Nat) (l : List Student) (i : Nat) :
    (shift_loop l n i).length = l.length := by
  induction n generalizing l i with
  | zero => rfl
  | succ n ih =>
    unfold shift_loop
    rw [ih, List.length_set]

/-- Slot by slot: the shift loop from `i` over `n` iterations copies slot
`j + 1` into slot `j` for `i <= j < i + n` and leaves the other slots alone. -/
theorem shift_loop_getElem? (n : Nat) (l : List Student) (i : Nat)
    (h : i + n < l.length) (j : Nat) :
    (shift_loop l n i)[j]? = if i ≤ j ∧ j < i + n then l[j + 1]? else l[j]? := by
  induction n generalizing l i with
  | zero =>
    unfold shift_loop
    rw [if_neg (by omega)]
  | succ n ih =>
    unfold shift_loop
    have hx : l.getD (i + 1) default = l[i + 1] := List.getD_eq_getElem l default (by omega)
    rw [ih _ (i + 1) (by rw [List.length_set]; omega), hx]
    by_cases h1 : i + 1 ≤ j ∧ j < i + 1 + n
    · rw [if_pos h1, if_pos (by omega), List.getElem?_set, if_neg (by omega)]
    · rw [if_neg h1, List.getElem?_set]
      by_cases h2 : i = j
      · subst h2
        rw [if_pos rfl, if_pos (by omega), if_pos (by omega)]
        exact (List.getElem?_eq_getElem (by omega)).symm
      · rw [if_neg h2, if_neg (by omega)]

/-! ## Facts about the loop of `modify_marks` -/

theorem modify_step_eq (xs l : List Int) (i : Nat) :
    modify_step xs l i = l.set i (keep_or_replace (l.getD i 0) (xs.getD i 0)) := by
  unfold modify_step keep_or_replace
  simp only []
  by_cases h : xs.getD i 0 ≥ 0 ∧ xs.getD i 0 ≤ 100
  · rw [if_pos h, if_pos ⟨h.1, h.2⟩]
  · rw [if_neg h, if_neg (fun hc => h ⟨hc.1, hc.2⟩), set_getD_self]

theorem modify_loop_eq (xs marks : List Int) (hx : xs.length = SUBJECTS)
    (hm : marks.length = SUBJECTS) :
    modify_loop xs marks = List.zipWith keep_or_replace marks xs := by
  obtain ⟨a, b, c, d, e, rfl⟩ := list_length_five marks hm
  obtain ⟨x0, x1, x2, x3, x4, rfl⟩ := list_length_five xs hx
  have hr : List.range SUBJECTS = [0, 1, 2, 3, 4] := rfl
  unfold modify_loop
  rw [hr]
  simp only [List.foldl_cons, List.foldl_nil, modify_step_eq, List.set_cons_succ,
    List.set_cons_zero, List.getD_cons_succ, List.getD_cons_zero, List.zipWith_cons_cons,
    List.zipWith_nil_left]

theorem zipWith_keep_or_replace_bounds (marks xs : List Int)
    (h : ∀ m ∈ marks, 0 ≤ m ∧ m ≤ 100) :
    ∀ m ∈ List.zipWith keep_or_replace marks xs, 0 ≤ m ∧ m ≤ 100 := by
  induction marks generalizing xs with
  | nil => intro m hm; simp at hm
  | cons a as ih =>
    cases xs with
    | nil => intro m hm; simp at hm
    | cons x xs =>
      intro m hm
      rw [List.zipWith_cons_cons, List.mem_cons] at hm
      rcases hm with rfl | hm
      · have := h a (List.mem_cons_self a as)
        unfold keep_or_replace
        split_ifs with hc
        · exact hc
        · exact this
      · exact ih xs (fun m hm => h m (List.mem_cons_of_mem a hm)) m hm

theorem map_clamp_mark_of_bounds (l : List Int) (h : ∀ m ∈ l, 0 ≤ m ∧ m ≤ 100) :
    l.map clamp_mark = l := by
  induction l with
  | nil => rfl
  | cons a as ih =>
    have ha := h a (List.mem_cons_self a as)
    have e : clamp_mark a = a := by unfold clamp_mark; omega
    rw [List.map_cons, e, ih (fun m hm => h m (List.mem_cons_of_mem a hm))]

/-! ## Facts about sorting -/

theorem ordered_insert_perm (cmp : Student → Student → Int) (a : Student)
    (l : List Student) : List.Perm (ordered_insert cmp a l) (a :: l) := by
  induction l with
  | nil => exact List.Perm.refl _
  | cons b l ih =>
    unfold ordered_insert
    split_ifs
    · exact List.Perm.refl _
    · exact (List.Perm.cons b ih).trans (List.Perm.swap a b l)

theorem insertion_sort_perm (cmp : Student → Student → Int) (l : List Student) :
    List.Perm (insertion_sort l cmp) l := by
  induction l with
  | nil => exact List.Perm.refl _
  | cons a l ih =>
    show List.Perm (ordered_insert cmp a (insertion_sort l cmp)) (a :: l)
    exact (ordered_insert_perm cmp a _).trans (List.Perm.cons a ih)

theorem ordered_insert_pairwise (cmp : Student → Student → Int) (a : Student)
    (l : List Student) (hc : cmp_consistent cmp (a :: l))
    (hp : List.Pairwise (fun x y => cmp x y ≤ 0) l) :
    List.Pairwise (fun x y => cmp x y ≤ 0) (ordered_insert cmp a l) := by
  induction l with
  | nil => simp [ordered_insert]
  | cons b l ih =>
    have hb : b ∈ a :: b :: l := by simp
    have ha : a ∈ a :: b :: l := by simp
    rw [List.pairwise_cons] at hp
    unfold ordered_insert
    split_ifs with h
    · rw [List.pairwise_cons]
      refine ⟨?_, List.pairwise_cons.2 hp⟩
      intro x hx
      rcases List.mem_cons.1 hx with rfl | hx
      · exact h
      · exact hc.2 a ha b hb x (by simp [hx]) h (hp.1 x hx)
    · rw [List.pairwise_cons]
      have hsub : cmp_consistent cmp (a :: l) :=
        ⟨fun x hx y hy => hc.1 x (by
            rcases List.mem_cons.1 hx with rfl | hx
            · simp
            · simp [hx]) y (by
            rcases List.mem_cons.1 hy with rfl | hy
            · simp
            · simp [hy]),
         fun x hx y hy z hz => hc.2 x (by
            rcases List.mem_cons.1 hx with rfl | hx
            · simp
            · simp [hx]) y (by
            rcases List.mem_cons.1 hy with rfl | hy
            · simp
            · simp [hy]) z (by
            rcases List.mem_cons.1 hz with rfl | hz
            · simp
            · simp [hz])⟩
      refine ⟨?_, ih hsub hp.2⟩
      intro x hx
      have hx2 : x ∈ a :: l := (ordered_insert_perm cmp a l).mem_iff.1 hx
      rcases List.mem_cons.1 hx2 with rfl | hx3
      · have h3 := (hc.1 b hb x ha).1
        omega
      · exact hp.1 x hx3

theorem insertion_sort_pairwise (cmp : Student → Student → Int) (l : List Student)
    (hc : cmp_consistent cmp l) :
    List.Pairwise (fun x y => cmp x y ≤ 0) (insertion_sort l cmp) := by
  induction l with
  | nil => simp [insertion_sort]
  | cons a l ih =>
    show List.Pairwise _ (ordered_insert cmp a (insertion_sort l cmp))
    have hsub : cmp_consistent cmp l :=
      ⟨fun x hx y hy => hc.1 x (by simp [hx]) y (by simp [hy]),
       fun x hx y hy z hz => hc.2 x (by simp [hx]) y (by simp [hy]) z (by simp [hz])⟩
    have hmem : ∀ x, x ∈ a :: insertion_sort l cmp → x ∈ a :: l := by
      intro x hx
      rcases List.mem_cons.1 hx with rfl | hx
      · simp
      · exact List.mem_cons_of_mem _ ((insertion_sort_perm cmp l).mem_iff.1 hx)
    apply ordered_insert_pairwise cmp a _ _ (ih hsub)
    exact ⟨fun x hx y hy => hc.1 x (hmem x hx) y (hmem y hy),
      fun x hx y hy z hz => hc.2 x (hmem x hx) y (hmem y hy) z (hmem z hz)⟩

/-- Insertion sort meets the contract of `qsort`. -/
theorem insertion_sort_contract : qsort_contract insertion_sort :=
  fun l cmp hc => ⟨insertion_sort_perm cmp l, insertion_sort_pairwise cmp l hc⟩

theorem CFloat.lt_asymm (x y : CFloat) (h : CFloat.lt x y = true) :
    CFloat.lt y x = false := by
  cases x <;> cases y <;> simp_all [CFloat.lt]
  exact le_of_lt h

theorem CFloat.lt_false_trans (x y z : CFloat) (hy : y ≠ CFloat.nan)
    (h1 : CFloat.lt x y = false) (h2 : CFloat.lt y z = false) :
    CFloat.lt x z = false := by
  cases x <;> cases y <;> cases z <;> simp_all [CFloat.lt]
  exact le_trans h2 h1

theorem CFloat.ge_iff_lt_false (x y : CFloat) (hx : x ≠ CFloat.nan)
    (hy : y ≠ CFloat.nan) : CFloat.ge x y = true ↔ CFloat.lt x y = false := by
  cases x <;> cases y <;> simp_all [CFloat.lt, CFloat.ge]

theorem cmp_percentage_desc_le_iff (a b : Student) :
    cmp_percentage_desc a b ≤ 0 ↔ CFloat.lt a.percentage b.percentage = false := by
  unfold cmp_percentage_desc CFloat.gt
  by_cases h1 : CFloat.lt a.percentage b.percentage = true
  · simp [h1]
  · have h1f : CFloat.lt a.percentage b.percentage = false := by simpa using h1
    by_cases h2 : CFloat.lt b.percentage a.percentage = true
    · simp [h1f, h2]
    · simp [h1f, h2]

/-- Swapping the arguments of the comparator negates its result. -/
theorem cmp_percentage_desc_swap (a b : Student) :
    cmp_percentage_desc a b = -cmp_percentage_desc b a := by
  unfold cmp_percentage_desc CFloat.gt
  by_cases h1 : CFloat.lt a.percentage b.percentage = true
  · have h2 := CFloat.lt_asymm _ _ h1
    simp [h1, h2]
  · have h1f : CFloat.lt a.percentage b.percentage = false := by simpa using h1
    by_cases h2 : CFloat.lt b.percentage a.percentage = true
    · simp [h1f, h2]
    · simp [h1f, h2]

/-- On records whose percentages are not NaN the comparator is consistent. -/
theorem cmp_percentage_desc_consistent (l : List Student)
    (h : ∀ s ∈ l, s.percentage ≠ CFloat.nan) :
    cmp_consistent cmp_percentage_desc l := by
  constructor
  · intro a _ b _
    have := cmp_percentage_desc_swap a b
    constructor <;> constructor <;> intro hh <;> omega
  · intro a _ b hb c _ h1 h2
    rw [cmp_percentage_desc_le_iff] at h1 h2 ⊢
    exact CFloat.lt_false_trans _ _ _ (h b hb) h1 h2

theorem pairwise_cmp_sorted_desc (l : List Student)
    (h : ∀ s ∈ l, s.percentage ≠ CFloat.nan)
    (hp : List.Pairwise (fun a b => cmp_percentage_desc a b ≤ 0) l) :
    sorted_desc l := by
  intro i a b ha hb
  have hai : i < l.length := (List.getElem?_eq_some.1 ha).1
  have hbi : i + 1 < l.length := (List.getElem?_eq_some.1 hb).1
  have hae : l[i] = a := (List.getElem?_eq_some.1 ha).2
  have hbe : l[i + 1] = b := (List.getElem?_eq_some.1 hb).2
  have hrel := List.pairwise_iff_getElem.1 hp i (i + 1) hai hbi (by omega)
  rw [hae, hbe, cmp_percentage_desc_le_iff] at hrel
  have hma : a ∈ l := hae ▸ List.getElem_mem hai
  have hmb : b ∈ l := hbe ▸ List.getElem_mem hbi
  exact (CFloat.ge_iff_lt_false _ _ (h a hma) (h b hmb)).2 hrel

/-- Under the contract of `qsort`, on a store on whose records the comparator
is consistent, the records after `sort_by_percentage` are `qsort` of the
records before, a permutation of them in ascending order of the comparator. -/
theorem sort_by_percentage_records
    (qsort : List Student → (Student → Student → Int) → List Student)
    (hq : qsort_contract qsort) (st : Store)
    (hcons : cmp_consistent cmp_percentage_desc st.records)
    (hgt : ¬ st.student_count ≤ 1) :
    (sort_by_percentage qsort st).1.records = qsort st.records cmp_percentage_desc ∧
    (sort_by_percentage qsort st).1.students.length = st.students.length ∧
    (sort_by_percentage qsort st).1.student_count = st.student_count ∧
    (sort_by_percentage qsort st).2 = Signal.sorted := by
  have hc := hq st.records cmp_percentage_desc hcons
  have hlen : (qsort st.records cmp_percentage_desc).length
      = min st.student_count.toNat st.students.length := by
    rw [hc.1.length_eq, Store.records, List.length_take]
  have hs : sort_by_percentage qsort st =
      ({ st with students := qsort st.records cmp_percentage_desc
          ++ st.students.drop st.student_count.toNat }, Signal.sorted) := by
    unfold sort_by_percentage
    rw [if_neg hgt]
    rfl
  rw [hs]
  refine ⟨?_, ?_, rfl, rfl⟩
  · show List.take st.student_count.toNat (qsort st.records cmp_percentage_desc
        ++ st.students.drop st.student_count.toNat) = qsort st.records cmp_percentage_desc
    rw [List.take_append_eq_append_take, List.take_of_length_le (by rw [hlen]; omega)]
    have e : List.take (st.student_count.toNat
        - (qsort st.records cmp_percentage_desc).length)
        (List.drop st.student_count.toNat st.students) = [] := by
      apply List.eq_nil_of_length_eq_zero
      rw [List.length_take, List.length_drop, hlen]
      omega
    rw [e, List.append_nil]
  · show (qsort st.records cmp_percentage_desc
        ++ st.students.drop st.student_count.toNat).length = st.students.length
    rw [List.length_append, hlen, List.length_drop]
    omega

/-! ## Facts about binary64 rounding -/

theorem f64_exponent_le (q : ℚ) (e : ℤ) (hq : 0 < |q|) (he : -1022 ≤ e)
    (h : |q| < (2 : ℚ) ^ (e + 1)) : f64_exponent q ≤ e := by
  unfold f64_exponent
  apply max_le _ he
  have h2 : |q| < ((2 : ℕ) : ℚ) ^ (e + 1) := by exact_mod_cast h
  have := (Int.lt_zpow_iff_log_lt (by norm_num : 1 < 2) hq).1 h2
  omega

theorem f64_ulp_pos (q : ℚ) : 0 < f64_ulp q := by
  unfold f64_ulp; positivity

/-- A rational that is a whole number of ulps, below the overflow threshold,
is a binary64 value: rounding returns it. -/
theorem f64_round_exact (q : ℚ) (k : ℤ) (hk : q / f64_ulp q = (k : ℚ))
    (hlt : |q| < (2 : ℚ) ^ 1024) : f64_round q = CFloat.fin q := by
  have hu := f64_ulp_pos q
  have hr : (round_half_even (q / f64_ulp q) : ℚ) * f64_ulp q = q := by
    rw [hk, round_half_even_intCast, ← hk]
    field_simp
  have hb := abs_lt.1 hlt
  unfold f64_round
  by_cases h0 : q = 0
  · simp [h0]
  · simp only [h0, if_false, hr]
    rw [if_neg (by linarith [hb.2]), if_neg (by linarith [hb.1])]

/-- Dyadic rationals `m / 2^k` with `|m| < 2^53` are binary64 values. -/
theorem f64_round_dyadic (m : ℤ) (k : ℕ) (hm : |m| < 2 ^ 53) (hk : k ≤ 1000) :
    f64_round ((m : ℚ) / 2 ^ k) = CFloat.fin ((m : ℚ) / 2 ^ k) := by
  by_cases h0 : m = 0
  · simp [h0, f64_round]
  have hpk : (0 : ℚ) < 2 ^ k := by positivity
  have hq0 : (m : ℚ) / 2 ^ k ≠ 0 := div_ne_zero (by exact_mod_cast h0) (ne_of_gt hpk)
  have hq : 0 < |(m : ℚ) / 2 ^ k| := abs_pos.2 hq0
  have hmq : |(m : ℚ)| < 2 ^ 53 := by
    have h2 : ((|m| : ℤ) : ℚ) < ((2 ^ 53 : ℤ) : ℚ) := by exact_mod_cast hm
    rw [Int.cast_abs] at h2
    norm_num at h2 ⊢
    exact h2
  have habs : |(m : ℚ) / 2 ^ k| < (2 : ℚ) ^ ((52 - (k : ℤ)) + 1) := by
    rw [abs_div, abs_of_pos hpk, div_lt_iff₀ hpk]
    have e : (2 : ℚ) ^ ((52 - (k : ℤ)) + 1) * 2 ^ k = 2 ^ 53 := by
      rw [← zpow_natCast (2 : ℚ) k, ← zpow_add₀ (by norm_num : (2 : ℚ) ≠ 0)]
      have : (52 - (k : ℤ)) + 1 + (k : ℤ) = (53 : ℕ) := by push_cast; ring
      rw [this, zpow_natCast]
    rw [e]
    exact hmq
  have he : f64_exponent ((m : ℚ) / 2 ^ k) ≤ 52 - (k : ℤ) :=
    f64_exponent_le _ _ hq (by omega) habs
  obtain ⟨j, hj⟩ : ∃ j : ℕ, f64_exponent ((m : ℚ) / 2 ^ k) - 52 = -((k : ℤ) + (j : ℤ)) :=
    ⟨(52 - (k : ℤ) - f64_exponent ((m : ℚ) / 2 ^ k)).toNat, by omega⟩
  apply f64_round_exact _ (m * 2 ^ j)
  · unfold f64_ulp
    rw [hj, zpow_neg]
    have e2 : (2 : ℚ) ^ ((k : ℤ) + (j : ℤ)) = 2 ^ k * 2 ^ j := by
      rw [zpow_add₀ (by norm_num : (2 : ℚ) ≠ 0), zpow_natCast, zpow_natCast]
    rw [e2]
    push_cast
    field_simp
    ring
  · calc |(m : ℚ) / 2 ^ k| ≤ |(m : ℚ)| := by
          rw [abs_div, abs_of_pos hpk]
          exact div_le_self (abs_nonneg _) (one_le_pow₀ (by norm_num))
      _ < 2 ^ 53 := hmq
      _ ≤ (2 : ℚ) ^ 1024 := by norm_num

theorem double_of_int_exact (n : ℤ) (h : |n| < 2 ^ 53) :
    double_of_int n = CFloat.fin (n : ℚ) := by
  have := f64_round_dyadic n 0 h (by norm_num)
  simpa [double_of_int] using this

/-- Rounding a real of magnitude below `2^k` into binary64 moves it by at most
`2^k / 2^54`. -/
theorem f64_round_near (q : ℚ) (k : ℕ) (hk : k ≤ 1000) (h : |q| < 2 ^ k) :
    ∃ r : ℚ, f64_round q = CFloat.fin r ∧ |r - q| ≤ 2 ^ k / 2 ^ 54 := by
  by_cases h0 : q = 0
  · exact ⟨0, by simp [h0, f64_round], by rw [h0]; simp; positivity⟩
  have hq : 0 < |q| := abs_pos.2 h0
  have he : f64_exponent q ≤ (k : ℤ) - 1 :=
    f64_exponent_le q _ hq (by omega) (by
      have : ((k : ℤ) - 1 + 1) = (k : ℤ) := by ring
      rw [this, zpow_natCast]; exact h)
  have hu := f64_ulp_pos q
  have hule : f64_ulp q ≤ 2 ^ k / 2 ^ 53 := by
    unfold f64_ulp
    calc (2 : ℚ) ^ (f64_exponent q - 52) ≤ (2 : ℚ) ^ ((k : ℤ) - 53) :=
          zpow_le_zpow_right₀ (by norm_num) (by omega)
      _ = 2 ^ k / 2 ^ 53 := by
          rw [zpow_sub₀ (by norm_num : (2 : ℚ) ≠ 0), zpow_natCast]
          norm_num
  have herr := round_half_even_err (q / f64_ulp q)
  have hd : |(round_half_even (q / f64_ulp q) : ℚ) * f64_ulp q - q| ≤ 2 ^ k / 2 ^ 54 := by
    have e1 : (round_half_even (q / f64_ulp q) : ℚ) * f64_ulp q - q
        = ((round_half_even (q / f64_ulp q) : ℚ) - q / f64_ulp q) * f64_ulp q := by
      field_simp
    rw [e1, abs_mul, abs_of_pos hu]
    calc |(round_half_even (q / f64_ulp q) : ℚ) - q / f64_ulp q| * f64_ulp q
        ≤ 1 / 2 * (2 ^ k / 2 ^ 53) := mul_le_mul herr hule hu.le (by norm_num)
      _ = 2 ^ k / 2 ^ 54 := by ring
  refine ⟨(round_half_even (q / f64_ulp q) : ℚ) * f64_ulp q, ?_, hd⟩
  have hb := abs_le.1 hd
  have hqb := abs_lt.1 h
  have hk2 : (2 : ℚ) ^ k ≤ 2 ^ 1000 := pow_le_pow_right₀ (by norm_num) hk
  have hsmall : (2 : ℚ) ^ k / 2 ^ 54 ≤ 2 ^ k := div_le_self (by positivity) (by norm_num)
  have hbig : (2 : ℚ) ^ 1000 + 2 ^ 1000 < 2 ^ 1024 := by norm_num
  unfold f64_round
  simp only [h0, if_false]
  rw [if_neg (by linarith [hb.2, hqb.2]), if_neg (by linarith [hb.1, hqb.1])]

/-- The floor is stable under a perturbation smaller than the distance to the
neighbouring integers. -/
theorem floor_stable (x y d : ℚ) (k : ℤ) (hd : |y - x| ≤ d) (h1 : (k : ℚ) + d ≤ x)
    (h2 : x + d < (k : ℚ) + 1) : ⌊y⌋ = k := by
  have hb := abs_le.1 hd
  rw [Int.floor_eq_iff]
  constructor <;> linarith [hb.1, hb.2]

/-! ## Facts about the loops of `class_analysis` -/

/-- A loop over the indices below `n` that reads slot `i` is a fold over the
first `n` slots. -/
theorem foldl_range_getD {β : Type} (f : β → Student → β) (l : List Student) (n : Nat)
    (hn : n ≤ l.length) (init : β) :
    (List.range n).foldl (fun acc i => f acc (l.getD i default)) init
      = (l.take n).foldl f init := by
  induction n with
  | zero => simp
  | succ n ih =>
    have hlt : n < l.length := by omega
    rw [List.range_succ, List.foldl_append, ih (by omega), List.take_succ,
      List.foldl_append, List.getElem?_eq_getElem hlt]
    simp [List.getD_eq_getElem?_getD, hlt]

theorem records_length (st : Store) (hwf : st.wf) :
    (st.records.length : Int) = st.student_count := by
  have := wf_count_le st hwf
  obtain ⟨_, h0, _⟩ := hwf
  simp only [Store.records, List.length_take]
  omega

theorem records_length_le (st : Store) (hwf : st.wf) : st.records.length ≤ 200 := by
  have h := records_length st hwf
  obtain ⟨_, _, h1⟩ := hwf
  simp only [MAX_STUDENTS] at h1
  omega

theorem double_add_int (a b : ℤ) (ha : |a| < 2 ^ 52) (hb : |b| < 2 ^ 52) :
    double_add (CFloat.fin (a : ℚ)) (double_of_int b) = CFloat.fin ((a + b : ℤ) : ℚ) := by
  rw [abs_lt] at ha hb
  rw [double_of_int_exact b (by rw [abs_lt]; constructor <;> omega)]
  have h := f64_round_dyadic (a + b) 0 (by rw [abs_lt]; constructor <;> omega) (by norm_num)
  simp only [pow_zero, div_one] at h
  simp only [double_add]
  rw [← h]
  push_cast
  rfl

theorem marks_sum_bounds (l : List Int) (h : ∀ m ∈ l, 0 ≤ m ∧ m ≤ 100) :
    0 ≤ l.sum ∧ l.sum ≤ 100 * l.length := by
  induction l with
  | nil => simp
  | cons m ms ih =>
    have hm := h m (List.mem_cons_self m ms)
    have := ih (fun x hx => h x (List.mem_cons_of_mem m hx))
    simp only [List.sum_cons, List.length_cons]
    push_cast
    omega

theorem getD_mark_bounds (s : Student) (hs : s.marks_ok) (j : Nat) :
    0 ≤ s.marks.getD j 0 ∧ s.marks.getD j 0 ≤ 100 := by
  by_cases hj : j < s.marks.length
  · rw [List.getD_eq_getElem s.marks 0 hj]
    exact hs.2 _ (List.getElem_mem hj)
  · rw [List.getD_eq_default s.marks 0 (by omega)]
    omega

theorem subj_step_eq (a0 a1 a2 a3 a4 : ℤ) (s : Student) (hs : s.marks_ok)
    (h0 : 0 ≤ a0 ∧ a0 < 2 ^ 51) (h1 : 0 ≤ a1 ∧ a1 < 2 ^ 51) (h2 : 0 ≤ a2 ∧ a2 < 2 ^ 51)
    (h3 : 0 ≤ a3 ∧ a3 < 2 ^ 51) (h4 : 0 ≤ a4 ∧ a4 < 2 ^ 51) :
    subj_step [CFloat.fin (a0 : ℚ), CFloat.fin (a1 : ℚ), CFloat.fin (a2 : ℚ),
        CFloat.fin (a3 : ℚ), CFloat.fin (a4 : ℚ)] s
      = [CFloat.fin ((a0 + s.marks.getD 0 0 : ℤ) : ℚ),
         CFloat.fin ((a1 + s.marks.getD 1 0 : ℤ) : ℚ),
         CFloat.fin ((a2 + s.marks.getD 2 0 : ℤ) : ℚ),
         CFloat.fin ((a3 + s.marks.getD 3 0 : ℤ) : ℚ),
         CFloat.fin ((a4 + s.marks.getD 4 0 : ℤ) : ℚ)] := by
  have hr : List.range SUBJECTS = [0, 1, 2, 3, 4] := rfl
  have b0 := getD_mark_bounds s hs 0
  have b1 := getD_mark_bounds s hs 1
  have b2 := getD_mark_bounds s hs 2
  have b3 := getD_mark_bounds s hs 3
  have b4 := getD_mark_bounds s hs 4
  unfold subj_step
  rw [hr]
  simp only [List.foldl_cons, List.foldl_nil, List.set_cons_succ, List.set_cons_zero,
    List.getD_cons_succ, List.getD_cons_zero]
  rw [double_add_int a0 _ (by rw [abs_lt]; constructor <;> omega)
        (by rw [abs_lt]; constructor <;> omega),
      double_add_int a1 _ (by rw [abs_lt]; constructor <;> omega)
        (by rw [abs_lt]; constructor <;> omega),
      double_add_int a2 _ (by rw [abs_lt]; constructor <;> omega)
        (by rw [abs_lt]; constructor <;> omega),
      double_add_int a3 _ (by rw [abs_lt]; constructor <;> omega)
        (by rw [abs_lt]; constructor <;> omega),
      double_add_int a4 _ (by rw [abs_lt]; constructor <;> omega)
        (by rw [abs_lt]; constructor <;> omega)]

theorem col_sum_cons (s : Student) (l : List Student) (j : Nat) :
    col_sum (s :: l) j = s.marks.getD j 0 + col_sum l j := by
  simp [col_sum]

theorem col_sum_bounds (l : List Student) (hl : ∀ s ∈ l, s.marks_ok) (j : Nat) :
    0 ≤ col_sum l j ∧ col_sum l j ≤ 100 * l.length := by
  induction l with
  | nil => simp [col_sum]
  | cons s rest ih =>
    have hs := getD_mark_bounds s (hl s (List.mem_cons_self s rest)) j
    have := ih (fun x hx => hl x (List.mem_cons_of_mem s hx))
    rw [col_sum_cons]
    simp only [List.length_cons]
    push_cast
    omega

/-- The subject sums are computed exactly. -/
theorem subj_sums_foldl (l : List Student) (hl : ∀ s ∈ l, s.marks_ok)
    (a0 a1 a2 a3 a4 : ℤ)
    (h0 : 0 ≤ a0 ∧ a0 + 100 * l.length < 2 ^ 51)
    (h1 : 0 ≤ a1 ∧ a1 + 100 * l.length < 2 ^ 51)
    (h2 : 0 ≤ a2 ∧ a2 + 100 * l.length < 2 ^ 51)
    (h3 : 0 ≤ a3 ∧ a3 + 100 * l.length < 2 ^ 51)
    (h4 : 0 ≤ a4 ∧ a4 + 100 * l.length < 2 ^ 51) :
    l.foldl subj_step [CFloat.fin (a0 : ℚ), CFloat.fin (a1 : ℚ), CFloat.fin (a2 : ℚ),
        CFloat.fin (a3 : ℚ), CFloat.fin (a4 : ℚ)]
      = [CFloat.fin ((a0 + col_sum l 0 : ℤ) : ℚ), CFloat.fin ((a1 + col_sum l 1 : ℤ) : ℚ),
         CFloat.fin ((a2 + col_sum l 2 : ℤ) : ℚ), CFloat.fin ((a3 + col_sum l 3 : ℤ) : ℚ),
         CFloat.fin ((a4 + col_sum l 4 : ℤ) : ℚ)] := by
  induction l generalizing a0 a1 a2 a3 a4 with
  | nil => simp [col_sum]
  | cons s rest ih =>
    have hs := hl s (List.mem_cons_self s rest)
    have b0 := getD_mark_bounds s hs 0
    have b1 := getD_mark_bounds s hs 1
    have b2 := getD_mark_bounds s hs 2
    have b3 := getD_mark_bounds s hs 3
    have b4 := getD_mark_bounds s hs 4
    simp only [List.length_cons] at h0 h1 h2 h3 h4
    push_cast at h0 h1 h2 h3 h4
    rw [List.foldl_cons, subj_step_eq a0 a1 a2 a3 a4 s hs (by omega) (by omega) (by omega)
      (by omega) (by omega)]
    rw [ih (fun x hx => hl x (List.mem_cons_of_mem s hx)) _ _ _ _ _ (by omega) (by omega)
      (by omega) (by omega) (by omega)]
    simp only [col_sum_cons, add_assoc]

theorem subj_sums_eq (st : Store) (hwf : st.wf) (hl : ∀ s ∈ st.records, s.marks_ok) :
    subj_sums st =
      [CFloat.fin (col_sum st.records 0 : ℚ), CFloat.fin (col_sum st.records 1 : ℚ),
       CFloat.fin (col_sum st.records 2 : ℚ), CFloat.fin (col_sum st.records 3 : ℚ),
       CFloat.fin (col_sum st.records 4 : ℚ)] := by
  have hle := records_length_le st hwf
  unfold subj_sums
  rw [foldl_range_getD subj_step st.students _ (wf_count_le st hwf)]
  have h := subj_sums_foldl st.records hl 0 0 0 0 0 (by omega) (by omega) (by omega)
    (by omega) (by omega)
  simp only [zero_add] at h
  exact_mod_cast h

theorem double_div_fin (a b : ℚ) (hb : b ≠ 0) :
    double_div (CFloat.fin a) (CFloat.fin b) = f64_round (a / b) := by
  simp [double_div, hb]

theorem total_bounds_of_marks (s : Student) (h : s.marks_ok ∧ s.total = s.marks.sum) :
    0 ≤ s.total ∧ s.total ≤ 500 := by
  have hb := marks_sum_bounds s.marks h.1.2
  rw [h.1.1] at hb
  simp only [SUBJECTS] at hb
  rw [h.2]
  omega

theorem class_analysis_some (st : Store) (hne : st.student_count ≠ 0) :
    class_analysis st = some
      { subject_avg := (List.range SUBJECTS).map fun j =>
          double_div ((subj_sums st).getD j (CFloat.fin 0)) (double_of_int st.student_count),
        subject_bar := ((List.range SUBJECTS).map fun j =>
          double_div ((subj_sums st).getD j (CFloat.fin 0))
            (double_of_int st.student_count)).map fun avg =>
          draw_bar_filled (int_of_double (double_add avg (CFloat.fin (1 / 2)))) 100,
        grades_count := grades_counts st,
        grade_bar := (List.range 5).map fun i =>
          bar_scale ((grades_counts st).getD i 0) (max_grade_count (grades_counts st)),
        class_avg :=
          double_div (double_div (grand_total st) (double_of_int st.student_count))
            (double_of_int (SUBJECTS : Int)) } := by
  unfold class_analysis
  rw [if_neg hne]

/-- The subject averages `class_analysis` reports, on exact subject sums. -/
theorem subject_avg_getElem? (st : Store) (hwf : st.wf)
    (hl : ∀ s ∈ st.records, s.marks_ok) (j : Nat) (hj : j < SUBJECTS) :
    ((List.range SUBJECTS).map fun j =>
        double_div ((subj_sums st).getD j (CFloat.fin 0))
          (double_of_int st.student_count))[j]?
      = some (double_div (CFloat.fin (col_sum st.records j : ℚ))
          (double_of_int st.student_count)) := by
  rw [subj_sums_eq st hwf hl]
  simp only [SUBJECTS] at hj
  have hr : List.range SUBJECTS = [0, 1, 2, 3, 4] := rfl
  rw [hr]
  interval_cases j <;> rfl

/-! ## Facts about the store invariant -/

set_option maxRecDepth 8000 in
theorem two_store_wf : two_store.wf := by decide

set_option maxRecDepth 8000 in
theorem graded_store_wf : graded_store.wf := by decide

set_option maxRecDepth 8000 in
theorem store_empty_wf : Store.empty.wf := by decide

/-- Whatever the marks were, `calculate_result` leaves a record with 5 marks
consistent. -/
theorem calculate_result_consistent (s : Student) (h : s.marks.length = SUBJECTS) :
    (calculate_result s).consistent := by
  have hl := calc_loop_eq s.marks h
  have hm : (calculate_result s).marks = s.marks.map clamp_mark := by
    simp [calculate_result, hl]
  have ht : (calculate_result s).total = (s.marks.map clamp_mark).sum := by
    simp [calculate_result, hl]
  refine ⟨⟨?_, ?_⟩, ?_, ?_, ?_⟩
  · rw [hm, List.length_map, h]
  · intro m hmem
    rw [hm] at hmem
    obtain ⟨x, _, rfl⟩ := List.mem_map.1 hmem
    exact clamp_mark_bounds x
  · rw [hm, ht]
  · simp [calculate_result]
  · simp [calculate_result]

/-- A consistent record has a finite percentage. -/
theorem consistent_percentage_fin (s : Student) (h : s.consistent) :
    ∃ p : ℚ, s.percentage = CFloat.fin p := by
  obtain ⟨hm, ht, hp, _⟩ := h
  have hb := total_bounds_of_marks s ⟨hm, ht⟩
  obtain ⟨p, hr, _⟩ := f32_round_fifth s.total hb.1 hb.2
  exact ⟨p, by rw [hp, percentage_of_total _ hb.1 hb.2, hr]⟩

theorem consistent_percentage_ne_nan (s : Student) (h : s.consistent) :
    s.percentage ≠ CFloat.nan := by
  obtain ⟨p, hp⟩ := consistent_percentage_fin s h
  rw [hp]
  exact fun hc => CFloat.noConfusion hc

/-- Writing a record into slot `student_count` and incrementing the count
appends it to the record sequence and keeps the store well-formed. -/
theorem append_record (st : Store) (s : Student) (hwf : st.wf)
    (hlt : st.student_count < (MAX_STUDENTS : Int)) :
    Store.wf { students := st.students.set st.student_count.toNat s,
               student_count := st.student_count + 1 } ∧
    Store.records { students := st.students.set st.student_count.toNat s,
                    student_count := st.student_count + 1 } = st.records ++ [s] := by
  obtain ⟨hlen, h0, h1⟩ := hwf
  have hn : st.student_count.toNat < st.students.length := by rw [hlen]; omega
  have hsucc : (st.student_count + 1).toNat = st.student_count.toNat + 1 := by omega
  refine ⟨⟨?_, ?_, ?_⟩, ?_⟩
  · simp only [List.length_set]; exact hlen
  · simp only []; omega
  · simp only []; omega
  · simp only [Store.records]
    rw [hsucc, take_succ_set _ _ _ hn]

theorem inv_append (st : Store) (s : Student) (hinv : st.inv) (hs : s.consistent)
    (hlt : st.student_count < (MAX_STUDENTS : Int)) :
    Store.inv { students := st.students.set st.student_count.toNat s,
                student_count := st.student_count + 1 } := by
  obtain ⟨hw, hr⟩ := append_record st s hinv.1 hlt
  refine ⟨hw, ?_⟩
  rw [hr]
  intro x hx
  rcases List.mem_append.1 hx with h | h
  · exact hinv.2 x h
  · rw [List.mem_singleton.1 h]; exact hs

theorem find_index_cases (st : Store) (roll : Int) :
    find_index_by_roll st roll = -1 ∨
    ∃ k : Nat, find_index_by_roll st roll = (k : Int) ∧ k < st.student_count.toNat := by
  unfold find_index_by_roll
  rcases find_loop_spec st.students roll st.student_count.toNat 0 with
    ⟨he, _⟩ | ⟨k, he, _, hk2, _, _⟩
  · exact Or.inl he
  · exact Or.inr ⟨k, he, by omega⟩

theorem modify_step_length (xs l : List Int) (i : Nat) :
    (modify_step xs l i).length = l.length := by
  rw [modify_step_eq, List.length_set]

theorem modify_loop_length (xs l : List Int) : (modify_loop xs l).length = l.length := by
  unfold modify_loop
  generalize List.range SUBJECTS = idx
  induction idx generalizing l with
  | nil => rfl
  | cons i rest ih => rw [List.foldl_cons, ih, modify_step_length]

/-- The record sequence after a successful delete is the old one with the
found position erased, and the store stays well-formed. -/
theorem delete_student_at (st : Store) (roll : Int) (hwf : st.wf) (k : Nat)
    (hk : find_index_by_roll st roll = (k : Int)) (hkc : k < st.student_count.toNat) :
    (delete_student st roll).1.wf ∧
    (delete_student st roll).1.records = st.records.eraseIdx k := by
  have hle := wf_count_le st hwf
  have hne : find_index_by_roll st roll ≠ -1 := by rw [hk]; omega
  have hd : delete_student st roll =
      ({ students := shift_loop st.students (st.student_count.toNat - 1 - k) k,
         student_count := st.student_count - 1 }, Signal.deleted) := by
    unfold delete_student
    simp only []
    rw [if_neg hne, hk]
    have e1 : (st.student_count - 1 - (k : Int)).toNat = st.student_count.toNat - 1 - k := by
      omega
    rw [e1, Int.toNat_ofNat]
  rw [hd]
  obtain ⟨hlen, h0, h1⟩ := hwf
  refine ⟨⟨?_, ?_, ?_⟩, ?_⟩
  · simp only [shift_loop_length]; exact hlen
  · simp only []; omega
  · simp only []; omega
  · simp only [Store.records]
    have e2 : (st.student_count - 1).toNat = st.student_count.toNat - 1 := by omega
    rw [e2]
    apply List.ext_getElem?
    intro j
    rw [List.getElem?_take, List.getElem?_eraseIdx, List.getElem?_take, List.getElem?_take,
      shift_loop_getElem? _ _ _ (by omega)]
    by_cases hjk : j < k
    · have a1 : j < st.student_count.toNat - 1 := by omega
      have a2 : ¬ (k ≤ j ∧ j < k + (st.student_count.toNat - 1 - k)) := by omega
      have a3 : j < st.student_count.toNat := by omega
      rw [if_pos a1, if_neg a2, if_pos hjk, if_pos a3]
    · by_cases hjc : j + 1 < st.student_count.toNat
      · have a1 : j < st.student_count.toNat - 1 := by omega
        have a2 : k ≤ j ∧ j < k + (st.student_count.toNat - 1 - k) := by omega
        rw [if_pos a1, if_pos a2, if_neg hjk, if_pos hjc]
      · have a1 : ¬ j < st.student_count.toNat - 1 := by omega
        rw [if_neg a1, if_neg hjk, if_neg hjc]

theorem inv_add_student (st : Store) (roll : Int) (name : String) (marks : List Int)
    (hinv : st.inv) (hm : marks.length = SUBJECTS) :
    (add_student st roll name marks).1.inv := by
  unfold add_student
  split_ifs with h1 h2
  · exact hinv
  · exact hinv
  · exact inv_append st _ hinv (calculate_result_consistent _ hm) (by omega)

theorem inv_modify_marks (st : Store) (roll : Int) (xs : List Int) (hinv : st.inv) :
    (modify_marks st roll xs).1.inv := by
  rcases find_index_cases st roll with h | ⟨k, hk, hkc⟩
  · unfold modify_marks
    simp only []
    rw [if_pos h]
    exact hinv
  · have hne : find_index_by_roll st roll ≠ -1 := by rw [hk]; omega
    have hle := wf_count_le st hinv.1
    have hkl : k < st.students.length := by omega
    have hget : st.students.getD k default = st.students[k] :=
      List.getD_eq_getElem st.students default hkl
    have hmem : st.students[k] ∈ st.records := by
      apply List.mem_iff_getElem?.2
      refine ⟨k, ?_⟩
      simp only [Store.records]
      rw [List.getElem?_take, if_pos hkc, List.getElem?_eq_getElem hkl]
    have hcons := hinv.2 _ hmem
    unfold modify_marks
    simp only []
    rw [if_neg hne, hk, Int.toNat_ofNat, hget]
    refine ⟨⟨?_, hinv.1.2.1, hinv.1.2.2⟩, ?_⟩
    · simp only [List.length_set]; exact hinv.1.1
    · intro x hx
      simp only [Store.records] at hx
      rw [List.set_take] at hx
      rcases List.mem_or_eq_of_mem_set hx with h | h
      · exact hinv.2 x h
      · rw [h]
        apply calculate_result_consistent
        show (modify_loop xs st.students[k].marks).length = SUBJECTS
        rw [modify_loop_length]
        exact hcons.1.1

theorem inv_delete_student (st : Store) (roll : Int) (hinv : st.inv) :
    (delete_student st roll).1.inv := by
  rcases find_index_cases st roll with h | ⟨k, hk, hkc⟩
  · unfold delete_student
    simp only []
    rw [if_pos h]
    exact hinv
  · obtain ⟨hw, hr⟩ := delete_student_at st roll hinv.1 k hk hkc
    refine ⟨hw, ?_⟩
    rw [hr]
    exact fun x hx => hinv.2 x (List.mem_of_mem_eraseIdx hx)

theorem inv_sort_by_percentage
    (qsort : List Student → (Student → Student → Int) → List Student)
    (hq : qsort_contract qsort) (st : Store) (hinv : st.inv) :
    (sort_by_percentage qsort st).1.inv := by
  by_cases hle : st.student_count ≤ 1
  · unfold sort_by_percentage
    rw [if_pos hle]
    exact hinv
  · have hcons := cmp_percentage_desc_consistent st.records
      (fun s hs => consistent_percentage_ne_nan s (hinv.2 s hs))
    obtain ⟨hr, hlen, hcount, _⟩ := sort_by_percentage_records qsort hq st hcons hle
    have hperm := (hq st.records cmp_percentage_desc hcons).1
    refine ⟨⟨by rw [hlen]; exact hinv.1.1, by rw [hcount]; exact hinv.1.2.1,
      by rw [hcount]; exact hinv.1.2.2⟩, ?_⟩
    rw [hr]
    exact fun x hx => hinv.2 x (hperm.mem_iff.1 hx)

theorem inv_demo_loop (l : List Student) (hl : ∀ s ∈ l, s.marks.length = SUBJECTS)
    (st : Store) (hinv : st.inv) : (demo_loop st l).inv := by
  induction l generalizing st with
  | nil => exact hinv
  | cons s rest ih =>
    unfold demo_loop
    split_ifs with hc
    · exact ih (fun x hx => hl x (List.mem_cons_of_mem s hx)) _
        (inv_append st _ hinv
          (calculate_result_consistent s (hl s (List.mem_cons_self s rest))) hc)
    · exact hinv

theorem inv_apply_op
    (qsort : List Student → (Student → Student → Int) → List Student)
    (hq : qsort_contract qsort) (st : Store) (op : Op) (hinv : st.inv) (hv : op.valid) :
    (apply_op qsort st op).inv := by
  cases op with
  | add roll name marks => exact inv_add_student st roll name marks hinv hv
  | modify roll xs => exact inv_modify_marks st roll xs hinv
  | delete roll => exact inv_delete_student st roll hinv
  | sort => exact inv_sort_by_percentage qsort hq st hinv
  | load_demo => exact inv_demo_loop demo_students (by decide) st hinv

theorem inv_run_ops
    (qsort : List Student → (Student → Student → Int) → List Student)
    (hq : qsort_contract qsort) (ops : List Op) (hv : ∀ op ∈ ops, op.valid)
    (st : Store) (hinv : st.inv) : (run_ops qsort st ops).inv := by
  induction ops generalizing st with
  | nil => exact hinv
  | cons op rest ih =>
    show (run_ops qsort (apply_op qsort st op) rest).inv
    exact ih (fun o ho => hv o (List.mem_cons_of_mem op ho)) _
      (inv_apply_op qsort hq st op hinv (hv op (List.mem_cons_self op rest)))

theorem inv_store_empty : Store.empty.inv :=
  ⟨store_empty_wf, fun s hs => by simp [Store.records, Store.empty] at hs⟩

/-! ## Facts about bar scaling -/

theorem int_of_double_nonneg (y : ℚ) (hy : 0 ≤ y) : int_of_double (CFloat.fin y) = ⌊y⌋ := by
  simp [int_of_double, hy]

/-- The three double operations of the bar-length expression stay within
`2^-46` of the exact `40 c / m + 1/2`. -/
theorem bar_scale_near (c m : ℤ) (hc0 : 0 ≤ c) (hcm : c ≤ m) (hm1 : 1 ≤ m)
    (hm2 : m ≤ 200) :
    ∃ y : ℚ, bar_scale c m = ⌊y⌋ ∧ 0 ≤ y ∧
      |y - (40 * (c : ℚ) / m + 1 / 2)| ≤ 1 / 2 ^ 46 := by
  have hmq : (0 : ℚ) < (m : ℚ) := by exact_mod_cast (by omega : (0 : ℤ) < m)
  have hq0 : (0 : ℚ) ≤ (c : ℚ) / m := div_nonneg (by exact_mod_cast hc0) hmq.le
  have hq1 : (c : ℚ) / m ≤ 1 := by
    rw [div_le_one hmq]
    exact_mod_cast hcm
  obtain ⟨x1, h1, e1⟩ := f64_round_near ((c : ℚ) / m) 1 (by norm_num)
    (by rw [abs_of_nonneg hq0]; norm_num; linarith)
  have b1 := abs_le.1 e1
  norm_num at b1
  obtain ⟨x2, h2, e2⟩ := f64_round_near (x1 * 40) 6 (by norm_num)
    (by rw [abs_lt]; constructor <;> norm_num <;> linarith [b1.1, b1.2])
  have b2 := abs_le.1 e2
  norm_num at b2
  obtain ⟨y, h3, e3⟩ := f64_round_near (x2 + 1 / 2) 6 (by norm_num)
    (by rw [abs_lt]; constructor <;> norm_num <;> linarith [b1.1, b1.2, b2.1, b2.2])
  have b3 := abs_le.1 e3
  norm_num at b3
  have hy0 : 0 ≤ y := by linarith [b1.1, b1.2, b2.1, b2.2, b3.1, b3.2]
  have hmul : 40 * (c : ℚ) / m = (c : ℚ) / m * 40 := by ring
  refine ⟨y, ?_, hy0, ?_⟩
  · unfold bar_scale
    rw [double_of_int_exact c (by rw [abs_lt]; constructor <;> omega),
      double_of_int_exact m (by rw [abs_lt]; constructor <;> omega),
      double_div_fin _ _ (ne_of_gt hmq), h1,
      double_of_int_exact _ (by simp [BAR_WIDTH])]
    have hm : double_mul (CFloat.fin x1) (CFloat.fin (((BAR_WIDTH : ℕ) : ℤ) : ℚ))
        = f64_round (x1 * 40) := by
      simp [double_mul, BAR_WIDTH]
    rw [hm, h2]
    have ha : double_add (CFloat.fin x2) (CFloat.fin (1 / 2)) = f64_round (x2 + 1 / 2) := by
      simp [double_add]
    rw [ha, h3, int_of_double_nonneg y hy0]
  · rw [hmul, abs_le]
    constructor <;> norm_num <;> linarith [b1.1, b1.2, b2.1, b2.2, b3.1, b3.2]

/-- A bar scaled against a denominator at least as large as the count has a
length in `[0, 40]`, and exactly 40 when the count is the denominator. -/
theorem bar_scale_bounds (c m : ℤ) (hc0 : 0 ≤ c) (hcm : c ≤ m) (hm1 : 1 ≤ m)
    (hm2 : m ≤ 200) :
    0 ≤ bar_scale c m ∧ bar_scale c m ≤ 40 ∧ (c = m → bar_scale c m = 40) := by
  obtain ⟨y, hy, hy0, herr⟩ := bar_scale_near c m hc0 hcm hm1 hm2
  have hmq : (0 : ℚ) < (m : ℚ) := by exact_mod_cast (by omega : (0 : ℤ) < m)
  have hb := abs_le.1 herr
  have hsmall : (1 : ℚ) / 2 ^ 46 < 1 / 4 := by norm_num
  have hq1 : 40 * (c : ℚ) / m ≤ 40 := by
    rw [div_le_iff₀ hmq]
    have : (c : ℚ) ≤ (m : ℚ) := by exact_mod_cast hcm
    linarith
  rw [hy]
  refine ⟨Int.floor_nonneg.2 hy0, ?_, ?_⟩
  · have : ⌊y⌋ < 41 := by
      rw [Int.floor_lt]
      push_cast
      linarith [hb.2]
    omega
  · intro hceq
    have he : 40 * (c : ℚ) / m = 40 := by
      rw [hceq]
      field_simp
    rw [he] at herr
    exact floor_stable (40 + 1 / 2) y (1 / 2 ^ 46) 40 herr (by norm_num) (by norm_num)

/-- Against the fixed ceiling 100 the bar length is the exact rounding
`⌊(4 v + 5) / 10⌋` of `v / 100 * 40`, which lies in `[0, 40]`. -/
theorem bar_scale_hundred (v : ℤ) (h0 : 0 ≤ v) (h1 : v ≤ 100) :
    bar_scale v 100 = (4 * v + 5) / 10 := by
  obtain ⟨y, hy, _, herr⟩ := bar_scale_near v 100 h0 h1 (by norm_num) (by norm_num)
  rw [hy]
  have hdiv : 4 * v + 5 = 10 * ((4 * v + 5) / 10) + (4 * v + 5) % 10 :=
    (Int.ediv_add_emod _ _).symm
  have hr1 : 1 ≤ (4 * v + 5) % 10 := by omega
  have hr9 : (4 * v + 5) % 10 ≤ 9 := by omega
  have hx : (40 * (v : ℚ) / ((100 : ℤ) : ℚ) + 1 / 2)
      = (((4 * v + 5) / 10 : ℤ) : ℚ) + (((4 * v + 5) % 10 : ℤ) : ℚ) / 10 := by
    have hq : ((4 * v + 5 : ℤ) : ℚ)
        = 10 * (((4 * v + 5) / 10 : ℤ) : ℚ) + (((4 * v + 5) % 10 : ℤ) : ℚ) := by
      exact_mod_cast hdiv
    push_cast at hq ⊢
    linarith
  have hr1q : (1 : ℚ) ≤ (((4 * v + 5) % 10 : ℤ) : ℚ) := by exact_mod_cast hr1
  have hr9q : (((4 * v + 5) % 10 : ℤ) : ℚ) ≤ 9 := by exact_mod_cast hr9
  rw [hx] at herr
  apply floor_stable _ y (1 / 2 ^ 46) _ herr
  · have : (1 : ℚ) / 2 ^ 46 ≤ 1 / 10 := by norm_num
    linarith
  · have : (1 : ℚ) / 2 ^ 46 < 1 / 10 := by norm_num
    linarith

theorem draw_bar_filled_hundred (v : ℤ) (h0 : 0 ≤ v) (h1 : v ≤ 100) :
    draw_bar_filled v 100 = (4 * v + 5) / 10 := by
  unfold draw_bar_filled
  simp only [BAR_WIDTH]
  rw [bar_scale_hundred v h0 h1]
  rw [if_neg (by omega), if_neg (by omega)]

/-- The integer passed to `draw_bar` for a subject: `(int)(avg + 0.5)` on the
double quotient of the subject sum by the count is the exact mean rounded to
the nearest integer, halves up. -/
theorem round_avg_exact (S n : ℤ) (hS0 : 0 ≤ S) (hn : 1 ≤ n) (hn2 : n ≤ 200)
    (hS : S ≤ 100 * n) :
    int_of_double (double_add (double_div (CFloat.fin (S : ℚ)) (double_of_int n))
      (CFloat.fin (1 / 2))) = (2 * S + n) / (2 * n) := by
  have hnq : (0 : ℚ) < (n : ℚ) := by exact_mod_cast (by omega : (0 : ℤ) < n)
  have hq0 : (0 : ℚ) ≤ (S : ℚ) / n := div_nonneg (by exact_mod_cast hS0) hnq.le
  have hq1 : (S : ℚ) / n ≤ 100 := by
    rw [div_le_iff₀ hnq]
    exact_mod_cast hS
  have hdiv : 2 * S + n = 2 * n * ((2 * S + n) / (2 * n)) + (2 * S + n) % (2 * n) :=
    (Int.ediv_add_emod _ _).symm
  have hmod0 : 0 ≤ (2 * S + n) % (2 * n) := Int.emod_nonneg _ (by omega)
  have hmodlt : (2 * S + n) % (2 * n) < 2 * n := Int.emod_lt_of_pos _ (by omega)
  have hk0 : 0 ≤ (2 * S + n) / (2 * n) := Int.ediv_nonneg (by omega) (by omega)
  have hk1 : (2 * S + n) / (2 * n) ≤ 100 := by
    have : (2 * S + n) / (2 * n) < 101 := by
      apply Int.ediv_lt_of_lt_mul (by omega)
      nlinarith
    omega
  have hx : (S : ℚ) / n + 1 / 2
      = (((2 * S + n) / (2 * n) : ℤ) : ℚ) + (((2 * S + n) % (2 * n) : ℤ) : ℚ) / (2 * n) := by
    have hq : ((2 * S + n : ℤ) : ℚ)
        = 2 * n * (((2 * S + n) / (2 * n) : ℤ) : ℚ) + (((2 * S + n) % (2 * n) : ℤ) : ℚ) := by
      exact_mod_cast hdiv
    push_cast at hq
    have e : (S : ℚ) / n + 1 / 2 = (2 * (S : ℚ) + n) / (2 * n) := by
      field_simp
      ring
    rw [e, hq]
    field_simp
    ring
  rw [double_of_int_exact n (by rw [abs_lt]; constructor <;> omega),
    double_div_fin _ _ (ne_of_gt hnq)]
  by_cases hm : (2 * S + n) % (2 * n) = 0
  · -- the mean is a half-integer: both operations are exact
    have hS2 : 2 * S = n * (2 * ((2 * S + n) / (2 * n)) - 1) := by
      rw [hm] at hdiv
      linarith
    have hSq : (S : ℚ) / n = ((2 * ((2 * S + n) / (2 * n)) - 1 : ℤ) : ℚ) / 2 ^ 1 := by
      have : (2 : ℚ) * S = n * ((2 * ((2 * S + n) / (2 * n)) - 1 : ℤ) : ℚ) := by
        exact_mod_cast hS2
      rw [div_eq_div_iff (ne_of_gt hnq) (by norm_num)]
      linarith
    rw [hSq, f64_round_dyadic _ 1 (by rw [abs_lt]; constructor <;> omega) (by norm_num)]
    have ha : double_add (CFloat.fin (((2 * ((2 * S + n) / (2 * n)) - 1 : ℤ) : ℚ) / 2 ^ 1))
        (CFloat.fin (1 / 2)) = f64_round ((((2 * S + n) / (2 * n) : ℤ) : ℚ) / 2 ^ 0) := by
      simp only [double_add]
      congr 1
      push_cast
      ring
    rw [ha, f64_round_dyadic _ 0 (by rw [abs_lt]; constructor <;> omega) (by norm_num),
      int_of_double_nonneg _ (by simp only [pow_zero, div_one]; exact_mod_cast hk0)]
    simp
  · obtain ⟨x1, h1, e1⟩ := f64_round_near ((S : ℚ) / n) 7 (by norm_num)
      (by rw [abs_of_nonneg hq0]; norm_num; linarith)
    have b1 := abs_le.1 e1
    norm_num at b1
    obtain ⟨y, h2, e2⟩ := f64_round_near (x1 + 1 / 2) 7 (by norm_num)
      (by rw [abs_lt]; constructor <;> norm_num <;> linarith [b1.1, b1.2])
    have b2 := abs_le.1 e2
    norm_num at b2
    have hy0 : 0 ≤ y := by linarith [b1.1, b1.2, b2.1, b2.2]
    have ha : double_add (CFloat.fin x1) (CFloat.fin (1 / 2)) = f64_round (x1 + 1 / 2) := by
      simp [double_add]
    rw [h1, ha, h2, int_of_double_nonneg y hy0]
    have herr : |y - ((S : ℚ) / n + 1 / 2)| ≤ 1 / 2 ^ 46 := by
      rw [abs_le]
      constructor <;> norm_num <;> linarith [b1.1, b1.2, b2.1, b2.2]
    rw [hx] at herr
    have hr1 : (1 : ℚ) ≤ (((2 * S + n) % (2 * n) : ℤ) : ℚ) := by
      exact_mod_cast (by omega : (1 : ℤ) ≤ (2 * S + n) % (2 * n))
    have hr2 : (((2 * S + n) % (2 * n) : ℤ) : ℚ) ≤ 2 * n - 1 := by
      exact_mod_cast (by omega : (2 * S + n) % (2 * n) ≤ 2 * n - 1)
    have hn200 : (n : ℚ) ≤ 200 := by exact_mod_cast hn2
    have h2n : (0 : ℚ) < 2 * n := by linarith
    have hlo : (1 : ℚ) / 400 ≤ (((2 * S + n) % (2 * n) : ℤ) : ℚ) / (2 * n) := by
      rw [le_div_iff₀ h2n]
      linarith
    have hhi : (((2 * S + n) % (2 * n) : ℤ) : ℚ) / (2 * n) ≤ 1 - 1 / 400 := by
      rw [div_le_iff₀ h2n]
      nlinarith
    apply floor_stable _ y (1 / 2 ^ 46) _ herr
    · have : (1 : ℚ) / 2 ^ 46 ≤ 1 / 400 := by norm_num
      linarith
    · have : (1 : ℚ) / 2 ^ 46 < 1 / 400 := by norm_num
      linarith

/-! ## Facts about the grade histogram -/

theorem grade_bucket_lt (g : Char) : grade_bucket g < 5 := by
  unfold grade_bucket
  split_ifs <;> omega

theorem bucket_count_cons (s : Student) (l : List Student) (b : Nat) :
    bucket_count (s :: l) b
      = (if grade_bucket s.grade = b then 1 else 0) + bucket_count l b := by
  unfold bucket_count
  by_cases h : grade_bucket s.grade = b
  · simp [List.filter_cons, h]
    ring
  · simp [List.filter_cons, h]

theorem bucket_count_nonneg (l : List Student) (b : Nat) : 0 ≤ bucket_count l b := by
  unfold bucket_count
  omega

theorem grades_step_eq (a0 a1 a2 a3 a4 : ℤ) (s : Student) :
    grades_step [a0, a1, a2, a3, a4] s
      = [a0 + (if grade_bucket s.grade = 0 then 1 else 0),
         a1 + (if grade_bucket s.grade = 1 then 1 else 0),
         a2 + (if grade_bucket s.grade = 2 then 1 else 0),
         a3 + (if grade_bucket s.grade = 3 then 1 else 0),
         a4 + (if grade_bucket s.grade = 4 then 1 else 0)] := by
  have hb := grade_bucket_lt s.grade
  unfold grades_step
  generalize grade_bucket s.grade = b at hb
  interval_cases b <;> simp

theorem grades_foldl (l : List Student) (a0 a1 a2 a3 a4 : ℤ) :
    l.foldl grades_step [a0, a1, a2, a3, a4]
      = [a0 + bucket_count l 0, a1 + bucket_count l 1, a2 + bucket_count l 2,
         a3 + bucket_count l 3, a4 + bucket_count l 4] := by
  induction l generalizing a0 a1 a2 a3 a4 with
  | nil => simp [bucket_count]
  | cons s rest ih =>
    rw [List.foldl_cons, grades_step_eq, ih]
    simp only [bucket_count_cons, add_assoc]

theorem grades_counts_eq (st : Store) (hwf : st.wf) :
    grades_counts st =
      [bucket_count st.records 0, bucket_count st.records 1, bucket_count st.records 2,
       bucket_count st.records 3, bucket_count st.records 4] := by
  unfold grades_counts
  rw [foldl_range_getD grades_step st.students _ (wf_count_le st hwf)]
  have h := grades_foldl st.records 0 0 0 0 0
  simp only [zero_add] at h
  exact h

theorem bucket_count_sum (l : List Student) :
    bucket_count l 0 + bucket_count l 1 + bucket_count l 2 + bucket_count l 3
      + bucket_count l 4 = l.length := by
  induction l with
  | nil => simp [bucket_count]
  | cons s rest ih =>
    have hb := grade_bucket_lt s.grade
    simp only [bucket_count_cons, List.length_cons]
    push_cast
    generalize grade_bucket s.grade = b at hb
    interval_cases b <;> simp <;> omega

theorem bucket_count_letters (l : List Student) :
    bucket_count l 0 = grade_count l 'A' ∧ bucket_count l 1 = grade_count l 'B' ∧
    bucket_count l 2 = grade_count l 'C' ∧ bucket_count l 3 = grade_count l 'D' ∧
    bucket_count l 4 = other_grade_count l := by
  unfold bucket_count grade_count other_grade_count
  refine ⟨?_, ?_, ?_, ?_, ?_⟩ <;> congr 2 <;> apply List.filter_congr <;> intro s _ <;>
    simp only [grade_bucket, decide_eq_decide] <;> split_ifs <;> simp_all

theorem max_grade_count_spec (c0 c1 c2 c3 c4 : ℤ) :
    1 ≤ max_grade_count [c0, c1, c2, c3, c4] ∧
    c0 ≤ max_grade_count [c0, c1, c2, c3, c4] ∧
    c1 ≤ max_grade_count [c0, c1, c2, c3, c4] ∧
    c2 ≤ max_grade_count [c0, c1, c2, c3, c4] ∧
    c3 ≤ max_grade_count [c0, c1, c2, c3, c4] ∧
    c4 ≤ max_grade_count [c0, c1, c2, c3, c4] ∧
    (max_grade_count [c0, c1, c2, c3, c4] = 1 ∨
      max_grade_count [c0, c1, c2, c3, c4] = c0 ∨
      max_grade_count [c0, c1, c2, c3, c4] = c1 ∨
      max_grade_count [c0, c1, c2, c3, c4] = c2 ∨
      max_grade_count [c0, c1, c2, c3, c4] = c3 ∨
      max_grade_count [c0, c1, c2, c3, c4] = c4) := by
  have hr : List.range 5 = [0, 1, 2, 3, 4] := rfl
  unfold max_grade_count
  rw [hr]
  simp only [List.foldl_cons, List.foldl_nil, List.getD_cons_succ, List.getD_cons_zero]
  split_ifs <;> omega

/-! ## Facts about the subject bars -/

theorem floor_int_div (a b : ℤ) (hb : 0 < b) : ⌊(a : ℚ) / (b : ℚ)⌋ = a / b := by
  obtain ⟨d, rfl⟩ : ∃ d : ℕ, b = (d : ℤ) := ⟨b.toNat, by omega⟩
  exact_mod_cast Rat.floor_intCast_div_natCast a d

theorem round_half_up_div (S n : ℤ) (hn : 0 < n) :
    round_half_up ((S : ℚ) / n) = (2 * S + n) / (2 * n) := by
  have hnq : (0 : ℚ) < (n : ℚ) := by exact_mod_cast hn
  have e : (S : ℚ) / n + 1 / 2 = ((2 * S + n : ℤ) : ℚ) / ((2 * n : ℤ) : ℚ) := by
    push_cast
    field_simp
    ring
  unfold round_half_up
  rw [e, floor_int_div _ _ (by omega)]

theorem round_half_up_scale (v : ℤ) :
    round_half_up ((v : ℚ) / 100 * 40) = (4 * v + 5) / 10 := by
  have e : (v : ℚ) / 100 * 40 + 1 / 2 = ((4 * v + 5 : ℤ) : ℚ) / ((10 : ℤ) : ℚ) := by
    push_cast
    ring
  unfold round_half_up
  rw [e, floor_int_div _ _ (by norm_num)]

theorem round_div_bounds (S n : ℤ) (hS0 : 0 ≤ S) (hn : 1 ≤ n) (hS : S ≤ 100 * n) :
    0 ≤ (2 * S + n) / (2 * n) ∧ (2 * S + n) / (2 * n) ≤ 100 := by
  constructor
  · exact Int.ediv_nonneg (by omega) (by omega)
  · have : (2 * S + n) / (2 * n) < 101 := by
      apply Int.ediv_lt_of_lt_mul (by omega)
      nlinarith
    omega

/-- The bar `class_analysis` draws for subject `j`: the subject sum divided by
the count is rounded to an integer first, and that integer is scaled. -/
theorem subject_bar_getElem? (st : Store) (hwf : st.wf) (hne : st.student_count ≠ 0)
    (hl : ∀ s ∈ st.records, s.marks_ok) (j : Nat) (hj : j < SUBJECTS) :
    (((List.range SUBJECTS).map fun j =>
        double_div ((subj_sums st).getD j (CFloat.fin 0))
          (double_of_int st.student_count)).map fun avg =>
        draw_bar_filled (int_of_double (double_add avg (CFloat.fin (1 / 2)))) 100)[j]?
      = some ((4 * ((2 * col_sum st.records j + st.student_count)
          / (2 * st.student_count)) + 5) / 10) := by
  have hlen := records_length st hwf
  have hle := records_length_le st hwf
  have hn1 : 1 ≤ st.student_count := by have := hwf.2.1; omega
  have hcb := col_sum_bounds st.records hl j
  have hS : col_sum st.records j ≤ 100 * st.student_count := by rw [← hlen]; exact hcb.2
  have hv := round_div_bounds (col_sum st.records j) st.student_count hcb.1 hn1 hS
  rw [List.getElem?_map, subject_avg_getElem? st hwf hl j hj]
  simp only [Option.map_some']
  rw [round_avg_exact _ _ hcb.1 hn1 (by omega) hS, draw_bar_filled_hundred _ hv.1 hv.2]

/-! ## Facts about the end-to-end scenario -/

theorem scenario_calc_1 :
    calculate_result
      { roll := 1, name := "Asha", marks := [88, 76, 92, 85, 79], total := 0,
        percentage := CFloat.fin 0, grade := Char.ofNat 0 } = scenario_record_1 := by
  have hp : CFloat.div_pos (float_of_int 420) (SUBJECTS : ℚ) = CFloat.fin 84 := by
    rw [percentage_of_total 420 (by norm_num) (by norm_num)]
    have e : ((420 : ℤ) : ℚ) / 5 = ((84 : ℤ) : ℚ) := by norm_num
    rw [e]
    have := float_of_int_exact 84 (by norm_num)
    simpa [float_of_int] using this
  have hs : (List.map clamp_mark [88, 76, 92, 85, 79]).sum = 420 := by decide
  have hm : List.map clamp_mark [88, 76, 92, 85, 79] = [88, 76, 92, 85, 79] := by decide
  have hg : compute_grade (CFloat.fin 84) = 'B' := by
    rw [compute_grade_fin]; norm_num
  have hs2 : ([88, 76, 92, 85, 79] : List Int).sum = 420 := by decide
  simp only [calculate_result, calc_loop_eq [88, 76, 92, 85, 79] rfl, hs, hm, hs2, hp, hg,
    scenario_record_1]

theorem scenario_calc_2 :
    calculate_result { scenario_record_1 with marks := [88, 76, 92, 85, 95] }
      = scenario_record_2 := by
  have hp : CFloat.div_pos (float_of_int 436) (SUBJECTS : ℚ) = f32_round (872 / 10) := by
    rw [percentage_of_total 436 (by norm_num) (by norm_num)]
    congr 1
    norm_num
  have hs : (List.map clamp_mark [88, 76, 92, 85, 95]).sum = 436 := by decide
  have hm : List.map clamp_mark [88, 76, 92, 85, 95] = [88, 76, 92, 85, 95] := by decide
  have hg : compute_grade (f32_round (872 / 10)) = 'A' := by
    obtain ⟨p, hr, _, _, _, hc⟩ := f32_round_fifth 436 (by norm_num) (by norm_num)
    have e : ((436 : ℤ) : ℚ) / 5 = 872 / 10 := by norm_num
    rw [e] at hr
    have h85 := (hc 85).2 (by norm_num)
    rw [hr, compute_grade_fin, if_pos (by exact_mod_cast h85)]
  have hs2 : ([88, 76, 92, 85, 95] : List Int).sum = 436 := by decide
  simp only [calculate_result, calc_loop_eq [88, 76, 92, 85, 95] rfl, hs, hm, hs2, hp, hg,
    scenario_record_1, scenario_record_2]

theorem scenario_added_eq :
    scenario_added =
      ({ students := Store.empty.students.set 0 scenario_record_1, student_count := 1 },
        Signal.added) := by
  unfold scenario_added add_student
  rw [if_neg (by decide), if_neg (by decide), scenario_calc_1]
  rfl

theorem scenario_modified_eq :
    scenario_modified =
      ({ students := Store.empty.students.set 0 scenario_record_2, student_count := 1 },
        Signal.updated) := by
  have hf : find_index_by_roll
      { students := Store.empty.students.set 0 scenario_record_1, student_count := 1 } 1
      = 0 := by decide
  have hl : modify_loop [-1, -1, -1, -1, 95] scenario_record_1.marks
      = [88, 76, 92, 85, 95] := by decide
  have hg : (Store.empty.students.set 0 scenario_record_1).getD 0 default
      = scenario_record_1 := rfl
  unfold scenario_modified modify_marks
  rw [scenario_added_eq]
  simp only []
  rw [hf, if_neg (by decide)]
  simp only [Int.toNat_zero, hg, hl, scenario_calc_2]
  rfl

theorem scenario_deleted_eq :
    scenario_deleted =
      ({ students := Store.empty.students.set 0 scenario_record_2, student_count := 0 },
        Signal.deleted) := by
  have hf : find_index_by_roll
      { students := Store.empty.students.set 0 scenario_record_2, student_count := 1 } 1
      = 0 := by
    unfold find_index_by_roll
    rfl
  unfold scenario_deleted delete_student
  rw [scenario_modified_eq]
  simp only []
  rw [hf, if_neg (by decide)]
  rfl

/-! ## Facts about what `find_index_by_roll` reads -/

theorem find_loop_congr (l1 l2 : List Student) (roll : Int) (n i : Nat)
    (h : ∀ j, i ≤ j → j < i + n → l1.getD j default = l2.getD j default) :
    find_loop l1 roll n i = find_loop l2 roll n i := by
  induction n generalizing i with
  | zero => rfl
  | succ n ih =>
    unfold find_loop
    rw [h i (le_refl i) (by omega), ih (i + 1) (fun j h1 h2 => h j (by omega) (by omega))]

theorem getD_eq_of_take_eq (l1 l2 : List Student) (n j : Nat) (hj : j < n)
    (h : l1.take n = l2.take n) : l1.getD j default = l2.getD j default := by
  have e1 : (l1.take n)[j]? = l1[j]? := by rw [List.getElem?_take, if_pos hj]
  have e2 : (l2.take n)[j]? = l2[j]? := by rw [List.getElem?_take, if_pos hj]
  rw [List.getD_eq_getElem?_getD, List.getD_eq_getElem?_getD, ← e1, ← e2, h]

/-! ## Roll uniqueness apart from the demo fixture -/

theorem has_roll_iff_mem_rolls (st : Store) (roll : Int) :
    st.has_roll roll ↔ roll ∈ st.rolls := by
  unfold Store.has_roll Store.rolls
  rw [List.mem_map]

theorem not_has_roll_of_find_neg (st : Store) (roll : Int)
    (h : find_index_by_roll st roll = -1) : ¬ st.has_roll roll := by
  intro hh
  obtain ⟨k, _, hk, _⟩ := find_index_of_has_roll st roll hh
  rw [hk] at h
  omega

theorem calculate_result_roll (s : Student) : (calculate_result s).roll = s.roll := by
  simp only [calculate_result]

theorem nodup_add_student (st : Store) (roll : Int) (name : String) (marks : List Int)
    (hwf : st.wf) (hn : st.rolls.Nodup) :
    (add_student st roll name marks).1.rolls.Nodup := by
  unfold add_student
  split_ifs with h1 h2
  · exact hn
  · exact hn
  · have hfind : find_index_by_roll st roll = -1 := by
      by_contra hc
      exact h2 hc
    have hnot := not_has_roll_of_find_neg st roll hfind
    rw [has_roll_iff_mem_rolls] at hnot
    obtain ⟨_, hr⟩ := append_record st
      (calculate_result
        { roll := roll, name := name, marks := marks, total := 0,
          percentage := CFloat.fin 0, grade := Char.ofNat 0 }) hwf (by omega)
    simp only [Store.rolls] at hn hnot ⊢
    rw [hr, List.map_append, List.nodup_append]
    refine ⟨hn, by simp, ?_⟩
    intro x hx hy
    rw [List.map_singleton, List.mem_singleton, calculate_result_roll] at hy
    rw [hy] at hx
    exact hnot hx

theorem rolls_modify_marks (st : Store) (roll : Int) (xs : List Int) (hwf : st.wf) :
    (modify_marks st roll xs).1.rolls = st.rolls := by
  rcases find_index_cases st roll with h | ⟨k, hk, hkc⟩
  · unfold modify_marks
    simp only []
    rw [if_pos h]
  · have hne : find_index_by_roll st roll ≠ -1 := by rw [hk]; omega
    have hle := wf_count_le st hwf
    have hkl : k < st.students.length := by omega
    have hget : st.students.getD k default = st.students[k] :=
      List.getD_eq_getElem st.students default hkl
    unfold modify_marks
    simp only []
    rw [if_neg hne, hk, Int.toNat_ofNat, hget]
    simp only [Store.rolls, Store.records]
    rw [List.set_take]
    apply List.ext_getElem?
    intro j
    rw [List.getElem?_map, List.getElem?_map, List.getElem?_set]
    by_cases hjk : k = j
    · subst hjk
      rw [if_pos rfl]
      have hlt : k < (List.take st.student_count.toNat st.students).length := by
        rw [List.length_take]; omega
      rw [if_pos hlt, List.getElem?_take, if_pos hkc, List.getElem?_eq_getElem hkl]
      simp only [Option.map_some', calculate_result_roll]
    · rw [if_neg hjk]

theorem nodup_delete_student (st : Store) (roll : Int) (hwf : st.wf)
    (hn : st.rolls.Nodup) : (delete_student st roll).1.rolls.Nodup := by
  rcases find_index_cases st roll with h | ⟨k, hk, hkc⟩
  · unfold delete_student
    simp only []
    rw [if_pos h]
    exact hn
  · obtain ⟨_, hr⟩ := delete_student_at st roll hwf k hk hkc
    simp only [Store.rolls] at hn ⊢
    rw [hr]
    exact hn.sublist ((List.eraseIdx_sublist st.records k).map Student.roll)

theorem nodup_sort_by_percentage
    (qsort : List Student → (Student → Student → Int) → List Student)
    (hq : qsort_contract qsort) (st : Store) (hinv : st.inv) (hn : st.rolls.Nodup) :
    (sort_by_percentage qsort st).1.rolls.Nodup := by
  by_cases hle : st.student_count ≤ 1
  · unfold sort_by_percentage
    rw [if_pos hle]
    exact hn
  · have hcons := cmp_percentage_desc_consistent st.records
      (fun s hs => consistent_percentage_ne_nan s (hinv.2 s hs))
    obtain ⟨hr, _, _, _⟩ := sort_by_percentage_records qsort hq st hcons hle
    have hperm := (hq st.records cmp_percentage_desc hcons).1
    simp only [Store.rolls] at hn ⊢
    rw [hr]
    exact (hperm.map Student.roll).nodup_iff.2 hn

/-- Apart from the loading of the demo fixture, the operations keep the rolls
of the store pairwise distinct. -/
theorem rolls_nodup_without_load_demo
    (qsort : List Student → (Student → Student → Int) → List Student)
    (hq : qsort_contract qsort) (ops : List Op)
    (hv : ∀ op ∈ ops, op.valid ∧ ¬ op.is_load_demo) (st : Store) (hinv : st.inv)
    (hn : st.rolls.Nodup) : (run_ops qsort st ops).rolls.Nodup := by
  induction ops generalizing st with
  | nil => exact hn
  | cons op rest ih =>
    have hop := hv op (List.mem_cons_self op rest)
    show (run_ops qsort (apply_op qsort st op) rest).rolls.Nodup
    apply ih (fun o ho => hv o (List.mem_cons_of_mem op ho)) _
      (inv_apply_op qsort hq st op hinv hop.1)
    cases op with
    | add roll name marks => exact nodup_add_student st roll name marks hinv.1 hn
    | modify roll xs =>
      show (modify_marks st roll xs).1.rolls.Nodup
      rw [rolls_modify_marks st roll xs hinv.1]
      exact hn
    | delete roll => exact nodup_delete_student st roll hinv.1 hn
    | sort => exact nodup_sort_by_percentage qsort hq st hinv hn
    | load_demo => exact absurd trivial hop.2

/-! ## The demo fixture on a store without its rolls -/

theorem calculate_result_fresh (s : Student) :
    calculate_result
      { roll := s.roll, name := s.name, marks := s.marks, total := 0,
        percentage := CFloat.fin 0, grade := Char.ofNat 0 } = calculate_result s := by
  simp only [calculate_result]

theorem adds_on_full_store (l : List Student) (st : Store)
    (h : st.student_count ≥ (MAX_STUDENTS : Int)) :
    l.foldl (fun acc s => (add_student acc s.roll s.name s.marks).1) st = st := by
  induction l with
  | nil => rfl
  | cons s rest ih =>
    rw [List.foldl_cons]
    have e : (add_student st s.roll s.name s.marks).1 = st := by
      unfold add_student
      rw [if_pos h]
    rw [e, ih]

/-- On a well-formed store holding none of the rolls of the (pairwise distinct)
fixture records, the loop of `load_demo_data` does what sequential adds do. -/
theorem demo_loop_eq_adds (l : List Student) (hnd : (l.map Student.roll).Nodup)
    (st : Store) (hwf : st.wf) (hfresh : ∀ s ∈ l, ¬ st.has_roll s.roll) :
    demo_loop st l
      = l.foldl (fun acc s => (add_student acc s.roll s.name s.marks).1) st := by
  induction l generalizing st with
  | nil => rfl
  | cons s rest ih =>
    rw [List.map_cons, List.nodup_cons] at hnd
    unfold demo_loop
    by_cases hc : st.student_count < (MAX_STUDENTS : Int)
    · have hfind := find_index_of_not_has_roll st s.roll (wf_count_le st hwf)
        (hfresh s (List.mem_cons_self s rest))
      have hadd : (add_student st s.roll s.name s.marks).1 =
          { students := st.students.set st.student_count.toNat (calculate_result s),
            student_count := st.student_count + 1 } := by
        unfold add_student
        rw [if_neg (by omega), if_neg (by rw [hfind]; simp), calculate_result_fresh]
      obtain ⟨hw, hr⟩ := append_record st (calculate_result s) hwf hc
      rw [if_pos hc, List.foldl_cons, hadd]
      apply ih hnd.2 _ hw
      intro s2 hs2 hhas
      rw [has_roll_iff_mem_rolls, Store.rolls, hr, List.map_append, List.mem_append] at hhas
      rcases hhas with h1 | h1
      · exact hfresh s2 (List.mem_cons_of_mem s hs2)
          ((has_roll_iff_mem_rolls st s2.roll).2 h1)
      · rw [List.map_singleton, List.mem_singleton, calculate_result_roll] at h1
        exact hnd.1 (h1 ▸ List.mem_map_of_mem Student.roll hs2)
    · rw [if_neg hc, adds_on_full_store _ st (by omega)]

/-- On a well-formed store holding none of the rolls 1 to 5, loading the demo
fixture is the same as five sequential adds. -/
theorem load_demo_eq_adds_of_fresh (st : Store) (hwf : st.wf)
    (h : ∀ r ∈ [1, 2, 3, 4, 5], ¬ st.has_roll r) :
    (load_demo_data st).1 = demo_adds st := by
  unfold load_demo_data demo_adds
  apply demo_loop_eq_adds demo_students (by decide) st hwf
  intro s hs
  apply h
  simp only [demo_students, List.mem_cons, List.mem_singleton, List.not_mem_nil, or_false] at hs
  rcases hs with rfl | rfl | rfl | rfl | rfl <;> decide

/-! ## The grade bar as an exact rounding -/

theorem f64_exponent_ge (q : ℚ) (e : ℤ) (hq : 0 < |q|)
    (h : (2 : ℚ) ^ e ≤ |q|) : e ≤ f64_exponent q := by
  unfold f64_exponent
  apply le_max_of_le_left
  have h2 : ((2 : ℕ) : ℚ) ^ e ≤ |q| := by exact_mod_cast h
  exact (Int.zpow_le_iff_le_log (by norm_num : 1 < 2) hq).1 h2

/-- In the normal range the exponent brackets the magnitude. -/
theorem f64_exponent_spec (q : ℚ) (h : (2 : ℚ) ^ (-1022 : ℤ) ≤ |q|) :
    (2 : ℚ) ^ f64_exponent q ≤ |q| := by
  have hq : 0 < |q| := lt_of_lt_of_le (by positivity) h
  have h2 : ((2 : ℕ) : ℚ) ^ (-1022 : ℤ) ≤ |q| := by exact_mod_cast h
  have hlog : (-1022 : ℤ) ≤ Int.log 2 |q| :=
    (Int.zpow_le_iff_le_log (by norm_num : 1 < 2) hq).1 h2
  have he : f64_exponent q = Int.log 2 |q| := by
    unfold f64_exponent
    exact max_eq_left hlog
  rw [he]
  have := Int.zpow_log_le_self (by norm_num : 1 < 2) hq
  exact_mod_cast this

/-- Below the overflow range the rounding of a nonzero real is the rounded
mantissa times the spacing. -/
theorem f64_round_val (q : ℚ) (k : ℕ) (hk : k ≤ 1000) (h : |q| < 2 ^ k) (h0 : q ≠ 0) :
    f64_round q = CFloat.fin ((round_half_even (q / f64_ulp q) : ℚ) * f64_ulp q) := by
  have hq : 0 < |q| := abs_pos.2 h0
  have he : f64_exponent q ≤ (k : ℤ) - 1 :=
    f64_exponent_le q _ hq (by omega) (by
      have : ((k : ℤ) - 1 + 1) = (k : ℤ) := by ring
      rw [this, zpow_natCast]; exact h)
  have hu := f64_ulp_pos q
  have hule : f64_ulp q ≤ 2 ^ k / 2 ^ 53 := by
    unfold f64_ulp
    calc (2 : ℚ) ^ (f64_exponent q - 52) ≤ (2 : ℚ) ^ ((k : ℤ) - 53) :=
          zpow_le_zpow_right₀ (by norm_num) (by omega)
      _ = 2 ^ k / 2 ^ 53 := by
          rw [zpow_sub₀ (by norm_num : (2 : ℚ) ≠ 0), zpow_natCast]
          norm_num
  have herr := round_half_even_err (q / f64_ulp q)
  have hd : |(round_half_even (q / f64_ulp q) : ℚ) * f64_ulp q - q| ≤ 2 ^ k / 2 ^ 54 := by
    have e1 : (round_half_even (q / f64_ulp q) : ℚ) * f64_ulp q - q
        = ((round_half_even (q / f64_ulp q) : ℚ) - q / f64_ulp q) * f64_ulp q := by
      field_simp
    rw [e1, abs_mul, abs_of_pos hu]
    calc |(round_half_even (q / f64_ulp q) : ℚ) - q / f64_ulp q| * f64_ulp q
        ≤ 1 / 2 * (2 ^ k / 2 ^ 53) := mul_le_mul herr hule hu.le (by norm_num)
      _ = 2 ^ k / 2 ^ 54 := by ring
  have hb := abs_le.1 hd
  have hqb := abs_lt.1 h
  have hk2 : (2 : ℚ) ^ k ≤ 2 ^ 1000 := pow_le_pow_right₀ (by norm_num) hk
  have hsmall : (2 : ℚ) ^ k / 2 ^ 54 ≤ 2 ^ k := div_le_self (by positivity) (by norm_num)
  have hbig : (2 : ℚ) ^ 1000 + 2 ^ 1000 < 2 ^ 1024 := by norm_num
  unfold f64_round
  simp only [h0, if_false]
  rw [if_neg (by linarith [hb.2, hqb.2]), if_neg (by linarith [hb.1, hqb.1])]

/-- Rounding a fifth of an integer moves it by at most two fifths. -/
theorem round_half_even_fifth (N : ℤ) :
    -2 ≤ 5 * round_half_even ((N : ℚ) / 5) - N ∧
      5 * round_half_even ((N : ℚ) / 5) - N ≤ 2 := by
  have h := abs_le.1 (round_half_even_err ((N : ℚ) / 5))
  have h1 : (-3 : ℚ) < ((5 * round_half_even ((N : ℚ) / 5) - N : ℤ) : ℚ) := by
    push_cast
    linarith [h.1]
  have h2 : ((5 * round_half_even ((N : ℚ) / 5) - N : ℤ) : ℚ) < 3 := by
    push_cast
    linarith [h.2]
  have h3 : (-3 : ℤ) < 5 * round_half_even ((N : ℚ) / 5) - N := by exact_mod_cast h1
  have h4 : 5 * round_half_even ((N : ℚ) / 5) - N < (3 : ℤ) := by exact_mod_cast h2
  omega

/-- An even integer plus at most a half rounds to that integer, ties
included. -/
theorem round_half_even_even_add (A : ℤ) (t : ℚ) (hA : A % 2 = 0) (ht : |t| ≤ 1 / 2) :
    round_half_even ((A : ℚ) + t) = A := by
  have hb := abs_le.1 ht
  unfold round_half_even
  simp only []
  by_cases h0 : 0 ≤ t
  · have hf : ⌊(A : ℚ) + t⌋ = A := by
      rw [Int.floor_eq_iff]
      constructor <;> linarith [hb.2]
    rw [hf]
    have hr : (A : ℚ) + t - (A : ℚ) = t := by ring
    rw [hr]
    by_cases h1 : t < 1 / 2
    · rw [if_pos h1]
    · rw [if_neg h1, if_neg (by linarith [hb.2]), if_pos hA]
  · have hf : ⌊(A : ℚ) + t⌋ = A - 1 := by
      rw [Int.floor_eq_iff]
      push_cast
      constructor <;> linarith [hb.1]
    rw [hf]
    have hr : (A : ℚ) + t - ((A - 1 : ℤ) : ℚ) = t + 1 := by push_cast; ring
    rw [hr, if_neg (by linarith [hb.1])]
    by_cases h1 : (1 : ℚ) / 2 < t + 1
    · rw [if_pos h1]; ring
    · rw [if_neg h1, if_neg (by omega)]; ring

/-- The heart of the grade-bar rounding at a half-integer target: for
`1 <= a <= 79` the double nearest to `a / 80`, multiplied by 40 in double
arithmetic, gives exactly `a / 2`. The first rounding is off by at most two
fifths of a spacing, which after the multiplication is at most half a spacing
around `a / 2`, and a tie goes to `a / 2`, whose mantissa is even. -/
theorem f64_round_eightieth_times_forty (a : ℤ) (h1 : 1 ≤ a) (h2 : a ≤ 79) :
    ∃ x1 : ℚ, f64_round ((a : ℚ) / 80) = CFloat.fin x1 ∧
      f64_round (x1 * 40) = CFloat.fin ((a : ℚ) / 2) := by
  have ha1 : (1 : ℚ) ≤ (a : ℚ) := by exact_mod_cast h1
  have ha2 : (a : ℚ) ≤ 79 := by exact_mod_cast h2
  have hq0 : (0 : ℚ) < (a : ℚ) / 80 := by positivity
  have hq1 : (a : ℚ) / 80 < 1 := by
    rw [div_lt_one (by norm_num)]; linarith
  have hqabs : |(a : ℚ) / 80| = (a : ℚ) / 80 := abs_of_pos hq0
  -- the exponent and spacing of a / 80
  have he1 : f64_exponent ((a : ℚ) / 80) ≤ -1 :=
    f64_exponent_le _ (-1) (by rw [hqabs]; exact hq0) (by norm_num)
      (by rw [hqabs]; norm_num; exact hq1)
  have hspec := f64_exponent_spec ((a : ℚ) / 80) (by
    rw [hqabs]
    have : (2 : ℚ) ^ (-1022 : ℤ) ≤ 1 / 80 := by norm_num
    linarith)
  rw [hqabs] at hspec
  obtain ⟨n1, hn1, hn1lo⟩ : ∃ n1 : ℕ, f64_exponent ((a : ℚ) / 80) - 52 = -(n1 : ℤ) ∧
      53 ≤ n1 := ⟨(52 - f64_exponent ((a : ℚ) / 80)).toNat, by omega, by omega⟩
  have hu : f64_ulp ((a : ℚ) / 80) = ((2 : ℚ) ^ n1)⁻¹ := by
    unfold f64_ulp
    rw [hn1, zpow_neg, zpow_natCast]
  have hp1 : (0 : ℚ) < 2 ^ n1 := by positivity
  have hupos : (0 : ℚ) < ((2 : ℚ) ^ n1)⁻¹ := inv_pos.2 hp1
  have hspec2 : ((2 : ℚ) ^ n1)⁻¹ * 2 ^ 52 ≤ (a : ℚ) / 80 := by
    have e : (2 : ℚ) ^ f64_exponent ((a : ℚ) / 80) = ((2 : ℚ) ^ n1)⁻¹ * 2 ^ 52 := by
      have : f64_exponent ((a : ℚ) / 80) = -(n1 : ℤ) + (52 : ℕ) := by push_cast; omega
      rw [this, zpow_add₀ (by norm_num : (2 : ℚ) ≠ 0), zpow_neg, zpow_natCast, zpow_natCast]
    rw [← e]
    exact hspec
  -- the first rounding
  obtain ⟨m1, hm1⟩ : ∃ m1 : ℕ, n1 = m1 + 4 := ⟨n1 - 4, by omega⟩
  have hx1 := f64_round_val ((a : ℚ) / 80) 0 (by norm_num)
    (by rw [hqabs]; simpa using hq1) (ne_of_gt hq0)
  have hdivu : (a : ℚ) / 80 / f64_ulp ((a : ℚ) / 80) = ((a * 2 ^ m1 : ℤ) : ℚ) / 5 := by
    rw [hu, hm1, pow_add]
    push_cast
    field_simp
    ring
  rw [hdivu, hu] at hx1
  have hd := round_half_even_fifth (a * 2 ^ m1)
  generalize round_half_even (((a * 2 ^ m1 : ℤ) : ℚ) / 5) = M at hx1 hd
  have hdq1 : (-2 : ℚ) ≤ 5 * (M : ℚ) - (a : ℚ) * 2 ^ m1 := by
    have := hd.1
    have h' : ((-2 : ℤ) : ℚ) ≤ ((5 * M - a * 2 ^ m1 : ℤ) : ℚ) := by exact_mod_cast this
    push_cast at h'
    exact h'
  have hdq2 : 5 * (M : ℚ) - (a : ℚ) * 2 ^ m1 ≤ 2 := by
    have := hd.2
    have h' : ((5 * M - a * 2 ^ m1 : ℤ) : ℚ) ≤ ((2 : ℤ) : ℚ) := by exact_mod_cast this
    push_cast at h'
    exact h'
  refine ⟨(M : ℚ) * ((2 : ℚ) ^ n1)⁻¹, hx1, ?_⟩
  -- the product with 40, as a / 2 plus a small multiple of the spacing
  have hz : (M : ℚ) * ((2 : ℚ) ^ n1)⁻¹ * 40
      = (a : ℚ) / 2 + 8 * (5 * (M : ℚ) - (a : ℚ) * 2 ^ m1) * ((2 : ℚ) ^ n1)⁻¹ := by
    rw [hm1, pow_add]
    field_simp
    ring
  generalize hw : 5 * (M : ℚ) - (a : ℚ) * 2 ^ m1 = w at hdq1 hdq2 hz
  generalize hudef : ((2 : ℚ) ^ n1)⁻¹ = u at hu hupos hspec2 hx1 hz ⊢
  have hwu1 : -2 * u ≤ w * u := by nlinarith
  have hwu2 : w * u ≤ 2 * u := by nlinarith
  have hu53 : u * 2 ^ 52 < 1 := by linarith
  have hzlo : u * 2 ^ 57 ≤ (M : ℚ) * u * 40 := by
    rw [hz]
    have e57 : u * 2 ^ 57 = 32 * (u * 2 ^ 52) := by ring
    have hw8 : 8 * w * u = 8 * (w * u) := by ring
    rw [e57, hw8]
    have hbig : (16 : ℚ) * u ≤ 8 * (u * 2 ^ 52) := by
      have : (2 : ℚ) ≤ 2 ^ 52 := by norm_num
      nlinarith
    linarith
  have hzpos : 0 < (M : ℚ) * u * 40 := lt_of_lt_of_le (by positivity) hzlo
  have hzhi : (M : ℚ) * u * 40 < 2 ^ 6 := by
    rw [hz]
    have hw8 : 8 * w * u = 8 * (w * u) := by ring
    have hus : u < 1 := by
      have : (1 : ℚ) ≤ 2 ^ 52 := by norm_num
      nlinarith
    rw [hw8]
    norm_num
    linarith
  have hzabs : |(M : ℚ) * u * 40| = (M : ℚ) * u * 40 := abs_of_pos hzpos
  -- the exponent and spacing of the product
  have he2lo : f64_exponent ((a : ℚ) / 80) + 5 ≤ f64_exponent ((M : ℚ) * u * 40) := by
    apply f64_exponent_ge _ _ (by rw [hzabs]; exact hzpos)
    rw [hzabs]
    have e : (2 : ℚ) ^ (f64_exponent ((a : ℚ) / 80) + 5) = u * 2 ^ 57 := by
      have : f64_exponent ((a : ℚ) / 80) + 5 = -(n1 : ℤ) + (57 : ℕ) := by push_cast; omega
      rw [this, zpow_add₀ (by norm_num : (2 : ℚ) ≠ 0), zpow_neg, zpow_natCast, zpow_natCast,
        hudef]
    rw [e]
    exact hzlo
  have he2hi : f64_exponent ((M : ℚ) * u * 40) ≤ 5 :=
    f64_exponent_le _ 5 (by rw [hzabs]; exact hzpos) (by norm_num)
      (by rw [hzabs]; norm_num; norm_num at hzhi; exact hzhi)
  obtain ⟨n2, hn2, hn2lo, hn12⟩ : ∃ n2 : ℕ,
      f64_exponent ((M : ℚ) * u * 40) - 52 = -((n2 : ℤ) + 1) ∧ 1 ≤ n2 ∧ n2 + 6 ≤ n1 :=
    ⟨(51 - f64_exponent ((M : ℚ) * u * 40)).toNat, by omega, by omega, by omega⟩
  obtain ⟨s, hs⟩ : ∃ s : ℕ, n1 = n2 + 6 + s := ⟨n1 - n2 - 6, by omega⟩
  obtain ⟨n3, hn3⟩ : ∃ n3 : ℕ, n2 = n3 + 1 := ⟨n2 - 1, by omega⟩
  have hu2 : f64_ulp ((M : ℚ) * u * 40) = ((2 : ℚ) ^ (n2 + 1))⁻¹ := by
    unfold f64_ulp
    have : -((n2 : ℤ) + 1) = -((n2 + 1 : ℕ) : ℤ) := by push_cast; ring
    rw [hn2, this, zpow_neg, zpow_natCast]
  have hx2 := f64_round_val ((M : ℚ) * u * 40) 6 (by norm_num)
    (by rw [hzabs]; exact hzhi) (ne_of_gt hzpos)
  have hps : (1 : ℚ) ≤ 2 ^ s := one_le_pow₀ (by norm_num)
  have hdiv2 : (M : ℚ) * u * 40 / f64_ulp ((M : ℚ) * u * 40)
      = ((a * 2 ^ n2 : ℤ) : ℚ) + w / (4 * 2 ^ s) := by
    rw [hu2, hz, ← hudef, hs]
    push_cast
    rw [pow_add, pow_add, pow_add]
    field_simp
    ring
  have hA : (a * 2 ^ n2) % 2 = 0 := by
    rw [hn3, pow_succ, ← mul_assoc]
    exact Int.mul_emod_left _ _
  have ht : |w / (4 * 2 ^ s)| ≤ 1 / 2 := by
    have h4 : (0 : ℚ) < 4 * 2 ^ s := by positivity
    rw [abs_le]
    constructor
    · rw [le_div_iff₀ h4]; linarith
    · rw [div_le_iff₀ h4]; linarith
  rw [hdiv2, round_half_even_even_add _ _ hA ht, hu2] at hx2
  rw [hx2]
  congr 1
  push_cast
  rw [pow_succ]
  field_simp
  ring

theorem round_half_up_scale_div (c m : ℤ) (hm : 0 < m) :
    round_half_up ((c : ℚ) / m * 40) = (80 * c + m) / (2 * m) := by
  have hmq : (0 : ℚ) < (m : ℚ) := by exact_mod_cast hm
  have e : (c : ℚ) / m * 40 + 1 / 2 = ((80 * c + m : ℤ) : ℚ) / ((2 * m : ℤ) : ℚ) := by
    push_cast
    field_simp
    ring
  unfold round_half_up
  rw [e, floor_int_div _ _ (by omega)]

/-- When `40 c / m + 1/2` is an integer `k`, the three double operations of
the bar-length expression are exact from the multiplication on, and the bar
is `k`. -/
theorem bar_scale_tie (c m k : ℤ) (hc0 : 0 ≤ c) (hcm : c ≤ m) (hm1 : 1 ≤ m)
    (hm2 : m ≤ 200) (h : 80 * c + m = 2 * m * k) : bar_scale c m = k := by
  have hmq : (0 : ℚ) < (m : ℚ) := by exact_mod_cast (by omega : (0 : ℤ) < m)
  have ha : m * (2 * k - 1) = 80 * c := by linarith
  have ha0 : 0 ≤ 2 * k - 1 := by
    by_contra hneg
    have h1 : 2 * k - 1 ≤ -1 := by omega
    have h2 : m * (2 * k - 1) ≤ m * (-1) := Int.mul_le_mul_of_nonneg_left h1 (by omega)
    have h3 : 80 * c ≤ -m := by linarith
    omega
  have ha80 : 2 * k - 1 ≤ 80 := by
    by_contra hbig
    have h1 : 81 ≤ 2 * k - 1 := by omega
    have h2 : m * 81 ≤ m * (2 * k - 1) := Int.mul_le_mul_of_nonneg_left h1 (by omega)
    have h3 : 81 * m ≤ 80 * c := by linarith
    omega
  have hk1 : 1 ≤ k := by omega
  have hk40 : k ≤ 40 := by omega
  have hq : (c : ℚ) / m = ((2 * k - 1 : ℤ) : ℚ) / 80 := by
    rw [div_eq_div_iff (ne_of_gt hmq) (by norm_num)]
    have : ((m * (2 * k - 1) : ℤ) : ℚ) = ((80 * c : ℤ) : ℚ) := by exact_mod_cast ha
    push_cast at this ⊢
    linarith
  obtain ⟨x1, hx1, hx2⟩ := f64_round_eightieth_times_forty (2 * k - 1) (by omega) (by omega)
  have hsum : ((2 * k - 1 : ℤ) : ℚ) / 2 + 1 / 2 = ((k : ℤ) : ℚ) / 2 ^ 0 := by
    push_cast
    ring
  have hkq : (0 : ℚ) ≤ ((k : ℤ) : ℚ) / 2 ^ 0 := by
    simp only [pow_zero, div_one]
    exact_mod_cast (by omega : (0 : ℤ) ≤ k)
  unfold bar_scale
  rw [double_of_int_exact c (by rw [abs_lt]; constructor <;> omega),
    double_of_int_exact m (by rw [abs_lt]; constructor <;> omega),
    double_div_fin _ _ (ne_of_gt hmq), hq, hx1,
    double_of_int_exact _ (by simp [BAR_WIDTH])]
  have hmul : double_mul (CFloat.fin x1) (CFloat.fin (((BAR_WIDTH : ℕ) : ℤ) : ℚ))
      = f64_round (x1 * 40) := by
    simp [double_mul, BAR_WIDTH]
  rw [hmul, hx2]
  have hadd : double_add (CFloat.fin (((2 * k - 1 : ℤ) : ℚ) / 2)) (CFloat.fin (1 / 2))
      = f64_round (((2 * k - 1 : ℤ) : ℚ) / 2 + 1 / 2) := by
    simp [double_add]
  rw [hadd, hsum, f64_round_dyadic k 0 (by rw [abs_lt]; constructor <;> omega) (by norm_num),
    int_of_double_nonneg _ hkq]
  simp

/-- The grade bar length is the standard rounding of `count / max_count * 40`:
the double arithmetic of `(int)((double)c / m * BAR_WIDTH + 0.5)` gives
`round(c / m * 40)` exactly, for every count `c` and denominator `m` with
`0 <= c <= m <= 200`, `1 <= m`. -/
theorem bar_scale_round (c m : ℤ) (hc0 : 0 ≤ c) (hcm : c ≤ m) (hm1 : 1 ≤ m)
    (hm2 : m ≤ 200) : bar_scale c m = round_half_up ((c : ℚ) / m * 40) := by
  have hmq : (0 : ℚ) < (m : ℚ) := by exact_mod_cast (by omega : (0 : ℤ) < m)
  rw [round_half_up_scale_div c m (by omega)]
  have hdiv : 80 * c + m = 2 * m * ((80 * c + m) / (2 * m)) + (80 * c + m) % (2 * m) :=
    (Int.ediv_add_emod _ _).symm
  have hmod0 : 0 ≤ (80 * c + m) % (2 * m) := Int.emod_nonneg _ (by omega)
  have hmodlt : (80 * c + m) % (2 * m) < 2 * m := Int.emod_lt_of_pos _ (by omega)
  by_cases htie : (80 * c + m) % (2 * m) = 0
  · exact bar_scale_tie c m _ hc0 hcm hm1 hm2 (by rw [htie] at hdiv; linarith)
  · obtain ⟨y, hy, _, herr⟩ := bar_scale_near c m hc0 hcm hm1 hm2
    rw [hy]
    have hx : 40 * (c : ℚ) / m + 1 / 2
        = (((80 * c + m) / (2 * m) : ℤ) : ℚ)
          + (((80 * c + m) % (2 * m) : ℤ) : ℚ) / (2 * m) := by
      have hq : ((80 * c + m : ℤ) : ℚ)
          = 2 * m * (((80 * c + m) / (2 * m) : ℤ) : ℚ)
            + (((80 * c + m) % (2 * m) : ℤ) : ℚ) := by
        exact_mod_cast hdiv
      push_cast at hq
      have e : 40 * (c : ℚ) / m + 1 / 2 = (80 * (c : ℚ) + m) / (2 * m) := by
        field_simp
        ring
      rw [e, hq]
      field_simp
      ring
    rw [hx] at herr
    have hr1 : (1 : ℚ) ≤ (((80 * c + m) % (2 * m) : ℤ) : ℚ) := by
      exact_mod_cast (by omega : (1 : ℤ) ≤ (80 * c + m) % (2 * m))
    have hr2 : (((80 * c + m) % (2 * m) : ℤ) : ℚ) ≤ 2 * m - 1 := by
      exact_mod_cast (by omega : (80 * c + m) % (2 * m) ≤ 2 * m - 1)
    have hm200 : (m : ℚ) ≤ 200 := by exact_mod_cast hm2
    have h2m : (0 : ℚ) < 2 * m := by linarith
    have hlo : (1 : ℚ) / 400 ≤ (((80 * c + m) % (2 * m) : ℤ) : ℚ) / (2 * m) := by
      rw [le_div_iff₀ h2m]
      linarith
    have hhi : (((80 * c + m) % (2 * m) : ℤ) : ℚ) / (2 * m) ≤ 1 - 1 / 400 := by
      rw [div_le_iff₀ h2m]
      nlinarith
    apply floor_stable _ y (1 / 2 ^ 46) _ herr
    · have : (1 : ℚ) / 2 ^ 46 ≤ 1 / 400 := by norm_num
      linarith
    · have : (1 : ℚ) / 2 ^ 46 < 1 / 400 := by norm_num
      linarith

/-! ## The claims -/

/-- C1: for every record with 5 integer marks, `calculate_result` replaces each
mark `m` by `max(0, min(100, m))`, so that afterwards every mark lies in
`[0,100]`, and sets `total` to the sum of the 5 clamped marks. -/
theorem calculate_result_clamps_and_totals (s : Student)
    (h : s.marks.length = SUBJECTS) :
    (calculate_result s).marks = s.marks.map clamp_mark ∧
    (calculate_result s).marks.length = SUBJECTS ∧
    (∀ m ∈ (calculate_result s).marks, 0 ≤ m ∧ m ≤ 100) ∧
    (calculate_result s).total = (s.marks.map clamp_mark).sum := by
  have hl := calc_loop_eq s.marks h
  refine ⟨?_, ?_, ?_, ?_⟩
  · simp [calculate_result, hl]
  · simp [calculate_result, hl, h]
  · intro m hm
    have hm2 : m ∈ s.marks.map clamp_mark := by simpa [calculate_result, hl] using hm
    obtain ⟨x, _, rfl⟩ := List.mem_map.1 hm2
    exact clamp_mark_bounds x
  · simp [calculate_result, hl]

theorem calculate_result_clamps_and_totals_witness :
    ([-5, 150, 50, 0, 100] : List Int).length = SUBJECTS ∧
    (calculate_result
        { roll := 7, name := "x", marks := [-5, 150, 50, 0, 100], total := 0,
          percentage := CFloat.fin 0, grade := 'F' }).marks = [0, 100, 50, 0, 100] ∧
    (calculate_result
        { roll := 7, name := "x", marks := [-5, 150, 50, 0, 100], total := 0,
          percentage := CFloat.fin 0, grade := 'F' }).total = 250 :=
  ⟨rfl,
   (calculate_result_clamps_and_totals
      { roll := 7, name := "x", marks := [-5, 150, 50, 0, 100], total := 0,
        percentage := CFloat.fin 0, grade := 'F' } rfl).1.trans (by decide),
   (calculate_result_clamps_and_totals
      { roll := 7, name := "x", marks := [-5, 150, 50, 0, 100], total := 0,
        percentage := CFloat.fin 0, grade := 'F' } rfl).2.2.2.trans (by decide)⟩

/-- C2: for every record with 5 marks, after `calculate_result` the percentage
is the float quotient `(float)total / SUBJECTS` with `SUBJECTS = 5` (a finite
value within `2^-18` of the exact `total / 5`) and lies in `[0,100]`, the grade
is `compute_grade(percentage)`, and over the integer total the grade is 'A'
iff `total >= 425`, 'B' iff `350 <= total < 425`, 'C' iff `275 <= total < 350`,
'D' iff `200 <= total < 275`, 'F' iff `total < 200`. -/
theorem calculate_result_percentage_and_grade (s : Student)
    (h : s.marks.length = SUBJECTS) :
    (calculate_result s).percentage
      = CFloat.div_pos (float_of_int (calculate_result s).total) (SUBJECTS : ℚ) ∧
    (∃ p : ℚ, (calculate_result s).percentage = CFloat.fin p ∧
      |p - ((calculate_result s).total : ℚ) / 5| ≤ 1 / 2 ^ 18 ∧ 0 ≤ p ∧ p ≤ 100) ∧
    (calculate_result s).grade = compute_grade (calculate_result s).percentage ∧
    ((calculate_result s).grade = 'A' ↔ 425 ≤ (calculate_result s).total) ∧
    ((calculate_result s).grade = 'B' ↔
      350 ≤ (calculate_result s).total ∧ (calculate_result s).total < 425) ∧
    ((calculate_result s).grade = 'C' ↔
      275 ≤ (calculate_result s).total ∧ (calculate_result s).total < 350) ∧
    ((calculate_result s).grade = 'D' ↔
      200 ≤ (calculate_result s).total ∧ (calculate_result s).total < 275) ∧
    ((calculate_result s).grade = 'F' ↔ (calculate_result s).total < 200) := by
  have hl := calc_loop_eq s.marks h
  have hb := clamped_sum_bounds s.marks
  rw [h] at hb
  have ht : (calculate_result s).total = (s.marks.map clamp_mark).sum := by
    simp [calculate_result, hl]
  have hp : (calculate_result s).percentage
      = CFloat.div_pos (float_of_int (calculate_result s).total) (SUBJECTS : ℚ) := by
    simp [calculate_result]
  have hg : (calculate_result s).grade = compute_grade (calculate_result s).percentage := by
    simp [calculate_result]
  have h0 : 0 ≤ (calculate_result s).total := by rw [ht]; exact hb.1
  have h1 : (calculate_result s).total ≤ 500 := by
    rw [ht]; have := hb.2; simp only [SUBJECTS] at this; omega
  obtain ⟨p, hr, herr, hp0, hp1, hc⟩ := f32_round_fifth _ h0 h1
  have hpp : (calculate_result s).percentage = CFloat.fin p := by
    rw [hp, percentage_of_total _ h0 h1, hr]
  have c85 := hc 85
  have c70 := hc 70
  have c55 := hc 55
  have c40 := hc 40
  norm_num at c85 c70 c55 c40
  have lt_iff : ∀ {c : ℚ} {d : ℤ}, (c ≤ p ↔ d ≤ (calculate_result s).total) →
      (p < c ↔ (calculate_result s).total < d) :=
    fun hcd => not_le.symm.trans ((not_congr hcd).trans not_le)
  obtain ⟨gA, gB, gC, gD, gF⟩ := grade_of_fin_iff p
  refine ⟨hp, ⟨p, hpp, herr, hp0, hp1⟩, hg, ?_⟩
  rw [hg, hpp]
  exact ⟨gA.trans c85, gB.trans (and_congr c70 (lt_iff c85)),
    gC.trans (and_congr c55 (lt_iff c70)), gD.trans (and_congr c40 (lt_iff c55)),
    gF.trans (lt_iff c40)⟩

theorem calculate_result_percentage_and_grade_witness :
    ([88, 76, 92, 85, 95] : List Int).length = SUBJECTS ∧
    (calculate_result
        { roll := 1, name := "Asha", marks := [88, 76, 92, 85, 95], total := 0,
          percentage := CFloat.fin 0, grade := 'F' }).total = 436 ∧
    (calculate_result
        { roll := 1, name := "Asha", marks := [88, 76, 92, 85, 95], total := 0,
          percentage := CFloat.fin 0, grade := 'F' }).grade = 'A' :=
  ⟨rfl, by decide,
   (calculate_result_percentage_and_grade
      { roll := 1, name := "Asha", marks := [88, 76, 92, 85, 95], total := 0,
        percentage := CFloat.fin 0, grade := 'F' } rfl).2.2.2.1.2 (by decide)⟩

/-- C3: `compute_grade` is a total function of the float percentage that
applies the thresholds in descending order, first match winning: a finite
percentage gets 'A' iff it is `>= 85`, 'B' iff in `[70,85)`, 'C' iff in
`[55,70)`, 'D' iff in `[40,55)`, 'F' iff `< 40`; 85.0 gives 'A', 84.999 gives
'B' (as a real and as the float nearest to it), 70.0 gives 'B', 55.0 gives
'C', 40.0 gives 'D', 39.999 gives 'F'; and on every float, NaN and the
infinities included, the result is one of A, B, C, D, F. -/
theorem compute_grade_thresholds :
    (∀ q : ℚ, (compute_grade (CFloat.fin q) = 'A' ↔ 85 ≤ q) ∧
      (compute_grade (CFloat.fin q) = 'B' ↔ 70 ≤ q ∧ q < 85) ∧
      (compute_grade (CFloat.fin q) = 'C' ↔ 55 ≤ q ∧ q < 70) ∧
      (compute_grade (CFloat.fin q) = 'D' ↔ 40 ≤ q ∧ q < 55) ∧
      (compute_grade (CFloat.fin q) = 'F' ↔ q < 40)) ∧
    compute_grade (CFloat.fin 85) = 'A' ∧
    compute_grade (CFloat.fin (84999 / 1000)) = 'B' ∧
    compute_grade (f32_round (84999 / 1000)) = 'B' ∧
    compute_grade (CFloat.fin 70) = 'B' ∧
    compute_grade (CFloat.fin 55) = 'C' ∧
    compute_grade (CFloat.fin 40) = 'D' ∧
    compute_grade (CFloat.fin (39999 / 1000)) = 'F' ∧
    compute_grade (f32_round (39999 / 1000)) = 'F' ∧
    (∀ x : CFloat, compute_grade x ∈ ['A', 'B', 'C', 'D', 'F']) := by
  refine ⟨?_, ?_, ?_, ?_, ?_, ?_, ?_, ?_, ?_, ?_⟩
  · exact grade_of_fin_iff
  · rw [compute_grade_fin]; norm_num
  · rw [compute_grade_fin]; norm_num
  · obtain ⟨r, hr, herr⟩ := f32_round_near (84999 / 1000) (by norm_num) (by norm_num)
    have hb := abs_le.1 herr
    norm_num at hb
    rw [hr, compute_grade_fin, if_neg (by linarith [hb.2]), if_pos (by linarith [hb.1])]
  · rw [compute_grade_fin]; norm_num
  · rw [compute_grade_fin]; norm_num
  · rw [compute_grade_fin]; norm_num
  · rw [compute_grade_fin]; norm_num
  · obtain ⟨r, hr, herr⟩ := f32_round_near (39999 / 1000) (by norm_num) (by norm_num)
    have hb := abs_le.1 herr
    norm_num at hb
    rw [hr, compute_grade_fin, if_neg (by linarith [hb.2]), if_neg (by linarith [hb.2]),
      if_neg (by linarith [hb.2]), if_neg (by linarith [hb.2])]
  · intro x
    unfold compute_grade
    split_ifs <;> simp

/-- C4 (counterexample): on the full store, whose first record has roll 1, an
add with roll 1 is answered with the list-full message, not with the
duplicate-roll one. -/
theorem add_student_present_roll_full_store :
    full_store.has_roll 1 ∧
    ¬ ((add_student full_store 1 "Asha" [88, 76, 92, 85, 79]).1 = full_store ∧
       (add_student full_store 1 "Asha" [88, 76, 92, 85, 79]).2 = Signal.roll_exists) := by
  constructor
  · decide
  · intro h
    exact absurd h.2 (by decide)

/-- C4 (amended): for every store and every roll present in it, add with that
roll leaves the store (array and count) unchanged; it signals the duplicate
roll when the store holds fewer than `MAX_STUDENTS` records, and the full list
otherwise, the capacity being checked before the roll is asked for. -/
theorem add_student_present_roll (st : Store) (roll : Int) (name : String)
    (marks : List Int) (h : st.has_roll roll) :
    (add_student st roll name marks).1 = st ∧
    (add_student st roll name marks).2 =
      if st.student_count < (MAX_STUDENTS : Int) then Signal.roll_exists
      else Signal.list_full := by
  obtain ⟨k, s, hk, _⟩ := find_index_of_has_roll st roll h
  have hne : find_index_by_roll st roll ≠ -1 := by rw [hk]; omega
  unfold add_student
  by_cases hc : st.student_count ≥ (MAX_STUDENTS : Int)
  · rw [if_pos hc, if_neg (by omega)]
    exact ⟨rfl, rfl⟩
  · rw [if_neg hc, if_pos hne, if_pos (by omega)]
    exact ⟨rfl, rfl⟩

theorem add_student_present_roll_witness :
    demo_store.has_roll 3 ∧
    (add_student demo_store 3 "Amit Roy" [1, 2, 3, 4, 5]).1 = demo_store ∧
    (add_student demo_store 3 "Amit Roy" [1, 2, 3, 4, 5]).2 = Signal.roll_exists :=
  ⟨by decide,
   (add_student_present_roll demo_store 3 "Amit Roy" [1, 2, 3, 4, 5] (by decide)).1,
   (add_student_present_roll demo_store 3 "Amit Roy" [1, 2, 3, 4, 5] (by decide)).2.trans
     (by decide)⟩

/-- C5: for every store with fewer than 200 records and every roll not present
in it, add with 5 marks succeeds: the new record sequence is the old one,
unchanged and in the same order, followed by one new record carrying that roll
and name, the clamped marks, and the total, percentage and grade derived from
them; the count grows by exactly 1. -/
theorem add_student_appends (st : Store) (roll : Int) (name : String)
    (marks : List Int) (hwf : st.wf) (hlt : st.student_count < (MAX_STUDENTS : Int))
    (hnew : ¬ st.has_roll roll) (hm : marks.length = SUBJECTS) :
    (add_student st roll name marks).2 = Signal.added ∧
    (add_student st roll name marks).1.student_count = st.student_count + 1 ∧
    (add_student st roll name marks).1.records = st.records ++
      [{ roll := roll, name := name, marks := marks.map clamp_mark,
         total := (marks.map clamp_mark).sum,
         percentage :=
           CFloat.div_pos (float_of_int (marks.map clamp_mark).sum) (SUBJECTS : ℚ),
         grade := compute_grade
           (CFloat.div_pos (float_of_int (marks.map clamp_mark).sum) (SUBJECTS : ℚ)) }] := by
  have hfind := find_index_of_not_has_roll st roll (wf_count_le st hwf) hnew
  obtain ⟨hlen, h0, _⟩ := hwf
  have hn : st.student_count.toNat < st.students.length := by rw [hlen]; omega
  have hsucc : (st.student_count + 1).toNat = st.student_count.toNat + 1 := by omega
  unfold add_student
  rw [if_neg (by omega), if_neg (by rw [hfind]; simp)]
  refine ⟨rfl, rfl, ?_⟩
  simp only [Store.records]
  rw [hsucc, take_succ_set _ _ _ hn]
  simp [calculate_result, calc_loop_eq marks hm]

theorem add_student_appends_witness :
    demo_store.wf ∧ demo_store.student_count < (MAX_STUDENTS : Int) ∧
    ¬ demo_store.has_roll 9 ∧ ([120, -3, 70, 80, 90] : List Int).length = SUBJECTS ∧
    (add_student demo_store 9 "Asha" [120, -3, 70, 80, 90]).2 = Signal.added ∧
    (add_student demo_store 9 "Asha" [120, -3, 70, 80, 90]).1.student_count = 6 :=
  ⟨demo_store_wf, by decide, by decide, rfl,
   (add_student_appends demo_store 9 "Asha" [120, -3, 70, 80, 90]
      demo_store_wf (by decide) (by decide) rfl).1,
   (add_student_appends demo_store 9 "Asha" [120, -3, 70, 80, 90]
      demo_store_wf (by decide) (by decide) rfl).2.1.trans (by decide)⟩

/-- C6: the store size never exceeds the capacity of 200: for every store with
`0 <= count <= 200`, each of add, modify, delete, sort (whatever the library
sort does to the slots) and load-demo yields a store with `0 <= count <= 200`;
and add on a store holding exactly 200 records is rejected with the list-full
signal and leaves the store unchanged. -/
theorem count_within_capacity
    (qsort : List Student → (Student → Student → Int) → List Student)
    (st : Store) (op : Op) (h0 : 0 ≤ st.student_count)
    (h1 : st.student_count ≤ (MAX_STUDENTS : Int)) :
    (0 ≤ (apply_op qsort st op).student_count ∧
      (apply_op qsort st op).student_count ≤ (MAX_STUDENTS : Int)) ∧
    (st.student_count = (MAX_STUDENTS : Int) →
      ∀ (roll : Int) (name : String) (marks : List Int),
        add_student st roll name marks = (st, Signal.list_full)) := by
  constructor
  · cases op with
    | add roll name marks =>
      simp only [apply_op, add_student]
      split_ifs with ha hb
      · exact ⟨h0, h1⟩
      · exact ⟨h0, h1⟩
      · simp only []
        omega
    | modify roll xs =>
      simp only [apply_op, modify_marks]
      split_ifs
      · exact ⟨h0, h1⟩
      · exact ⟨h0, h1⟩
    | delete roll =>
      simp only [apply_op, delete_student]
      split_ifs with ha
      · exact ⟨h0, h1⟩
      · have := find_index_count_pos st roll ha
        simp only []
        omega
    | sort =>
      simp only [apply_op, sort_by_percentage]
      split_ifs
      · exact ⟨h0, h1⟩
      · exact ⟨h0, h1⟩
    | load_demo =>
      simp only [apply_op, load_demo_data]
      exact demo_loop_count _ st h0 h1
  · intro hfull roll name marks
    unfold add_student
    rw [if_pos (by omega)]

theorem count_within_capacity_witness :
    0 ≤ full_store.student_count ∧ full_store.student_count ≤ (MAX_STUDENTS : Int) ∧
    (apply_op (fun l _ => l) full_store (Op.add 201 "Asha" [1, 2, 3, 4, 5])).student_count
      ≤ (MAX_STUDENTS : Int) ∧
    add_student full_store 201 "Asha" [1, 2, 3, 4, 5] = (full_store, Signal.list_full) :=
  ⟨by decide, by decide,
   (count_within_capacity (fun l _ => l) full_store (Op.add 201 "Asha" [1, 2, 3, 4, 5])
      (by decide) (by decide)).1.2,
   (count_within_capacity (fun l _ => l) full_store Op.sort
      (by decide) (by decide)).2 (by decide) 201 "Asha" [1, 2, 3, 4, 5]⟩

/-- C7 (failing input): from the empty store, loading the demo fixture twice
leaves ten records whose rolls are 1 to 5 twice over, so two records share a
roll; `load_demo_data` appends without the duplicate check `add_student`
makes. -/
theorem load_demo_twice_duplicates_rolls
    (qsort : List Student → (Student → Student → Int) → List Student) :
    (run_ops qsort Store.empty [Op.load_demo, Op.load_demo]).records.map Student.roll
      = [1, 2, 3, 4, 5, 1, 2, 3, 4, 5] ∧
    ¬ ((run_ops qsort Store.empty [Op.load_demo, Op.load_demo]).records.map
        Student.roll).Nodup := by
  have e : (run_ops qsort Store.empty [Op.load_demo, Op.load_demo]).records.map Student.roll
      = [1, 2, 3, 4, 5, 1, 2, 3, 4, 5] := by
    simp only [run_ops, List.foldl, apply_op]
    decide
  rw [e]
  exact ⟨rfl, by decide⟩

/-- C8: for every store and every roll present in it, delete removes exactly
one record, the one at the first position `k` whose roll matches: the
resulting record sequence is the old one with position `k` erased, so that all
other records are unchanged and keep their relative order, and the count
decreases by exactly 1. -/
theorem delete_student_erases_first_match (st : Store) (roll : Int) (hwf : st.wf)
    (h : st.has_roll roll) :
    ∃ k : Nat, k < st.records.length ∧
      (∃ s, st.records[k]? = some s ∧ s.roll = roll) ∧
      (∀ j, j < k → ∀ s2, st.records[j]? = some s2 → s2.roll ≠ roll) ∧
      (delete_student st roll).1.records = st.records.eraseIdx k ∧
      (delete_student st roll).1.records.length + 1 = st.records.length ∧
      (delete_student st roll).1.student_count = st.student_count - 1 ∧
      (delete_student st roll).2 = Signal.deleted := by
  obtain ⟨k, s, hk, hkc, hs, hr, hfirst⟩ := find_index_of_has_roll st roll h
  have hle := wf_count_le st hwf
  have hreclen : st.records.length = st.student_count.toNat := by
    simp only [Store.records, List.length_take]; omega
  have hrec : ∀ j, j < st.student_count.toNat → st.records[j]? = st.students[j]? := by
    intro j hj
    simp only [Store.records]
    rw [List.getElem?_take, if_pos hj]
  have hne : find_index_by_roll st roll ≠ -1 := by rw [hk]; omega
  have hd : delete_student st roll =
      ({ students := shift_loop st.students (st.student_count.toNat - 1 - k) k,
         student_count := st.student_count - 1 }, Signal.deleted) := by
    unfold delete_student
    simp only []
    rw [if_neg hne, hk]
    have e1 : (st.student_count - 1 - (k : Int)).toNat = st.student_count.toNat - 1 - k := by
      omega
    rw [e1, Int.toNat_ofNat]
  have herase : (delete_student st roll).1.records = st.records.eraseIdx k := by
    rw [hd]
    simp only [Store.records]
    have e2 : (st.student_count - 1).toNat = st.student_count.toNat - 1 := by omega
    rw [e2]
    apply List.ext_getElem?
    intro j
    rw [List.getElem?_take, List.getElem?_eraseIdx, List.getElem?_take, List.getElem?_take,
      shift_loop_getElem? _ _ _ (by omega)]
    by_cases hjk : j < k
    · have a1 : j < st.student_count.toNat - 1 := by omega
      have a2 : ¬ (k ≤ j ∧ j < k + (st.student_count.toNat - 1 - k)) := by omega
      have a3 : j < st.student_count.toNat := by omega
      rw [if_pos a1, if_neg a2, if_pos hjk, if_pos a3]
    · by_cases hjc : j + 1 < st.student_count.toNat
      · have a1 : j < st.student_count.toNat - 1 := by omega
        have a2 : k ≤ j ∧ j < k + (st.student_count.toNat - 1 - k) := by omega
        rw [if_pos a1, if_pos a2, if_neg hjk, if_pos hjc]
      · have a1 : ¬ j < st.student_count.toNat - 1 := by omega
        rw [if_neg a1, if_neg hjk, if_neg hjc]
  refine ⟨k, by omega, ⟨s, by rw [hrec k hkc]; exact hs, hr⟩, ?_, herase, ?_, ?_, ?_⟩
  · intro j hj s2 hs2
    rw [hrec j (by omega)] at hs2
    exact hfirst j hj s2 hs2
  · rw [herase, List.length_eraseIdx, if_pos (by omega)]
    omega
  · rw [hd]
  · rw [hd]

theorem delete_student_erases_first_match_witness :
    demo_store.wf ∧ demo_store.has_roll 2 ∧
    ∃ k : Nat, k < demo_store.records.length ∧
      (∃ s, demo_store.records[k]? = some s ∧ s.roll = 2) ∧
      (∀ j, j < k → ∀ s2, demo_store.records[j]? = some s2 → s2.roll ≠ 2) ∧
      (delete_student demo_store 2).1.records = demo_store.records.eraseIdx k ∧
      (delete_student demo_store 2).1.records.length + 1 = demo_store.records.length ∧
      (delete_student demo_store 2).1.student_count = demo_store.student_count - 1 ∧
      (delete_student demo_store 2).2 = Signal.deleted :=
  ⟨demo_store_wf, by decide,
   delete_student_erases_first_match demo_store 2 demo_store_wf (by decide)⟩

/-- C9: for every store whose records have 5 marks in `[0,100]`, every roll
present in it and every 5 supplied integers `xs`, modify sets mark `i` of the
first record with that roll to `xs[i]` when `0 <= xs[i] <= 100` and retains the
existing mark otherwise (negative and above 100 alike), then recomputes total,
percentage and grade from the resulting marks; the record's roll and name, the
count, and every other slot of the array are unchanged. -/
theorem modify_marks_updates_record (st : Store) (roll : Int) (xs : List Int)
    (hmarks : ∀ s ∈ st.records, s.marks.length = SUBJECTS ∧ ∀ m ∈ s.marks, 0 ≤ m ∧ m ≤ 100)
    (h : st.has_roll roll) (hx : xs.length = SUBJECTS) :
    ∃ (k : Nat) (s : Student), st.records[k]? = some s ∧ s.roll = roll ∧
      (∀ j, j < k → ∀ s2, st.records[j]? = some s2 → s2.roll ≠ roll) ∧
      (modify_marks st roll xs).1.students = st.students.set k
        { roll := s.roll, name := s.name,
          marks := List.zipWith keep_or_replace s.marks xs,
          total := (List.zipWith keep_or_replace s.marks xs).sum,
          percentage := CFloat.div_pos
            (float_of_int (List.zipWith keep_or_replace s.marks xs).sum) (SUBJECTS : ℚ),
          grade := compute_grade (CFloat.div_pos
            (float_of_int (List.zipWith keep_or_replace s.marks xs).sum) (SUBJECTS : ℚ)) } ∧
      (modify_marks st roll xs).1.student_count = st.student_count ∧
      (modify_marks st roll xs).2 = Signal.updated := by
  obtain ⟨k, s, hk, hkc, hs, hr, hfirst⟩ := find_index_of_has_roll st roll h
  have hrec : ∀ j, j < st.student_count.toNat → st.records[j]? = st.students[j]? := by
    intro j hj
    simp only [Store.records]
    rw [List.getElem?_take, if_pos hj]
  have hsrec : st.records[k]? = some s := by rw [hrec k hkc]; exact hs
  have hmem : s ∈ st.records := List.mem_iff_getElem?.2 ⟨k, hsrec⟩
  obtain ⟨hlen, hb⟩ := hmarks s hmem
  have hne : find_index_by_roll st roll ≠ -1 := by rw [hk]; omega
  have hloop := modify_loop_eq xs s.marks hx hlen
  have hzlen : (List.zipWith keep_or_replace s.marks xs).length = SUBJECTS := by
    rw [List.length_zipWith, hlen, hx]; simp
  have hzb := zipWith_keep_or_replace_bounds s.marks xs hb
  have hcalc := calc_loop_eq _ hzlen
  rw [map_clamp_mark_of_bounds _ hzb] at hcalc
  refine ⟨k, s, hsrec, hr, ?_, ?_, ?_, ?_⟩
  · intro j hj s2 hs2
    rw [hrec j (by omega)] at hs2
    exact hfirst j hj s2 hs2
  · unfold modify_marks
    simp only []
    rw [if_neg hne, hk, Int.toNat_ofNat, getD_of_getElem? _ _ _ hs]
    simp only [calculate_result, hloop, hcalc]
  · unfold modify_marks
    simp only []
    rw [if_neg hne]
  · unfold modify_marks
    simp only []
    rw [if_neg hne]

theorem modify_marks_updates_record_witness :
    (∀ s ∈ demo_store.records,
      s.marks.length = SUBJECTS ∧ ∀ m ∈ s.marks, 0 ≤ m ∧ m ≤ 100) ∧
    demo_store.has_roll 1 ∧ ([-1, 150, -1, -1, 95] : List Int).length = SUBJECTS ∧
    ∃ (k : Nat) (s : Student), demo_store.records[k]? = some s ∧ s.roll = 1 ∧
      (∀ j, j < k → ∀ s2, demo_store.records[j]? = some s2 → s2.roll ≠ 1) ∧
      (modify_marks demo_store 1 [-1, 150, -1, -1, 95]).1.students = demo_store.students.set k
        { roll := s.roll, name := s.name,
          marks := List.zipWith keep_or_replace s.marks [-1, 150, -1, -1, 95],
          total := (List.zipWith keep_or_replace s.marks [-1, 150, -1, -1, 95]).sum,
          percentage := CFloat.div_pos
            (float_of_int (List.zipWith keep_or_replace s.marks [-1, 150, -1, -1, 95]).sum)
            (SUBJECTS : ℚ),
          grade := compute_grade (CFloat.div_pos
            (float_of_int (List.zipWith keep_or_replace s.marks [-1, 150, -1, -1, 95]).sum)
            (SUBJECTS : ℚ)) } ∧
      (modify_marks demo_store 1 [-1, 150, -1, -1, 95]).1.student_count
        = demo_store.student_count ∧
      (modify_marks demo_store 1 [-1, 150, -1, -1, 95]).2 = Signal.updated :=
  ⟨by decide, by decide, rfl,
   modify_marks_updates_record demo_store 1 [-1, 150, -1, -1, 95] (by decide) (by decide) rfl⟩

/-- C10: for every store and every roll not present in it, modify and delete
each signal not-found and leave the store (every slot of the array and the
count) unchanged. -/
theorem modify_delete_unknown_roll (st : Store) (roll : Int) (xs : List Int)
    (hwf : st.wf) (h : ¬ st.has_roll roll) :
    modify_marks st roll xs = (st, Signal.not_found) ∧
    delete_student st roll = (st, Signal.not_found) := by
  have hfind := find_index_of_not_has_roll st roll (wf_count_le st hwf) h
  constructor
  · unfold modify_marks
    simp only []
    rw [if_pos hfind]
  · unfold delete_student
    simp only []
    rw [if_pos hfind]

theorem modify_delete_unknown_roll_witness :
    demo_store.wf ∧ ¬ demo_store.has_roll 42 ∧
    modify_marks demo_store 42 [10, 20, 30, 40, 50] = (demo_store, Signal.not_found) ∧
    delete_student demo_store 42 = (demo_store, Signal.not_found) :=
  ⟨demo_store_wf, by decide,
   modify_delete_unknown_roll demo_store 42 [10, 20, 30, 40, 50] demo_store_wf (by decide)⟩

/-- C11 (counterexample): on a store of two records, one of them with a NaN
percentage, the comparator is consistent (every comparison gives 0), and
whatever order a `qsort` meeting its contract leaves, the adjacent pair fails
`r[0].percentage >= r[1].percentage`, a comparison with NaN being false. -/
theorem sort_by_percentage_nan_store :
    cmp_consistent cmp_percentage_desc nan_store.records ∧
    ∀ qsort : List Student → (Student → Student → Int) → List Student,
      qsort_contract qsort → ¬ sorted_desc (sort_by_percentage qsort nan_store).1.records := by
  have hrec : nan_store.records = [nan_record, one_record] := by decide
  have hzero : ∀ a ∈ nan_store.records, ∀ b ∈ nan_store.records,
      cmp_percentage_desc a b = 0 := by
    rw [hrec]
    decide
  have hcons : cmp_consistent cmp_percentage_desc nan_store.records := by
    constructor
    · intro a ha b hb
      rw [hzero a ha b hb, hzero b hb a ha]
      simp
    · intro a ha b hb c hc _ _
      rw [hzero a ha c hc]
  refine ⟨hcons, ?_⟩
  intro qsort hq hsorted
  obtain ⟨hr, _, _, _⟩ := sort_by_percentage_records qsort hq nan_store hcons (by decide)
  rw [hr] at hsorted
  have hperm := (hq nan_store.records cmp_percentage_desc hcons).1
  generalize qsort nan_store.records cmp_percentage_desc = q at hperm hsorted
  rw [hrec] at hperm
  obtain ⟨x, y, rfl⟩ := List.length_eq_two.1 hperm.length_eq
  have h0 := hsorted 0 x y rfl rfl
  have hmem : nan_record ∈ [x, y] := hperm.mem_iff.2 (by simp)
  have hn : nan_record.percentage = CFloat.nan := rfl
  rcases List.mem_cons.1 hmem with h1 | h1
  · rw [← h1, hn] at h0
    simp [CFloat.ge] at h0
  · rw [List.mem_singleton] at h1
    rw [← h1, hn] at h0
    cases hx : x.percentage <;> simp [hx, CFloat.ge] at h0

/-- C11 (amended): for every store whose records' percentages are not NaN (as
for every record written by `calculate_result`), and a `qsort` meeting the
contract of the C standard, after `sort_by_percentage` the records are in
non-increasing order of percentage: for every adjacent pair,
`r[i].percentage >= r[i+1].percentage`; on a store with 0 or 1 records the
operation changes nothing. -/
theorem sort_by_percentage_sorted
    (qsort : List Student → (Student → Student → Int) → List Student)
    (hq : qsort_contract qsort) (st : Store)
    (hnan : ∀ s ∈ st.records, s.percentage ≠ CFloat.nan) :
    sorted_desc (sort_by_percentage qsort st).1.records ∧
    (st.student_count ≤ 1 → (sort_by_percentage qsort st).1 = st) := by
  by_cases hle : st.student_count ≤ 1
  · have hs : (sort_by_percentage qsort st).1 = st := by
      unfold sort_by_percentage
      rw [if_pos hle]
    refine ⟨?_, fun _ => hs⟩
    rw [hs]
    intro i a b _ hb
    have hlen : i + 1 < st.records.length := (List.getElem?_eq_some.1 hb).1
    simp only [Store.records, List.length_take] at hlen
    omega
  · refine ⟨?_, fun h => absurd h hle⟩
    have hcons := cmp_percentage_desc_consistent _ hnan
    obtain ⟨hr, _, _, _⟩ := sort_by_percentage_records qsort hq st hcons hle
    have hc := hq st.records cmp_percentage_desc hcons
    rw [hr]
    exact pairwise_cmp_sorted_desc _ (fun s hs => hnan s (hc.1.mem_iff.1 hs)) hc.2

theorem sort_by_percentage_sorted_witness :
    qsort_contract insertion_sort ∧
    (∀ s ∈ two_store.records, s.percentage ≠ CFloat.nan) ∧
    sorted_desc (sort_by_percentage insertion_sort two_store).1.records ∧
    (sort_by_percentage insertion_sort two_store).1.records.map Student.roll = [2, 1] :=
  ⟨insertion_sort_contract, by decide,
   (sort_by_percentage_sorted insertion_sort insertion_sort_contract two_store
      (by decide)).1,
   by decide⟩

/-- C13: derived fields are always consistent with the marks: for every store
reachable from the empty store by a sequence of add (with 5 marks), modify,
delete, sort (by a `qsort` meeting its contract) and load-demo operations,
every record has 5 marks, all in `[0,100]`, total equal to their sum,
percentage equal to the float quotient `(float)total / 5` (a finite value
within `2^-18` of the exact quotient) and grade equal to
`compute_grade(percentage)`. -/
theorem derived_fields_consistent
    (qsort : List Student → (Student → Student → Int) → List Student)
    (hq : qsort_contract qsort) (ops : List Op) (hv : ∀ op ∈ ops, op.valid) :
    ∀ s ∈ (run_ops qsort Store.empty ops).records,
      s.marks.length = SUBJECTS ∧ (∀ m ∈ s.marks, 0 ≤ m ∧ m ≤ 100) ∧
      s.total = s.marks.sum ∧
      s.percentage = CFloat.div_pos (float_of_int s.total) (SUBJECTS : ℚ) ∧
      (∃ p : ℚ, s.percentage = CFloat.fin p ∧ |p - (s.total : ℚ) / 5| ≤ 1 / 2 ^ 18) ∧
      s.grade = compute_grade s.percentage := by
  intro s hs
  have hc := (inv_run_ops qsort hq ops hv Store.empty inv_store_empty).2 s hs
  obtain ⟨hm, ht, hp, hg⟩ := hc
  have hb := total_bounds_of_marks s ⟨hm, ht⟩
  obtain ⟨p, hr, herr, _⟩ := f32_round_fifth s.total hb.1 hb.2
  exact ⟨hm.1, hm.2, ht, hp,
    ⟨p, by rw [hp, percentage_of_total _ hb.1 hb.2, hr], herr⟩, hg⟩

theorem derived_fields_consistent_witness :
    qsort_contract insertion_sort ∧
    (∀ op ∈ [Op.load_demo, Op.add 9 "Asha" [120, -3, 70, 80, 90],
        Op.modify 2 [-1, 150, 30, -1, 95], Op.sort, Op.delete 4], op.valid) ∧
    ∀ s ∈ (run_ops insertion_sort Store.empty
        [Op.load_demo, Op.add 9 "Asha" [120, -3, 70, 80, 90],
         Op.modify 2 [-1, 150, 30, -1, 95], Op.sort, Op.delete 4]).records,
      s.marks.length = SUBJECTS ∧ (∀ m ∈ s.marks, 0 ≤ m ∧ m ≤ 100) ∧
      s.total = s.marks.sum ∧
      s.percentage = CFloat.div_pos (float_of_int s.total) (SUBJECTS : ℚ) ∧
      (∃ p : ℚ, s.percentage = CFloat.fin p ∧ |p - (s.total : ℚ) / 5| ≤ 1 / 2 ^ 18) ∧
      s.grade = compute_grade s.percentage :=
  ⟨insertion_sort_contract, by decide,
   derived_fields_consistent insertion_sort insertion_sort_contract
     [Op.load_demo, Op.add 9 "Asha" [120, -3, 70, 80, 90],
      Op.modify 2 [-1, 150, 30, -1, 95], Op.sort, Op.delete 4] (by decide)⟩

/-- C14: for every non-empty store, `class_analysis` counts the records per
grade bucket A, B, C, D, F, bucket F receiving every record whose grade is
none of A, B, C, D; the five counts sum to `student_count`, so the bar
denominator `max_grade_count` is at least 1 and is the largest bucket count;
each grade bar length, computed in double arithmetic as
`(int)(count / max_count * 40 + 0.5)`, is exactly the standard rounding
`round(count / max_count * 40)` of the exact quotient, lies in `[0, 40]`, and
is exactly 40 for a bucket holding the largest count. -/
theorem grade_distribution_bars (st : Store) (hwf : st.wf) (hne : st.student_count ≠ 0) :
    ∃ a : Analysis, class_analysis st = some a ∧
      a.grades_count =
        [grade_count st.records 'A', grade_count st.records 'B',
         grade_count st.records 'C', grade_count st.records 'D',
         other_grade_count st.records] ∧
      a.grades_count.sum = st.student_count ∧
      1 ≤ max_grade_count a.grades_count ∧
      (∀ i, i < 5 → a.grades_count.getD i 0 ≤ max_grade_count a.grades_count) ∧
      (∃ i, i < 5 ∧ a.grades_count.getD i 0 = max_grade_count a.grades_count) ∧
      ∀ i, i < 5 → ∃ b : Int, a.grade_bar[i]? = some b ∧
        b = bar_scale (a.grades_count.getD i 0) (max_grade_count a.grades_count) ∧
        b = round_half_up
          ((a.grades_count.getD i 0 : ℚ) / (max_grade_count a.grades_count : ℚ) * 40) ∧
        0 ≤ b ∧ b ≤ 40 ∧
        (a.grades_count.getD i 0 = max_grade_count a.grades_count → b = 40) := by
  have hlen := records_length st hwf
  have hle := records_length_le st hwf
  have hn1 : 1 ≤ st.student_count := by have := hwf.2.1; omega
  have hgc := grades_counts_eq st hwf
  have hsum := bucket_count_sum st.records
  have hlet := bucket_count_letters st.records
  have n0 := bucket_count_nonneg st.records 0
  have n1 := bucket_count_nonneg st.records 1
  have n2 := bucket_count_nonneg st.records 2
  have n3 := bucket_count_nonneg st.records 3
  have n4 := bucket_count_nonneg st.records 4
  obtain ⟨m1, m2, m3, m4, m5, m6, m7⟩ := max_grade_count_spec (bucket_count st.records 0)
    (bucket_count st.records 1) (bucket_count st.records 2) (bucket_count st.records 3)
    (bucket_count st.records 4)
  have hr : List.range 5 = [0, 1, 2, 3, 4] := rfl
  refine ⟨_, class_analysis_some st hne, ?_, ?_, ?_, ?_, ?_, ?_⟩
  · show grades_counts st = _
    rw [hgc, hlet.1, hlet.2.1, hlet.2.2.1, hlet.2.2.2.1, hlet.2.2.2.2]
  · show (grades_counts st).sum = _
    rw [hgc]
    simp only [List.sum_cons, List.sum_nil]
    omega
  · show 1 ≤ max_grade_count (grades_counts st)
    rw [hgc]
    exact m1
  · intro i hi
    show (grades_counts st).getD i 0 ≤ max_grade_count (grades_counts st)
    rw [hgc]
    interval_cases i <;>
      simp only [List.getD_cons_succ, List.getD_cons_zero] <;> assumption
  · show ∃ i, i < 5 ∧ (grades_counts st).getD i 0 = max_grade_count (grades_counts st)
    rw [hgc]
    generalize max_grade_count _ = m at m1 m2 m3 m4 m5 m6 m7
    by_cases h0 : bucket_count st.records 0 = m
    · exact ⟨0, by omega, h0⟩
    by_cases h1 : bucket_count st.records 1 = m
    · exact ⟨1, by omega, h1⟩
    by_cases h2 : bucket_count st.records 2 = m
    · exact ⟨2, by omega, h2⟩
    by_cases h3 : bucket_count st.records 3 = m
    · exact ⟨3, by omega, h3⟩
    by_cases h4 : bucket_count st.records 4 = m
    · exact ⟨4, by omega, h4⟩
    exfalso
    omega
  · intro i hi
    show ∃ b : Int, ((List.range 5).map fun i =>
        bar_scale ((grades_counts st).getD i 0) (max_grade_count (grades_counts st)))[i]?
          = some b ∧
        b = bar_scale ((grades_counts st).getD i 0) (max_grade_count (grades_counts st)) ∧
        b = round_half_up
          (((grades_counts st).getD i 0 : ℚ) / (max_grade_count (grades_counts st) : ℚ) * 40) ∧
        0 ≤ b ∧ b ≤ 40 ∧
        ((grades_counts st).getD i 0 = max_grade_count (grades_counts st) → b = 40)
    rw [hgc, hr]
    generalize max_grade_count _ = m at m1 m2 m3 m4 m5 m6 m7
    have hm200 : m ≤ 200 := by omega
    interval_cases i
    · exact ⟨_, rfl, rfl, bar_scale_round _ m n0 m2 m1 hm200,
        bar_scale_bounds _ m n0 m2 m1 hm200⟩
    · exact ⟨_, rfl, rfl, bar_scale_round _ m n1 m3 m1 hm200,
        bar_scale_bounds _ m n1 m3 m1 hm200⟩
    · exact ⟨_, rfl, rfl, bar_scale_round _ m n2 m4 m1 hm200,
        bar_scale_bounds _ m n2 m4 m1 hm200⟩
    · exact ⟨_, rfl, rfl, bar_scale_round _ m n3 m5 m1 hm200,
        bar_scale_bounds _ m n3 m5 m1 hm200⟩
    · exact ⟨_, rfl, rfl, bar_scale_round _ m n4 m6 m1 hm200,
        bar_scale_bounds _ m n4 m6 m1 hm200⟩

theorem grade_distribution_bars_witness :
    graded_store.wf ∧ graded_store.student_count ≠ 0 ∧
    ∃ a : Analysis, class_analysis graded_store = some a ∧
      a.grades_count = [16, 1, 0, 0, 1] ∧
      max_grade_count a.grades_count = 16 ∧
      a.grade_bar[0]? = some 40 ∧ a.grade_bar[1]? = some 3 ∧ a.grade_bar[2]? = some 0 ∧
      a.grade_bar[3]? = some 0 ∧ a.grade_bar[4]? = some 3 := by
  obtain ⟨a, ha, hg, _, _, _, _, hb⟩ :=
    grade_distribution_bars graded_store graded_store_wf (by decide)
  have hg2 : a.grades_count = [16, 1, 0, 0, 1] := hg.trans (by decide)
  have hm : max_grade_count a.grades_count = 16 := by rw [hg2]; decide
  have hbar : ∀ i, i < 5 → ∀ v : ℤ,
      round_half_up ((([16, 1, 0, 0, 1] : List ℤ).getD i 0 : ℚ) / ((16 : ℤ) : ℚ) * 40) = v →
      a.grade_bar[i]? = some v := by
    intro i hi v hv
    obtain ⟨b, hb1, _, hb2, _⟩ := hb i hi
    rw [hm, hg2, hv] at hb2
    rw [hb1, hb2]
  refine ⟨graded_store_wf, by decide, a, ha, hg2, hm, ?_, ?_, ?_, ?_, ?_⟩
  · exact hbar 0 (by decide) 40 (by norm_num [round_half_up])
  · apply hbar 1 (by decide) 3
    simp only [round_half_up, List.getD_cons_succ, List.getD_cons_zero]
    rw [Int.floor_eq_iff]
    norm_num
  · exact hbar 2 (by decide) 0 (by norm_num [round_half_up])
  · exact hbar 3 (by decide) 0 (by norm_num [round_half_up])
  · apply hbar 4 (by decide) 3
    simp only [round_half_up, List.getD_cons_succ, List.getD_cons_zero]
    rw [Int.floor_eq_iff]
    norm_num

/-- C15 (counterexample): in the store of two records whose first marks are 3
and 4 the exact average of subject 0 is 3.5; `class_analysis` draws a bar of
length 2 for it, while `round(3.5 / 100 * 40) = round(1.4)` is 1. -/
theorem subject_bar_two_store :
    col_sum two_store.records 0 = 7 ∧ two_store.student_count = 2 ∧
    (class_analysis two_store).map (fun a => a.subject_bar[0]?) = some (some 2) ∧
    round_half_up ((7 : ℚ) / 2 / 100 * 40) = 1 := by
  have hc : col_sum two_store.records 0 = 7 := by decide
  have hn : two_store.student_count = 2 := rfl
  refine ⟨hc, hn, ?_, ?_⟩
  · rw [class_analysis_some two_store (by decide)]
    simp only [Option.map_some']
    rw [subject_bar_getElem? two_store two_store_wf (by decide) (by decide) 0 (by decide),
      hc, hn]
    rfl
  · unfold round_half_up
    rw [Int.floor_eq_iff]
    constructor <;> norm_num

/-- C15 (amended): for every non-empty store with 5 marks in `[0,100]` per
record and every subject `j`, the bar length that `class_analysis` draws for
the subject average is `round(v / 100 * BAR_WIDTH)` with `BAR_WIDTH = 40`,
where `v = round(average[j])` is the exact mean of mark `j` over all records
rounded to the nearest integer (halves up); it lies in `[0, 40]`. -/
theorem subject_bar_rounds_rounded_average (st : Store) (hwf : st.wf)
    (hne : st.student_count ≠ 0) (hl : ∀ s ∈ st.records, s.marks_ok) :
    ∃ a : Analysis, class_analysis st = some a ∧
      ∀ j, j < SUBJECTS →
        a.subject_bar[j]? = some
          (round_half_up
            ((round_half_up ((col_sum st.records j : ℚ) / st.student_count) : ℚ)
              / 100 * 40)) ∧
        0 ≤ round_half_up
            ((round_half_up ((col_sum st.records j : ℚ) / st.student_count) : ℚ)
              / 100 * 40) ∧
        round_half_up
            ((round_half_up ((col_sum st.records j : ℚ) / st.student_count) : ℚ)
              / 100 * 40) ≤ 40 := by
  have hlen := records_length st hwf
  have hn1 : 1 ≤ st.student_count := by have := hwf.2.1; omega
  refine ⟨_, class_analysis_some st hne, ?_⟩
  intro j hj
  have hcb := col_sum_bounds st.records hl j
  have hS : col_sum st.records j ≤ 100 * st.student_count := by rw [← hlen]; exact hcb.2
  have hv := round_div_bounds (col_sum st.records j) st.student_count hcb.1 hn1 hS
  rw [round_half_up_div _ _ (by omega), round_half_up_scale]
  refine ⟨subject_bar_getElem? st hwf hne hl j hj, ?_, ?_⟩ <;> omega

theorem subject_bar_rounds_rounded_average_witness :
    two_store.wf ∧ two_store.student_count ≠ 0 ∧
    (∀ s ∈ two_store.records, s.marks_ok) ∧
    ∃ a : Analysis, class_analysis two_store = some a ∧
      ∀ j, j < SUBJECTS →
        a.subject_bar[j]? = some
          (round_half_up
            ((round_half_up ((col_sum two_store.records j : ℚ) / two_store.student_count) : ℚ)
              / 100 * 40)) ∧
        0 ≤ round_half_up
            ((round_half_up ((col_sum two_store.records j : ℚ) / two_store.student_count) : ℚ)
              / 100 * 40) ∧
        round_half_up
            ((round_half_up ((col_sum two_store.records j : ℚ) / two_store.student_count) : ℚ)
              / 100 * 40) ≤ 40 :=
  ⟨two_store_wf, by decide, by decide,
   subject_bar_rounds_rounded_average two_store two_store_wf (by decide) (by decide)⟩

/-- C16 (failing input): on the store that already holds the demo fixture,
`load_demo_data` appends the five records again (count 10, rolls 1 to 5 twice),
while five sequential adds with the fixture's rolls are all rejected as
duplicates and leave the store as it was (count 5). -/
theorem load_demo_differs_from_adds :
    (load_demo_data demo_store).1.student_count = 10 ∧
    (load_demo_data demo_store).1.records.map Student.roll
      = [1, 2, 3, 4, 5, 1, 2, 3, 4, 5] ∧
    demo_adds demo_store = demo_store ∧
    (demo_adds demo_store).student_count = 5 ∧
    (load_demo_data demo_store).1 ≠ demo_adds demo_store := by
  have h1 : (load_demo_data demo_store).1.student_count = 10 := by decide
  have h2 : (load_demo_data demo_store).1.records.map Student.roll
      = [1, 2, 3, 4, 5, 1, 2, 3, 4, 5] := by decide
  have h3 : demo_adds demo_store = demo_store := by
    have hadd : ∀ (roll : Int) (name : String) (marks : List Int),
        demo_store.has_roll roll → (add_student demo_store roll name marks).1 = demo_store := by
      intro roll name marks h
      obtain ⟨k, s, hk, _⟩ := find_index_of_has_roll demo_store roll h
      unfold add_student
      rw [if_neg (by decide), if_pos (by rw [hk]; omega)]
    simp only [demo_adds, demo_students, List.foldl_cons, List.foldl_nil]
    rw [hadd 1 _ _ (by decide), hadd 2 _ _ (by decide), hadd 3 _ _ (by decide),
      hadd 4 _ _ (by decide), hadd 5 _ _ (by decide)]
  have h4 : (demo_adds demo_store).student_count = 5 := by rw [h3]; decide
  refine ⟨h1, h2, h3, h4, ?_⟩
  intro h
  rw [h] at h1
  rw [h4] at h1
  exact absurd h1 (by decide)

/-- C17: the end-to-end scenario on the empty store: add roll 1 with marks
`[88,76,92,85,79]` gives total 420, percentage 84.0 and grade 'B'; then modify
roll 1 with `[-1,-1,-1,-1,95]` gives marks `[88,76,92,85,95]`, total 436,
percentage 87.2 (the float nearest to it, within `2^-18`) and grade 'A'; then
delete roll 1 leaves the store empty, and `class_analysis` on it returns at
once with the empty-store message, computing nothing. -/
theorem end_to_end_scenario :
    scenario_added.2 = Signal.added ∧
    scenario_added.1.records =
      [{ roll := 1, name := "Asha", marks := [88, 76, 92, 85, 79], total := 420,
         percentage := CFloat.fin 84, grade := 'B' }] ∧
    scenario_modified.2 = Signal.updated ∧
    scenario_modified.1.records =
      [{ roll := 1, name := "Asha", marks := [88, 76, 92, 85, 95], total := 436,
         percentage := f32_round (872 / 10), grade := 'A' }] ∧
    (∃ p : ℚ, f32_round (872 / 10) = CFloat.fin p ∧ |p - 872 / 10| ≤ 1 / 2 ^ 18) ∧
    scenario_deleted.2 = Signal.deleted ∧
    scenario_deleted.1.student_count = 0 ∧
    scenario_deleted.1.records = [] ∧
    class_analysis scenario_deleted.1 = none := by
  rw [scenario_added_eq, scenario_modified_eq, scenario_deleted_eq]
  refine ⟨rfl, rfl, rfl, rfl, ?_, rfl, rfl, rfl, rfl⟩
  exact f32_round_near (872 / 10) (by norm_num) (by norm_num)

/-- C18: round trip of persistence: for every store of `N` records with
`0 <= N <= 200`, the file written by `save_to_file` holds the count `N`
followed by the first `N` records, and `load_from_file` on it, into any store,
yields count `N` and the same `N` records in the same order; and a file whose
declared count exceeds 200 loads as an empty store (count 0, no records, the
array untouched). -/
theorem save_load_round_trip (st st0 : Store) (disk : Option DataFile) (hwf : st.wf) :
    (save_to_file st disk true).2 = FileSignal.saved ∧
    (save_to_file st disk true).1 =
      some { count := st.student_count, records := st.records } ∧
    (load_from_file st0 (save_to_file st disk true).1).1.student_count
      = st.student_count ∧
    (load_from_file st0 (save_to_file st disk true).1).1.records = st.records ∧
    (∀ f : DataFile, f.count > (MAX_STUDENTS : Int) →
      (load_from_file st0 (some f)).1 = { st0 with student_count := 0 } ∧
      (load_from_file st0 (some f)).1.student_count = 0 ∧
      (load_from_file st0 (some f)).1.records = []) := by
  have hle := wf_count_le st hwf
  obtain ⟨hlen, h0, h1⟩ := hwf
  have hsz : size_t_of_int st.student_count = st.student_count.toNat := by
    unfold size_t_of_int
    rw [if_pos h0]
  have hsave : save_to_file st disk true
      = (some { count := st.student_count, records := st.records }, FileSignal.saved) := by
    unfold save_to_file
    rw [if_neg (by decide), hsz]
    rfl
  have hrl : st.records.length = st.student_count.toNat := by
    simp only [Store.records, List.length_take]
    omega
  rw [hsave]
  refine ⟨rfl, rfl, ?_, ?_, ?_⟩
  · simp only [load_from_file]
    rw [if_neg (by omega)]
  · simp only [load_from_file, Store.records]
    rw [if_neg (by omega), hsz, List.length_take, min_eq_left hle, min_self,
      List.take_append_eq_append_take, List.take_take, min_self, List.length_take,
      List.length_take, min_eq_left hle, min_self, Nat.sub_self, List.take_zero,
      List.append_nil, List.take_take, min_self]
  · intro f hf
    have hl : load_from_file st0 (some f) = ({ st0 with student_count := 0 },
        FileSignal.loaded) := by
      simp only [load_from_file]
      rw [if_pos hf]
      simp [size_t_of_int]
    rw [hl]
    refine ⟨rfl, rfl, ?_⟩
    simp [Store.records]

theorem save_load_round_trip_witness :
    demo_store.wf ∧
    (load_from_file Store.empty (save_to_file demo_store none true).1).1.student_count = 5 ∧
    (load_from_file Store.empty (save_to_file demo_store none true).1).1.records
      = demo_store.records :=
  ⟨demo_store_wf,
   (save_load_round_trip demo_store Store.empty none demo_store_wf).2.2.1.trans (by decide),
   (save_load_round_trip demo_store Store.empty none demo_store_wf).2.2.2.1⟩

/-- C19: for every store and every roll, `find_index_by_roll` returns the
smallest index `k` in `[0, count)` with `students[k].roll = roll` when such a
record exists, returns -1 if and only if no record among the first `count` has
that roll, and never inspects positions at or beyond `count`: its result is
the same on any store with the same count and the same first `count` slots. -/
theorem find_index_by_roll_first_match (st : Store) (roll : Int) (hwf : st.wf) :
    (st.has_roll roll → ∃ k : Nat, find_index_by_roll st roll = (k : Int) ∧
      k < st.records.length ∧ (∃ s, st.records[k]? = some s ∧ s.roll = roll) ∧
      ∀ j, j < k → ∀ s2, st.records[j]? = some s2 → s2.roll ≠ roll) ∧
    (find_index_by_roll st roll = -1 ↔ ¬ st.has_roll roll) ∧
    (∀ st2 : Store, st2.student_count = st.student_count → st2.records = st.records →
      find_index_by_roll st2 roll = find_index_by_roll st roll) := by
  have hle := wf_count_le st hwf
  have hrec : ∀ j, j < st.student_count.toNat → st.records[j]? = st.students[j]? := by
    intro j hj
    simp only [Store.records]
    rw [List.getElem?_take, if_pos hj]
  have hreclen : st.records.length = st.student_count.toNat := by
    simp only [Store.records, List.length_take]; omega
  refine ⟨?_, ?_, ?_⟩
  · intro h
    obtain ⟨k, s, hk, hkc, hs, hr, hfirst⟩ := find_index_of_has_roll st roll h
    refine ⟨k, hk, by omega, ⟨s, by rw [hrec k hkc]; exact hs, hr⟩, ?_⟩
    intro j hj s2 hs2
    rw [hrec j (by omega)] at hs2
    exact hfirst j hj s2 hs2
  · constructor
    · intro hneg hhas
      obtain ⟨k, _, hk, _⟩ := find_index_of_has_roll st roll hhas
      rw [hk] at hneg
      omega
    · exact find_index_of_not_has_roll st roll hle
  · intro st2 hc hr
    unfold find_index_by_roll
    rw [hc]
    apply find_loop_congr
    intro j _ hj
    apply getD_eq_of_take_eq _ _ st.student_count.toNat j (by omega)
    have := hr
    simp only [Store.records] at this
    rw [hc] at this
    exact this

theorem find_index_by_roll_first_match_witness :
    demo_store.wf ∧ demo_store.has_roll 3 ∧ find_index_by_roll demo_store 3 = 2 ∧
    (find_index_by_roll demo_store 42 = -1 ↔ ¬ demo_store.has_roll 42) :=
  ⟨demo_store_wf, by decide, by decide,
   (find_index_by_roll_first_match demo_store 42 demo_store_wf).2.1⟩

/-- C20: `cmp_percentage_desc` is a consistent comparator on non-NaN
percentages (`cmp(a,b) = -cmp(b,a)`, and `cmp(a,b) <= 0` and `cmp(b,c) <= 0`
imply `cmp(a,c) <= 0`); hence, for a `qsort` meeting its contract and every
store whose records' percentages are not NaN, `sort_by_percentage` only
reorders: the resulting record sequence is a permutation of the original one
(same records, same multiplicities, each record intact), the count is
unchanged, and so are the slots beyond the count. -/
theorem sort_by_percentage_permutes
    (qsort : List Student → (Student → Student → Int) → List Student)
    (hq : qsort_contract qsort) (st : Store)
    (hnan : ∀ s ∈ st.records, s.percentage ≠ CFloat.nan) :
    (∀ a b : Student, cmp_percentage_desc a b = -cmp_percentage_desc b a) ∧
    (∀ a b c : Student, b.percentage ≠ CFloat.nan →
      cmp_percentage_desc a b ≤ 0 → cmp_percentage_desc b c ≤ 0 →
      cmp_percentage_desc a c ≤ 0) ∧
    List.Perm (sort_by_percentage qsort st).1.records st.records ∧
    (sort_by_percentage qsort st).1.student_count = st.student_count ∧
    (sort_by_percentage qsort st).1.students.drop st.student_count.toNat
      = st.students.drop st.student_count.toNat := by
  refine ⟨cmp_percentage_desc_swap, ?_, ?_⟩
  · intro a b c hb h1 h2
    rw [cmp_percentage_desc_le_iff] at h1 h2 ⊢
    exact CFloat.lt_false_trans _ _ _ hb h1 h2
  · by_cases hle : st.student_count ≤ 1
    · have hs : (sort_by_percentage qsort st).1 = st := by
        unfold sort_by_percentage
        rw [if_pos hle]
      rw [hs]
      exact ⟨List.Perm.refl _, rfl, rfl⟩
    · have hcons := cmp_percentage_desc_consistent _ hnan
      obtain ⟨hr, _, hcount, _⟩ := sort_by_percentage_records qsort hq st hcons hle
      have hc := hq st.records cmp_percentage_desc hcons
      refine ⟨by rw [hr]; exact hc.1, hcount, ?_⟩
      have hs : (sort_by_percentage qsort st).1.students
          = qsort st.records cmp_percentage_desc
            ++ st.students.drop st.student_count.toNat := by
        unfold sort_by_percentage
        rw [if_neg hle]
        rfl
      have hlen : (qsort st.records cmp_percentage_desc).length
          = min st.student_count.toNat st.students.length := by
        rw [hc.1.length_eq, Store.records, List.length_take]
      rw [hs]
      by_cases hn : st.student_count.toNat ≤ st.students.length
      · rw [List.drop_append_of_le_length (by rw [hlen]; omega),
          List.drop_of_length_le (by rw [hlen]; omega), List.nil_append]
      · have e1 : List.drop st.student_count.toNat st.students = [] :=
          List.drop_of_length_le (by omega)
        rw [e1, List.append_nil]
        exact List.drop_of_length_le (by rw [hlen]; omega)

theorem sort_by_percentage_permutes_witness :
    qsort_contract insertion_sort ∧
    (∀ s ∈ two_store.records, s.percentage ≠ CFloat.nan) ∧
    List.Perm (sort_by_percentage insertion_sort two_store).1.records two_store.records ∧
    (sort_by_percentage insertion_sort two_store).1.student_count = 2 :=
  ⟨insertion_sort_contract, by decide,
   (sort_by_percentage_permutes insertion_sort insertion_sort_contract two_store
      (by decide)).2.2.1,
   (sort_by_percentage_permutes insertion_sort insertion_sort_contract two_store
      (by decide)).2.2.2.1⟩

end StudentAnalyzer
